import Mathlib

/-! Label categorisation, mutation and result caching.

A shallow embedding of `pkg/logql/log/labels.go`: the per-line `LabelsBuilder`
(mutation API `Set` / `Del` / `Add` / `GetWithCategory`), finalisation
(`UnsortedLabels`, `labels`, `LabelsResult`), the grouping engine
(`GroupedLabels`) and the shared result cache.

Modelling conventions.

* `labels.Labels` is a Go slice of `labels.Label`; it is a `List Label` here.  A nil
  slice and an empty slice are both `[]`.
* Go panics (index or slice bounds out of range) are `none` in `Option`.
* Functions of the Go standard library and of `prometheus/model/labels` whose
  code is outside this package (the two sorts, the two hashes, `String()`, the
  `labels.Builder`) and the constants of sibling packages are the fields of `Lib`.
  Neither `sort.Sort` nor `slices.SortFunc` is stable, so a sort is only known to
  return a permutation ordered by name.
* The scratch buffer `b.buf` is truncated before every use and no operation reads
  what an earlier call left in it, so it is not part of the state.  `baseMap` and
  `jsonPaths` are only touched by `Map`, `IntoMap` and the JSON-path accessors,
  which are not modelled.
* The `ParserHint` object is represented by the log of names passed to
  `RecordExtracted` since the last `Reset`.
* The result cache `map[uint64]LabelsResult` is an association list; the code only
  inserts under a key it has just found absent.
-/

namespace Loki

/-! ## Data model -/

/-- A label of `prometheus/model/labels`: a name/value pair. -/
structure Label where
  Name : String
  Value : String
deriving DecidableEq, Repr

/-- The type `labels.Labels` (slice implementation). -/
abbrev Labels := List Label

/-- The order of every sort in the source: by `Name` only. -/
def nameLE (a b : Label) : Prop := a.Name ≤ b.Name

/-- The type `LabelCategory` with its four constants, in `iota` order. -/
inductive LabelCategory where
  | StreamLabel
  | StructuredMetadataLabel
  | ParsedLabel
  | InvalidCategory
deriving DecidableEq, Repr

open LabelCategory

/-- The variable `allCategories`. -/
def allCategories : List LabelCategory :=
  [StreamLabel, StructuredMetadataLabel, ParsedLabel]

/-- The function `categoriesContain`. -/
def categoriesContain : List LabelCategory → LabelCategory → Bool
  | [], _ => false
  | c :: cs, category => if c = category then true else categoriesContain cs category

/-- The function `labelsContain`. -/
def labelsContain : Labels → String → Bool
  | [], _ => false
  | l :: ls, name => if l.Name = name then true else labelsContain ls name

/-- The method `labels.Labels.Has` of the library: some label has this name. -/
def Labels.Has (ls : Labels) (name : String) : Bool :=
  ls.any (fun l => decide (l.Name = name))

/-- The method `labels.Labels.Get` of the library: the value of the first label with
this name, the empty string when there is none. -/
def Labels.Get : Labels → String → String
  | [], _ => ""
  | l :: ls, name => if l.Name = name then l.Value else Labels.Get ls name

/-- The struct `labelsResult`, the only implementation of the interface
`LabelsResult`. -/
structure labelsResult where
  s : String
  h : Nat
  stream : Labels
  structuredMetadata : Labels
  parsed : Labels
deriving DecidableEq, Repr

/-- The function `NewLabelsResult`. -/
def NewLabelsResult (allLabelsStr : String) (hash : Nat)
    (stream structuredMetadata parsed : Labels) : labelsResult :=
  { s := allLabelsStr, h := hash, stream := stream,
    structuredMetadata := structuredMetadata, parsed := parsed }

/-- What the source takes from outside the package: the constants
`logqlmodel.ErrorLabel`, `logqlmodel.ErrorDetailsLabel` and `duplicateSuffix`, the
library hashes (`hasher.Hash`, that is `Labels.HashWithoutLabels` with no name, and
`Labels.Hash`; a `uint64` is a natural number here), `Labels.String`, the two sorts
by name with the only contract an unstable sort has, and the two uses of
`labels.Builder` in `toBaseGroup`. -/
structure Lib where
  ErrorLabel : String
  ErrorDetailsLabel : String
  duplicateSuffix : String
  hasherHash : Labels → Nat
  labelsHash : Labels → Nat
  labelsString : Labels → String
  sortSort : Labels → Labels
  slicesSortFunc : Labels → Labels
  builderDel : Labels → List String → Labels
  builderKeep : Labels → List String → Labels
  sortSort_perm : ∀ l, List.Perm (sortSort l) l
  sortSort_sorted : ∀ l, List.Sorted nameLE (sortSort l)
  slicesSortFunc_perm : ∀ l, List.Perm (slicesSortFunc l) l
  slicesSortFunc_sorted : ∀ l, List.Sorted nameLE (slicesSortFunc l)

/-- The function `labels.New` of the library: a sorted copy. -/
def labelsNew (L : Lib) (ls : Labels) : Labels := L.slicesSortFunc ls

/-- The function `flattenLabels` (applied to a nil buffer). -/
def flattenLabels (L : Lib) (many : List Labels) : Labels :=
  L.sortSort many.flatten

/-- The method `labelsResult.Stream` (nil for an empty subset). -/
def labelsResult.Stream (l : labelsResult) : Labels :=
  if l.stream.length = 0 then [] else l.stream

/-- The method `labelsResult.StructuredMetadata`. -/
def labelsResult.StructuredMetadata (l : labelsResult) : Labels :=
  if l.structuredMetadata.length = 0 then [] else l.structuredMetadata

/-- The method `labelsResult.Parsed`. -/
def labelsResult.Parsed (l : labelsResult) : Labels :=
  if l.parsed.length = 0 then [] else l.parsed

/-- The method `labelsResult.Hash`. -/
def labelsResult.Hash (l : labelsResult) : Nat := l.h

/-- The method `labelsResult.String`. -/
def labelsResult.String (l : labelsResult) := l.s

/-- The method `labelsResult.Labels`. -/
def labelsResult.Labels (L : Lib) (l : labelsResult) : List Label :=
  flattenLabels L [l.stream, l.structuredMetadata, l.parsed]

/-- The variable `EmptyLabelsResult`. -/
def EmptyLabelsResult (L : Lib) : labelsResult :=
  NewLabelsResult (L.labelsString []) (L.labelsHash []) [] [] []

/-- The struct `BaseLabelsBuilder`.  The array `add` is its three entries
`addStream` (index `StreamLabel`), `addStructuredMetadata` and `addParsed`. -/
structure BaseLabelsBuilder where
  del : List String
  addStream : Labels
  addStructuredMetadata : Labels
  addParsed : Labels
  err : String
  errDetails : String
  groups : List String
  parserKeyHints : List String
  without : Bool
  noLabels : Bool
  referencedStructuredMetadata : Bool
  resultCache : List (Nat × labelsResult)
deriving DecidableEq, Repr

/-- The struct `LabelsBuilder`; the embedded pointer to the shared
`BaseLabelsBuilder` is the parent structure. -/
structure LabelsBuilder extends BaseLabelsBuilder where
  base : Labels
  currentResult : labelsResult
  groupedResult : Option labelsResult
deriving DecidableEq, Repr

/-- The function `NewBaseLabelsBuilderWithGrouping`. -/
def NewBaseLabelsBuilderWithGrouping (groups : List String) (without noLabels : Bool) :
    BaseLabelsBuilder :=
  { del := [], addStream := [], addStructuredMetadata := [], addParsed := [],
    err := "", errDetails := "", groups := groups, parserKeyHints := [],
    without := without, noLabels := noLabels, referencedStructuredMetadata := false,
    resultCache := [] }

/-- The function `NewBaseLabelsBuilder`. -/
def NewBaseLabelsBuilder : BaseLabelsBuilder :=
  NewBaseLabelsBuilderWithGrouping [] false false

/-- The method `BaseLabelsBuilder.ForLabels`. -/
def BaseLabelsBuilder.ForLabels (L : Lib) (b : BaseLabelsBuilder) (lbs : Labels)
    (hash : Nat) : LabelsBuilder :=
  match b.resultCache.lookup hash with
  | some labelResult =>
    { toBaseLabelsBuilder := b, base := lbs, currentResult := labelResult,
      groupedResult := none }
  | none =>
    let labelResult := NewLabelsResult (L.labelsString lbs) hash lbs [] []
    { toBaseLabelsBuilder := { b with resultCache := (hash, labelResult) :: b.resultCache },
      base := lbs, currentResult := labelResult, groupedResult := none }

/-- The method `BaseLabelsBuilder.Reset`. -/
def BaseLabelsBuilder.Reset (b : BaseLabelsBuilder) : BaseLabelsBuilder :=
  { b with del := [], addStream := [], addStructuredMetadata := [], addParsed := [],
           err := "", errDetails := "", parserKeyHints := [] }

/-- The method `Reset` called on a per-line builder (promoted from the embedded
base builder). -/
def LabelsBuilder.Reset (b : LabelsBuilder) : LabelsBuilder :=
  { b with toBaseLabelsBuilder := b.toBaseLabelsBuilder.Reset }

/-- The method `hasDel`. -/
def BaseLabelsBuilder.hasDel (b : BaseLabelsBuilder) : Bool := decide (b.del.length > 0)

/-- The method `hasAdd`. -/
def BaseLabelsBuilder.hasAdd (b : BaseLabelsBuilder) : Bool :=
  decide (b.addStream.length > 0) || decide (b.addStructuredMetadata.length > 0)
    || decide (b.addParsed.length > 0)

/-- The method `sizeAdd`. -/
def BaseLabelsBuilder.sizeAdd (b : BaseLabelsBuilder) : Nat :=
  b.addStream.length + b.addStructuredMetadata.length + b.addParsed.length

/-- The expression `b.add[category]` read: out of range for `InvalidCategory`. -/
def BaseLabelsBuilder.add (b : BaseLabelsBuilder) : LabelCategory → Option Labels
  | StreamLabel => some b.addStream
  | StructuredMetadataLabel => some b.addStructuredMetadata
  | ParsedLabel => some b.addParsed
  | InvalidCategory => none

/-- The assignment `b.add[category] = ls`. -/
def LabelsBuilder.setAdd (b : LabelsBuilder) : LabelCategory → Labels → Option LabelsBuilder
  | StreamLabel, ls => some { b with addStream := ls }
  | StructuredMetadataLabel, ls => some { b with addStructuredMetadata := ls }
  | ParsedLabel, ls => some { b with addParsed := ls }
  | InvalidCategory, _ => none

/-- The method `SetErr`. -/
def LabelsBuilder.SetErr (b : LabelsBuilder) (err : String) : LabelsBuilder :=
  { b with err := err }

/-- The method `GetErr`. -/
def LabelsBuilder.GetErr (b : LabelsBuilder) : String := b.err

/-- The method `HasErr`. -/
def LabelsBuilder.HasErr (b : LabelsBuilder) : Bool := decide (b.err ≠ "")

/-- The method `SetErrorDetails`. -/
def LabelsBuilder.SetErrorDetails (b : LabelsBuilder) (desc : String) : LabelsBuilder :=
  { b with errDetails := desc }

/-- The method `ResetError`. -/
def LabelsBuilder.ResetError (b : LabelsBuilder) : LabelsBuilder :=
  { b with err := "" }

/-- The method `ResetErrorDetails`. -/
def LabelsBuilder.ResetErrorDetails (b : LabelsBuilder) : LabelsBuilder :=
  { b with errDetails := "" }

/-- The method `GetErrorDetails`. -/
def LabelsBuilder.GetErrorDetails (b : LabelsBuilder) : String := b.errDetails

/-- The method `HasErrorDetails`. -/
def LabelsBuilder.HasErrorDetails (b : LabelsBuilder) : Bool := decide (b.errDetails ≠ "")

/-- The method `BaseHas`. -/
def LabelsBuilder.BaseHas (b : LabelsBuilder) (key : String) : Bool :=
  Labels.Has b.base key

/-! ## Point lookup -/

/-- The inner loop of `getWithCategory` and of `withResult`: the first label of the
list with this name. -/
def lookupLabel : Labels → String → Option Label
  | [], _ => none
  | l :: ls, key => if l.Name = key then some l else lookupLabel ls key

/-- The loop `for category, lbls := range b.add` of `getWithCategory` and of
`withResult`: the pending lists are visited in index order, `StreamLabel` first. -/
def BaseLabelsBuilder.lookupAdd (b : BaseLabelsBuilder) (key : String) :
    Option (Label × LabelCategory) :=
  match lookupLabel b.addStream key with
  | some l => some (l, StreamLabel)
  | none =>
    match lookupLabel b.addStructuredMetadata key with
    | some l => some (l, StructuredMetadataLabel)
    | none =>
      match lookupLabel b.addParsed key with
      | some l => some (l, ParsedLabel)
      | none => none

/-- The method `getWithCategory`. -/
def LabelsBuilder.getWithCategory (b : LabelsBuilder) (key : String) :
    String × LabelCategory × Bool :=
  match b.lookupAdd key with
  | some (l, category) => (l.Value, category, true)
  | none =>
    if b.del.contains key then ("", InvalidCategory, false)
    else
      match lookupLabel b.base key with
      | some l => (l.Value, StreamLabel, true)
      | none => ("", InvalidCategory, false)

/-- The method `GetWithCategory`: the lookup, and the builder with the
`referencedStructuredMetadata` flag raised when the category is structured
metadata. -/
def LabelsBuilder.GetWithCategory (b : LabelsBuilder) (key : String) :
    (String × LabelCategory × Bool) × LabelsBuilder :=
  let r := b.getWithCategory key
  if r.2.1 = StructuredMetadataLabel then
    (r, { b with referencedStructuredMetadata := true })
  else (r, b)

/-- The method `Get`. -/
def LabelsBuilder.Get (b : LabelsBuilder) (key : String) : (String × Bool) × LabelsBuilder :=
  let r := b.GetWithCategory key
  ((r.1.1, r.1.2.2), r.2)

/-! ## Mutation -/

/-- The range loop of `deleteWithCategory` over the slice `b.add[category]` as it was
when the loop started.  `k` iterations remain, `i` is the loop index, `arr` the
backing array on the positions the loop reads, `cur` the current length of
`b.add[category]`.  At a label named `n` the statement
`append(s[:i], s[i+1:]...)` needs `i+1 ≤ len(s)` (it panics otherwise), moves the
positions `i+1 .. cur-1` of the backing array one place down and shortens the slice
by one; the positions from `cur-1` on keep what they held.  At the end the slice is
the first `cur` positions. -/
def deleteLoop (n : String) : Nat → Nat → List Label → Nat → Option Labels
  | 0, _, arr, cur => some (arr.take cur)
  | k + 1, i, arr, cur =>
    match arr.get? i with
    | none => none
    | some l =>
      if l.Name = n then
        if i + 1 ≤ cur then
          deleteLoop n k (i + 1)
            (arr.take i ++ ((arr.drop (i + 1)).take (cur - (i + 1)) ++ arr.drop (cur - 1)))
            (cur - 1)
        else none
      else deleteLoop n k (i + 1) arr cur

/-- The method `deleteWithCategory`. -/
def LabelsBuilder.deleteWithCategory (b : LabelsBuilder) (category : LabelCategory)
    (n : String) : Option LabelsBuilder :=
  match b.add category with
  | none => none
  | some xs =>
    match deleteLoop n xs.length 0 xs xs.length with
    | none => none
    | some ys => b.setAdd category ys

/-- The body of the loop of `Del` for one name: the name leaves the three pending
lists (in index order) and is appended to `del`. -/
def LabelsBuilder.delOne (b : LabelsBuilder) (n : String) : Option LabelsBuilder :=
  (b.deleteWithCategory StreamLabel n).bind fun b1 =>
  (b1.deleteWithCategory StructuredMetadataLabel n).bind fun b2 =>
  (b2.deleteWithCategory ParsedLabel n).map fun b3 =>
  { b3 with del := b3.del ++ [n] }

/-- The method `Del`. -/
def LabelsBuilder.Del : LabelsBuilder → List String → Option LabelsBuilder
  | b, [] => some b
  | b, n :: ns => (b.delOne n).bind fun b1 => LabelsBuilder.Del b1 ns

/-- The last loop of `Set`: the value of the first label named `n` is overwritten in
place; `none` when no label has this name. -/
def overwriteValue (n v : String) : Labels → Option Labels
  | [] => none
  | a :: as =>
    if a.Name = n then some ({ a with Value := v } :: as)
    else (overwriteValue n v as).map fun r => a :: r

/-- The end of `Set`, after the precedence checks: overwrite in place, else append
and, for a parsed label, record the name with the parser hints. -/
def LabelsBuilder.store (b : LabelsBuilder) (category : LabelCategory) (n v : String) :
    Option LabelsBuilder :=
  match b.add category with
  | none => none
  | some xs =>
    match overwriteValue n v xs with
    | some ys => b.setAdd category ys
    | none =>
      (b.setAdd category (xs ++ [{ Name := n, Value := v }])).map fun b1 =>
        if category = ParsedLabel then { b1 with parserKeyHints := b1.parserKeyHints ++ [n] }
        else b1

/-- The method `Set`. -/
def LabelsBuilder.Set (b : LabelsBuilder) (category : LabelCategory) (n v : String) :
    Option LabelsBuilder :=
  (if category = ParsedLabel then
      (b.deleteWithCategory StructuredMetadataLabel n).bind fun b0 =>
        b0.deleteWithCategory StreamLabel n
    else some b).bind fun b1 =>
  (if category = StructuredMetadataLabel then b1.deleteWithCategory StreamLabel n
    else some b1).bind fun b2 =>
  if category = StructuredMetadataLabel ∧ labelsContain b2.addParsed n = true then some b2
  else if category = StreamLabel ∧
      (labelsContain b2.addStructuredMetadata n = true ∨ labelsContain b2.addParsed n = true)
    then some b2
  else b2.store category n v

/-- The method `Add`; `lbs.Range` visits the labels in order. -/
def LabelsBuilder.Add (L : Lib) (b : LabelsBuilder) (category : LabelCategory) :
    Labels → Option LabelsBuilder
  | [] => some b
  | l :: lbs =>
    let name := if b.BaseHas l.Name then l.Name ++ L.duplicateSuffix else l.Name
    if name = L.ErrorLabel then
      LabelsBuilder.Add L { b with err := l.Value } category lbs
    else if name = L.ErrorDetailsLabel then
      LabelsBuilder.Add L { b with errDetails := l.Value } category lbs
    else
      (b.Set category name l.Value).bind fun b1 => LabelsBuilder.Add L b1 category lbs

/-! ## Finalisation -/

/-- The method `appendErrors`. -/
def LabelsBuilder.appendErrors (L : Lib) (b : LabelsBuilder) (buf : Labels) : Labels :=
  let buf1 := if b.err ≠ "" then buf ++ [{ Name := L.ErrorLabel, Value := b.err }] else buf
  if b.errDetails ≠ "" then buf1 ++ [{ Name := L.ErrorDetailsLabel, Value := b.errDetails }]
  else buf1

/-- The body of the loop over the base labels in the general path of
`UnsortedLabels`: what one base label contributes. -/
def LabelsBuilder.streamEntry (b : LabelsBuilder) (l : Label) : Option Label :=
  if b.del.contains l.Name then none
  else if labelsContain b.addStructuredMetadata l.Name then none
  else if labelsContain b.addParsed l.Name then none
  else if labelsContain b.addStream l.Name then
    some { Name := l.Name, Value := Labels.Get b.addStream l.Name }
  else some l

/-- The method `UnsortedLabels`.  The variadic `categories` is `none` when the call
passes no category (a nil slice).  The buffer argument only lends its capacity. -/
def LabelsBuilder.UnsortedLabels (L : Lib) (b : LabelsBuilder)
    (categories : Option (List LabelCategory)) : Labels :=
  let cats := categories.getD allCategories
  if (!b.hasDel && !b.hasAdd && categoriesContain cats StreamLabel) = true then
    if categoriesContain cats ParsedLabel = true then b.appendErrors L b.base else b.base
  else
    let buf1 := if categoriesContain cats StreamLabel = true then
        b.base.filterMap b.streamEntry else []
    let buf2 := if categoriesContain cats StructuredMetadataLabel = true then
        buf1 ++ b.addStructuredMetadata.filter (fun l => !labelsContain b.addParsed l.Name)
      else buf1
    let buf3 := if categoriesContain cats ParsedLabel = true then buf2 ++ b.addParsed else buf2
    if ((b.HasErr || b.HasErrorDetails) && categoriesContain cats ParsedLabel) = true then
      b.appendErrors L buf3
    else buf3

/-- The method `labels`: `UnsortedLabels` sorted with `sort.Sort`. -/
def LabelsBuilder.labels (L : Lib) (b : LabelsBuilder)
    (categories : Option (List LabelCategory)) : Labels :=
  L.sortSort (b.UnsortedLabels L categories)

/-- The category test of the segregation loop of `LabelsResult`: the two error
labels are parsed, then the parsed pending list is asked, then the structured
metadata one. -/
def LabelsBuilder.categoryOf (L : Lib) (b : LabelsBuilder) (l : Label) : LabelCategory :=
  if l.Name = L.ErrorLabel ∨ l.Name = L.ErrorDetailsLabel then ParsedLabel
  else if labelsContain b.addParsed l.Name then ParsedLabel
  else if labelsContain b.addStructuredMetadata l.Name then StructuredMetadataLabel
  else StreamLabel

/-- The method `LabelsResult`: the result and the builder after the call (the result
cache may have grown). -/
def LabelsBuilder.LabelsResult (L : Lib) (b : LabelsBuilder) : labelsResult × LabelsBuilder :=
  if (!b.hasDel && !b.hasAdd && !b.HasErr) = true then (b.currentResult, b)
  else
    let buf := L.slicesSortFunc (b.UnsortedLabels L none)
    let hash := L.hasherHash buf
    match b.resultCache.lookup hash with
    | some cached => (cached, b)
    | none =>
      let stream := buf.filter fun l => decide (b.categoryOf L l = StreamLabel)
      let structuredMeta := buf.filter fun l => decide (b.categoryOf L l = StructuredMetadataLabel)
      let parsed := buf.filter fun l => decide (b.categoryOf L l = ParsedLabel)
      let result := NewLabelsResult (L.labelsString buf) hash (labelsNew L stream)
        (labelsNew L structuredMeta) (labelsNew L parsed)
      (result, { b with resultCache := (hash, result) :: b.resultCache })

/-- The method `toUncategorizedResult`. -/
def LabelsBuilder.toUncategorizedResult (L : Lib) (b : LabelsBuilder) (buf : Labels) :
    labelsResult × LabelsBuilder :=
  let hash := L.hasherHash buf
  match b.resultCache.lookup hash with
  | some cached => (cached, b)
  | none =>
    let res := NewLabelsResult (L.labelsString buf) hash buf [] []
    (res, { b with resultCache := (hash, res) :: b.resultCache })

/-! ## Grouping -/

/-- The loop of `withResult` over the group names: the buffer, and whether a label
was taken from the structured metadata pending list. -/
def LabelsBuilder.withLoop (b : LabelsBuilder) : List String → Labels × Bool
  | [] => ([], false)
  | g :: gs =>
    let rest := LabelsBuilder.withLoop b gs
    if b.del.contains g then rest
    else
      match b.lookupAdd g with
      | some (l, category) =>
        (l :: rest.1, decide (category = StructuredMetadataLabel) || rest.2)
      | none =>
        match lookupLabel b.base g with
        | some l => (l :: rest.1, rest.2)
        | none => rest

/-- The method `withResult`. -/
def LabelsBuilder.withResult (L : Lib) (b : LabelsBuilder) : labelsResult × LabelsBuilder :=
  let r := b.withLoop b.groups
  let b1 : LabelsBuilder :=
    if r.2 = true then { b with referencedStructuredMetadata := true } else b
  b1.toUncategorizedResult L r.1

/-- The method `withoutResult`. -/
def LabelsBuilder.withoutResult (L : Lib) (b : LabelsBuilder) : labelsResult × LabelsBuilder :=
  let kept := b.base.filter fun l =>
    !b.del.contains l.Name &&
    !(labelsContain b.addStream l.Name || labelsContain b.addStructuredMetadata l.Name
        || labelsContain b.addParsed l.Name) &&
    !b.groups.contains l.Name
  let notGrouped : Label → Bool := fun la => !b.groups.contains la.Name
  let buf := kept ++ b.addStream.filter notGrouped
    ++ b.addStructuredMetadata.filter notGrouped ++ b.addParsed.filter notGrouped
  let b1 : LabelsBuilder :=
    if b.addStructuredMetadata.any (fun la => b.groups.contains la.Name) = true then
      { b with referencedStructuredMetadata := true }
    else b
  b1.toUncategorizedResult L (L.sortSort buf)

/-- The method `toBaseGroup`. -/
def LabelsBuilder.toBaseGroup (L : Lib) (b : LabelsBuilder) : labelsResult × LabelsBuilder :=
  match b.groupedResult with
  | some r => (r, b)
  | none =>
    let lbs := if b.without = true then L.builderDel b.base b.groups
      else L.builderKeep b.base b.groups
    let res := NewLabelsResult (L.labelsString lbs) (L.labelsHash lbs) lbs [] []
    (res, { b with groupedResult := some res })

/-- The method `GroupedLabels`. -/
def LabelsBuilder.GroupedLabels (L : Lib) (b : LabelsBuilder) : labelsResult × LabelsBuilder :=
  if b.HasErr = true then b.LabelsResult L
  else if b.noLabels = true then (EmptyLabelsResult L, b)
  else if (!b.hasDel && !b.hasAdd) = true then
    if b.groups.length = 0 then (b.currentResult, b) else b.toBaseGroup L
  else if b.groups.length = 0 then b.LabelsResult L
  else if b.without = true then b.withoutResult L
  else b.withResult L

/-! ## A concrete library

An instance of `Lib` on which the definitions can be evaluated: the constants of
the upstream packages, an insertion sort by name for both sorts, an injective
encoding as the hash, and filters for the two `labels.Builder` calls.  Its hasher
reads every label; the hasher of the source leaves out the labels named `__name__`,
which the library `promLib` below does as well. -/

/-- The order by name on the character lists, which evaluates by unfolding. -/
def nameListLE (a b : Label) : Prop := a.Name.toList ≤ b.Name.toList

instance nameListLE.decidableRel : DecidableRel nameListLE :=
  fun a b => inferInstanceAs (Decidable (a.Name.toList ≤ b.Name.toList))

instance nameListLE.isTotal : IsTotal Label nameListLE :=
  ⟨fun a b => le_total a.Name.toList b.Name.toList⟩

instance nameListLE.isTrans : IsTrans Label nameListLE :=
  ⟨fun _ _ _ h1 h2 => le_trans h1 h2⟩

/-- Insertion sort by name. -/
def sortByName (ls : Labels) : Labels := List.insertionSort nameListLE ls

/-- An injective encoding of a label sequence as a natural number. -/
def encodeLabels (ls : Labels) : Nat :=
  Encodable.encode
    (ls.map fun l => (l.Name.toList.map Char.toNat, l.Value.toList.map Char.toNat))

/-- A rendering of a label sequence. -/
def renderLabels (ls : Labels) : String :=
  "\x7b" ++ String.intercalate ", " (ls.map fun l => l.Name ++ "=" ++ l.Value) ++ "\x7d"

/-- The concrete library. -/
def stdLib : Lib :=
  { ErrorLabel := "__error__"
    ErrorDetailsLabel := "__error_details__"
    duplicateSuffix := "_extracted"
    hasherHash := encodeLabels
    labelsHash := encodeLabels
    labelsString := renderLabels
    sortSort := sortByName
    slicesSortFunc := sortByName
    builderDel := fun base ns =>
      base.filter fun l => decide (l.Value ≠ "") && !ns.contains l.Name
    builderKeep := fun base ns =>
      base.filter fun l => decide (l.Value ≠ "") && ns.contains l.Name
    sortSort_perm := fun ls => List.perm_insertionSort nameListLE ls
    sortSort_sorted := fun ls =>
      List.Pairwise.imp (fun {_ _} hab => String.le_iff_toList_le.mpr hab)
        (List.sorted_insertionSort nameListLE ls)
    slicesSortFunc_perm := fun ls => List.perm_insertionSort nameListLE ls
    slicesSortFunc_sorted := fun ls =>
      List.Pairwise.imp (fun {_ _} hab => String.le_iff_toList_le.mpr hab)
        (List.sorted_insertionSort nameListLE ls) }

/-! ## Reachable states and the invariant of the pending lists -/

/-- The builder states a pipeline can produce: per-line builders made by `ForLabels`
on a new base builder or on the shared base builder of an earlier line, and every
state the modelled methods lead to. -/
inductive Reachable (L : Lib) : LabelsBuilder → Prop
  | fresh (groups : List String) (without noLabels : Bool) (lbs : Labels) (hash : Nat) :
      Reachable L ((NewBaseLabelsBuilderWithGrouping groups without noLabels).ForLabels L lbs hash)
  | forLabels (b : LabelsBuilder) (lbs : Labels) (hash : Nat) :
      Reachable L b → Reachable L (b.toBaseLabelsBuilder.ForLabels L lbs hash)
  | reset (b : LabelsBuilder) : Reachable L b → Reachable L b.Reset
  | set (b b1 : LabelsBuilder) (c : LabelCategory) (n v : String) :
      Reachable L b → b.Set c n v = some b1 → Reachable L b1
  | del (b b1 : LabelsBuilder) (ns : List String) :
      Reachable L b → b.Del ns = some b1 → Reachable L b1
  | add (b b1 : LabelsBuilder) (c : LabelCategory) (lbs : Labels) :
      Reachable L b → b.Add L c lbs = some b1 → Reachable L b1
  | setErr (b : LabelsBuilder) (e : String) : Reachable L b → Reachable L (b.SetErr e)
  | setErrorDetails (b : LabelsBuilder) (e : String) :
      Reachable L b → Reachable L (b.SetErrorDetails e)
  | resetError (b : LabelsBuilder) : Reachable L b → Reachable L b.ResetError
  | resetErrorDetails (b : LabelsBuilder) : Reachable L b → Reachable L b.ResetErrorDetails
  | getWithCategory (b : LabelsBuilder) (key : String) :
      Reachable L b → Reachable L (b.GetWithCategory key).2
  | labelsResult (b : LabelsBuilder) : Reachable L b → Reachable L (b.LabelsResult L).2
  | groupedLabels (b : LabelsBuilder) : Reachable L b → Reachable L (b.GroupedLabels L).2

/-- The names of a label sequence. -/
def names (ls : Labels) : List String := ls.map Label.Name

/-- The invariant of the pending lists: a name is staged at most once, over the
three lists together. -/
def BaseLabelsBuilder.Inv (b : BaseLabelsBuilder) : Prop :=
  (names (b.addStream ++ b.addStructuredMetadata ++ b.addParsed)).Nodup

/-- The list without its labels named `n`. -/
def dropName (n : String) (ls : Labels) : Labels :=
  ls.filter fun l => decide (l.Name ≠ n)

/-- The value stored by the end of `Set`: overwritten in place, else appended. -/
def upsert (n v : String) (xs : Labels) : Labels :=
  (overwriteValue n v xs).getD (xs ++ [{ Name := n, Value := v }])

/-! ## Definitions used to state the claims -/

/-- The name is staged in a pending list of strictly higher precedence than the
category: the parsed list for structured metadata, the structured metadata or the
parsed list for a stream label. -/
def stagedHigher (b : LabelsBuilder) : LabelCategory → String → Prop
  | StreamLabel, n => n ∈ names b.addStructuredMetadata ∨ n ∈ names b.addParsed
  | StructuredMetadataLabel, n => n ∈ names b.addParsed
  | ParsedLabel, _ => False
  | InvalidCategory, _ => False

/-- The resolution order of a point lookup in the words of the specification:
parsed, structured metadata, stream pending list, deletion list, base labels. -/
def resolveInOrder (b : LabelsBuilder) (n : String) : String × LabelCategory × Bool :=
  match lookupLabel b.addParsed n with
  | some l => (l.Value, ParsedLabel, true)
  | none =>
    match lookupLabel b.addStructuredMetadata n with
    | some l => (l.Value, StructuredMetadataLabel, true)
    | none =>
      match lookupLabel b.addStream n with
      | some l => (l.Value, StreamLabel, true)
      | none =>
        if n ∈ b.del then ("", InvalidCategory, false)
        else
          match lookupLabel b.base n with
          | some l => (l.Value, StreamLabel, true)
          | none => ("", InvalidCategory, false)

/-- What the specification says `UnsortedLabels()` holds for the name `n`: the parsed
pending value; else the structured metadata pending value when `n` is not parsed; else,
for a base label that is not deleted and not staged as parsed or structured metadata,
the stream pending value if there is one and the base value otherwise. -/
def finalizesTo (b : LabelsBuilder) (n v : String) : Prop :=
  ({ Name := n, Value := v } : Label) ∈ b.addParsed ∨
  (({ Name := n, Value := v } : Label) ∈ b.addStructuredMetadata ∧ n ∉ names b.addParsed) ∨
  (n ∈ names b.base ∧ n ∉ b.del ∧ n ∉ names b.addParsed ∧
    n ∉ names b.addStructuredMetadata ∧
    v = if n ∈ names b.addStream then Labels.Get b.addStream n else Labels.Get b.base n)

/-- The sorted sequence `LabelsResult` hashes: `UnsortedLabels()` over all categories,
sorted by name with `slices.SortFunc`. -/
def LabelsBuilder.finalized (L : Lib) (b : LabelsBuilder) : Labels :=
  L.slicesSortFunc (b.UnsortedLabels L none)

/-- A label whose name is staged as parsed or is a reserved error label. -/
def LabelsBuilder.inParsedClass (L : Lib) (b : LabelsBuilder) (l : Label) : Bool :=
  decide (l.Name ∈ names b.addParsed ∨ l.Name = L.ErrorLabel ∨ l.Name = L.ErrorDetailsLabel)

/-- A label whose name is staged as structured metadata and is not a reserved error
label. -/
def LabelsBuilder.inMetaClass (L : Lib) (b : LabelsBuilder) (l : Label) : Bool :=
  decide (l.Name ∈ names b.addStructuredMetadata ∧ l.Name ≠ L.ErrorLabel ∧
    l.Name ≠ L.ErrorDetailsLabel)

/-! ## Concrete builders -/

/-- A fresh per-line builder over the base labels `app="x"`, `env="prod"`. -/
def exampleBuilder : LabelsBuilder :=
  NewBaseLabelsBuilder.ForLabels stdLib
    [{ Name := "app", Value := "x" }, { Name := "env", Value := "prod" }]
    (encodeLabels [{ Name := "app", Value := "x" }, { Name := "env", Value := "prod" }])

/-- The builder `exampleBuilder` after `Set(ParsedLabel, "level", "error")`. -/
def exampleParsed : LabelsBuilder :=
  { exampleBuilder with
    addParsed := [{ Name := "level", Value := "error" }]
    parserKeyHints := ["level"] }

/-- The example of the specification: the builder `exampleParsed` after
`Set(StructuredMetadataLabel, "app", "y")`. -/
def exampleFinal : LabelsBuilder :=
  { exampleParsed with addStructuredMetadata := [{ Name := "app", Value := "y" }] }

/-- The fresh builder over `app="x"`, `env="prod"` after
`Set(ParsedLabel, "app", "x")`: the parsed label repeats the base value. -/
def exampleShadow : LabelsBuilder :=
  { exampleBuilder with
    addParsed := [{ Name := "app", Value := "x" }]
    parserKeyHints := ["app"] }

/-- The example of the specification with the error `boom` and the details `at 3`. -/
def exampleError : LabelsBuilder :=
  (exampleFinal.SetErr "boom").SetErrorDetails "at 3"

/-- The fresh builder over `app="x"`, `env="prod"` with only error details set. -/
def exampleDetailsOnly : LabelsBuilder := exampleBuilder.SetErrorDetails "at 3"

/-- A builder over the base label `__error__="boom"`, created with the hash of its
base, after `Del("__error__")` and `SetErr("boom")`. -/
def exampleErrorBase : LabelsBuilder :=
  { NewBaseLabelsBuilder.ForLabels stdLib [{ Name := "__error__", Value := "boom" }]
      (encodeLabels [{ Name := "__error__", Value := "boom" }]) with
    del := ["__error__"]
    err := "boom" }

/-- A builder over `app="x"`, `env="prod"` with the groups `app`, the `without` and
`noLabels` flags raised, a parsed label and the error `boom`. -/
def exampleGrouped : LabelsBuilder :=
  { (NewBaseLabelsBuilderWithGrouping ["app"] true true).ForLabels stdLib
      [{ Name := "app", Value := "x" }, { Name := "env", Value := "prod" }]
      (encodeLabels [{ Name := "app", Value := "x" }, { Name := "env", Value := "prod" }]) with
    addParsed := [{ Name := "level", Value := "error" }]
    parserKeyHints := ["level"]
    err := "boom" }

/-- A builder over `app="x"`, `env="prod"` with the `noLabels` flag raised, the groups
`app`, a deletion and a parsed label, and no error. -/
def exampleNoLabels : LabelsBuilder :=
  { (NewBaseLabelsBuilderWithGrouping ["app"] false true).ForLabels stdLib
      [{ Name := "app", Value := "x" }, { Name := "env", Value := "prod" }]
      (encodeLabels [{ Name := "app", Value := "x" }, { Name := "env", Value := "prod" }]) with
    del := ["env"]
    addParsed := [{ Name := "level", Value := "error" }]
    parserKeyHints := ["level"] }

/-- The names staged in the three pending lists. -/
def BaseLabelsBuilder.stagedNames (b : BaseLabelsBuilder) : List String :=
  names (b.addStream ++ b.addStructuredMetadata ++ b.addParsed)

/-- One label of `Add` in the words of the specification: the name is suffixed when
it collides with a base name; then a name equal to the reserved error label only sets
`err`, a name equal to the reserved error-details label only sets `errDetails`, and
any other label is applied as `Set(category, name, value)`. -/
def LabelsBuilder.addOne (L : Lib) (b : LabelsBuilder) (category : LabelCategory)
    (l : Label) : Option LabelsBuilder :=
  let name := if b.BaseHas l.Name then l.Name ++ L.duplicateSuffix else l.Name
  if name = L.ErrorLabel then some { b with err := l.Value }
  else if name = L.ErrorDetailsLabel then some { b with errDetails := l.Value }
  else b.Set category name l.Value

/-- The labels of a sequence processed in order, one `addOne` after the other. -/
def LabelsBuilder.addInOrder (L : Lib) (b : LabelsBuilder) (category : LabelCategory)
    (lbs : Labels) : Option LabelsBuilder :=
  lbs.foldlM (fun acc l => LabelsBuilder.addOne L acc category l) b

/-! ## String interning -/

/-- The constant `MaxInternedStrings`. -/
def MaxInternedStrings : Nat := 1024

/-- The type `internedStringSet`: a Go map from the string made of the bytes of the
key to the struct of a string and a flag.  A map has one entry per key, so it is an
association list without duplicate keys, and `len(i)` is its number of entries. -/
abbrev internedStringSet := AList (fun _ : List (Fin 256) => String × Bool)

/-- The method `internedStringSet.Get`: the returned pair and the set after the call.
The constructor `createNew` is a function without argument. -/
def internedStringSet.Get (i : internedStringSet) (data : List (Fin 256))
    (createNew : Unit → String × Bool) : (String × Bool) × internedStringSet :=
  match i.lookup data with
  | some s => (s, i)
  | none =>
    let p := createNew ()
    if i.entries.length ≥ MaxInternedStrings then (p, i)
    else (p, i.insert data p)

/-- A fresh per-line builder over the base labels `a="1"`, `a_extracted="2"`. -/
def exampleSuffixBase : LabelsBuilder :=
  NewBaseLabelsBuilder.ForLabels stdLib
    [{ Name := "a", Value := "1" }, { Name := "a_extracted", Value := "2" }]
    (encodeLabels [{ Name := "a", Value := "1" }, { Name := "a_extracted", Value := "2" }])

/-! ## Coherent builders: the result cache over several lines -/

/-- The labels of a result before `Labels()` sorts them: the three subsets one after
the other. -/
def labelsResult.all (r : labelsResult) : List Label :=
  r.stream ++ r.structuredMetadata ++ r.parsed

/-- What the cache holds under the key `k` when every insertion was made with the
hasher's hash: a result whose hash is `k` and whose hash and string are those of one
name-sorted arrangement of its labels. -/
def EntryOK (L : Lib) (k : Nat) (r : labelsResult) : Prop :=
  ∃ seq : Labels, seq.Perm r.all ∧ List.Sorted nameLE seq ∧ k = L.hasherHash seq ∧
    r.h = k ∧ r.s = L.labelsString seq

/-- Every entry of a result cache is as `EntryOK` says. -/
def CacheOK (L : Lib) (cache : List (Nat × labelsResult)) : Prop :=
  ∀ k r, (k, r) ∈ cache → EntryOK L k r

/-- The result cache after a method call: as it was, or extended with one entry under
a key that was absent. -/
def CacheGrows (c c1 : List (Nat × labelsResult)) : Prop :=
  c1 = c ∨ ∃ k r, c1 = (k, r) :: c ∧ c.lookup k = none

/-- The result `toBaseGroup` computes (and memoises in `groupedResult`). -/
def LabelsBuilder.baseGroupResult (L : Lib) (b : LabelsBuilder) : labelsResult :=
  NewLabelsResult
    (L.labelsString (if b.without = true then L.builderDel b.base b.groups
      else L.builderKeep b.base b.groups))
    (L.labelsHash (if b.without = true then L.builderDel b.base b.groups
      else L.builderKeep b.base b.groups))
    (if b.without = true then L.builderDel b.base b.groups else L.builderKeep b.base b.groups)
    [] []

/-- What the loop of `withResult` appends for one group name. -/
def LabelsBuilder.withEntry (b : LabelsBuilder) (g : String) : Option Label :=
  if b.del.contains g then none
  else
    match b.lookupAdd g with
    | some (l, _) => some l
    | none => lookupLabel b.base g

/-- One method call on a per-line builder, or the start of a new line: `ForLabels` is
given a name-sorted base and the hasher's hash of it. -/
inductive Step (L : Lib) : LabelsBuilder → LabelsBuilder → Prop
  | forLabels (b : LabelsBuilder) (lbs : Labels) :
      List.Sorted nameLE lbs →
      Step L b (b.toBaseLabelsBuilder.ForLabels L lbs (L.hasherHash lbs))
  | reset (b : LabelsBuilder) : Step L b b.Reset
  | set (b b1 : LabelsBuilder) (c : LabelCategory) (n v : String) :
      b.Set c n v = some b1 → Step L b b1
  | del (b b1 : LabelsBuilder) (ns : List String) : b.Del ns = some b1 → Step L b b1
  | add (b b1 : LabelsBuilder) (c : LabelCategory) (lbs : Labels) :
      b.Add L c lbs = some b1 → Step L b b1
  | setErr (b : LabelsBuilder) (e : String) : Step L b (b.SetErr e)
  | setErrorDetails (b : LabelsBuilder) (e : String) : Step L b (b.SetErrorDetails e)
  | resetError (b : LabelsBuilder) : Step L b b.ResetError
  | resetErrorDetails (b : LabelsBuilder) : Step L b b.ResetErrorDetails
  | getWithCategory (b : LabelsBuilder) (key : String) : Step L b (b.GetWithCategory key).2
  | labelsResult (b : LabelsBuilder) : Step L b (b.LabelsResult L).2
  | groupedLabels (b : LabelsBuilder) : Step L b (b.GroupedLabels L).2

/-- The builders of a query whose lines are all started with a name-sorted base and
the hasher's hash of it, over a name-sorted list of groups. -/
inductive Coherent (L : Lib) : LabelsBuilder → Prop
  | fresh (groups : List String) (without noLabels : Bool) (lbs : Labels) :
      List.Sorted (fun a b : String => a ≤ b) groups → List.Sorted nameLE lbs →
      Coherent L ((NewBaseLabelsBuilderWithGrouping groups without noLabels).ForLabels L lbs
        (L.hasherHash lbs))
  | step (b b1 : LabelsBuilder) : Coherent L b → Step L b b1 → Coherent L b1

/-- The builder `b1` is reached from `b` by method calls and new lines. -/
def Later (L : Lib) (b b1 : LabelsBuilder) : Prop :=
  Relation.ReflTransGen (Step L) b b1

/-- What holds of the result cache, the current result and the memoised base group of
a coherent builder. -/
structure CoherentInv (L : Lib) (b : LabelsBuilder) : Prop where
  cacheOK : CacheOK L b.resultCache
  keysNodup : (b.resultCache.map Prod.fst).Nodup
  current : b.resultCache.lookup (L.hasherHash b.base) = some b.currentResult
  grouped : ∀ r, b.groupedResult = some r → r = b.baseGroupResult L
  groupsSorted : List.Sorted (fun a b : String => a ≤ b) b.groups
  baseSorted : List.Sorted nameLE b.base

/-- A call that changed nothing but the scratch state of the line (deletions, pending
additions, error values, parser hints, metadata flag). -/
def ScratchOnly (b b1 : LabelsBuilder) : Prop :=
  b1.base = b.base ∧ b1.currentResult = b.currentResult ∧
  b1.groupedResult = b.groupedResult ∧ b1.resultCache = b.resultCache ∧
  b1.groups = b.groups ∧ b1.without = b.without ∧ b1.noLabels = b.noLabels

/-- The builder of the next line after `exampleBuilder` was finalized: `Reset`, then
`ForLabels` over `app="x"`, `env="prod"`, `zone="a"` with the hash of these labels. -/
def exampleNextLine : LabelsBuilder :=
  (exampleBuilder.LabelsResult stdLib).2.Reset.toBaseLabelsBuilder.ForLabels stdLib
    [{ Name := "app", Value := "x" }, { Name := "env", Value := "prod" },
     { Name := "zone", Value := "a" }]
    (encodeLabels [{ Name := "app", Value := "x" }, { Name := "env", Value := "prod" },
      { Name := "zone", Value := "a" }])

/-- The builder `exampleNextLine` after `Del("zone")`. -/
def exampleNextLineDel : LabelsBuilder :=
  { exampleNextLine with del := ["zone"] }

/-- The invariant of a result in the words of the specification: `Labels()` is the
name-sorted concatenation of the three subsets, `Hash()` is the hash of that sequence
and `String()` is its string form. -/
def resultInvariant (L : Lib) (r : labelsResult) : Prop :=
  ((r.Labels L).Perm (r.Stream ++ r.StructuredMetadata ++ r.Parsed) ∧
    List.Sorted nameLE (r.Labels L)) ∧
  r.Hash = L.hasherHash (r.Labels L) ∧ r.String = L.labelsString (r.Labels L)

/-- The invariant of a result for the hash function `hash`, up to the order of labels
of the same name: `Labels()` is the name-sorted concatenation of the three subsets, and
`Hash()` and `String()` are the hash and the string form of one name-sorted arrangement
of these labels, which is `Labels()` itself when no name occurs twice. -/
def resultInvariantFor (L : Lib) (hash : Labels → Nat) (r : labelsResult) : Prop :=
  ((r.Labels L).Perm (r.Stream ++ r.StructuredMetadata ++ r.Parsed) ∧
    List.Sorted nameLE (r.Labels L)) ∧
  ∃ seq : Labels, seq.Perm (r.Labels L) ∧ List.Sorted nameLE seq ∧
    r.Hash = hash seq ∧ r.String = L.labelsString seq ∧
    ((names (r.Labels L)).Nodup → seq = r.Labels L)

/-- A builder over `a="1"`, `b="2"`, created with the hash of its base, with the
groups `b`, `a` in this order, after `Del("c")`. -/
def exampleUnsortedGroups : LabelsBuilder :=
  { (NewBaseLabelsBuilderWithGrouping ["b", "a"] false false).ForLabels stdLib
      [{ Name := "a", Value := "1" }, { Name := "b", Value := "2" }]
      (encodeLabels [{ Name := "a", Value := "1" }, { Name := "b", Value := "2" }]) with
    del := ["c"] }

/-- The grouping example of the specification: a fresh builder with `without=false` and
the groups `a`, `b` over the labels `a="1"`, `c="3"`. -/
def exampleKeep : LabelsBuilder :=
  (NewBaseLabelsBuilderWithGrouping ["a", "b"] false false).ForLabels stdLib
    [{ Name := "a", Value := "1" }, { Name := "c", Value := "3" }]
    (encodeLabels [{ Name := "a", Value := "1" }, { Name := "c", Value := "3" }])

/-- The builder `exampleKeep` after `Set(ParsedLabel, "b", "5")`. -/
def exampleKeepParsed : LabelsBuilder :=
  { exampleKeep with
    addParsed := [{ Name := "b", Value := "5" }]
    parserKeyHints := ["b"] }

/-- The builder `exampleKeep` after `Del("a")` and `Set(ParsedLabel, "a", "2")`. -/
def exampleKeepReadded : LabelsBuilder :=
  { exampleKeep with
    del := ["a"]
    addParsed := [{ Name := "a", Value := "2" }]
    parserKeyHints := ["a"] }

/-- A builder with `without=false` and the groups `__error_details__`, `a` over the
labels `a="1"`, `c="3"`, after `Del("c")` and `SetErrorDetails("d")`. -/
def exampleKeepDetails : LabelsBuilder :=
  { (NewBaseLabelsBuilderWithGrouping ["__error_details__", "a"] false false).ForLabels stdLib
      [{ Name := "a", Value := "1" }, { Name := "c", Value := "3" }]
      (encodeLabels [{ Name := "a", Value := "1" }, { Name := "c", Value := "3" }]) with
    del := ["c"]
    errDetails := "d" }

/-- The second grouping example of the specification: a fresh builder with
`without=true` and the group `a` over the labels `a="1"`, `b="2"`. -/
def exampleWithout : LabelsBuilder :=
  (NewBaseLabelsBuilderWithGrouping ["a"] true false).ForLabels stdLib
    [{ Name := "a", Value := "1" }, { Name := "b", Value := "2" }]
    (encodeLabels [{ Name := "a", Value := "1" }, { Name := "b", Value := "2" }])

/-- The builder `exampleWithout` after `Set(ParsedLabel, "level", "error")`. -/
def exampleWithoutParsed : LabelsBuilder :=
  { exampleWithout with
    addParsed := [{ Name := "level", Value := "error" }]
    parserKeyHints := ["level"] }

/-- The builder `exampleWithout` after `Set(StreamLabel, "c", "3")`. -/
def exampleWithoutStream : LabelsBuilder :=
  { exampleWithout with addStream := [{ Name := "c", Value := "3" }] }

/-- The builder `exampleWithout` after `Del("zz")` and `SetErrorDetails("d")`. -/
def exampleWithoutDetails : LabelsBuilder :=
  { exampleWithout with
    del := ["zz"]
    errDetails := "d" }

/-- The builder `exampleBuilder` after `Set(StreamLabel, "zone", "a")`: a stream label
is staged under a name that the base does not have. -/
def exampleStreamPending : LabelsBuilder :=
  { exampleBuilder with addStream := [{ Name := "zone", Value := "a" }] }

/-! ## The hasher of the source and the builders keyed by it -/

/-- The constant `labels.MetricName` of the library. -/
def MetricName : String := "__name__"

/-- What `hasher.Hash` reads: the method calls `Labels.HashWithoutLabels` with no name,
which hashes every label but those named `MetricName`. -/
def hashedLabels (ls : Labels) : Labels :=
  ls.filter fun l => decide (l.Name ≠ MetricName)

/-- The hasher has no collision on what it reads: label sequences with the same hash
are equal once the labels named `MetricName` are left out. -/
def HasherCollisionFree (L : Lib) : Prop :=
  ∀ a b : Labels, L.hasherHash a = L.hasherHash b → hashedLabels a = hashedLabels b

/-- The concrete library with a hasher shaped like the one of the source: an injective
encoding of the labels that `hasher.Hash` reads. -/
def promLib : Lib :=
  { stdLib with hasherHash := fun ls => encodeLabels (hashedLabels ls) }

/-- A cache entry stored under the hasher's hash of one arrangement of its labels. -/
def KeyedEntry (L : Lib) (k : Nat) (r : labelsResult) : Prop :=
  ∃ seq : Labels, seq.Perm r.all ∧ L.hasherHash seq = k

/-- Every entry of a result cache is as `KeyedEntry` says. -/
def CacheKeyed (L : Lib) (cache : List (Nat × labelsResult)) : Prop :=
  ∀ k r, (k, r) ∈ cache → KeyedEntry L k r

/-- The builders of a query whose lines are all started by `ForLabels` with the hasher's
hash of the base: per-line builders on a new base builder or on the shared base builder
of an earlier line, and every state the modelled methods lead to.  Nothing is asked of
the order of the base labels or of the groups. -/
inductive Keyed (L : Lib) : LabelsBuilder → Prop
  | fresh (groups : List String) (without noLabels : Bool) (lbs : Labels) :
      Keyed L ((NewBaseLabelsBuilderWithGrouping groups without noLabels).ForLabels L lbs
        (L.hasherHash lbs))
  | forLabels (b : LabelsBuilder) (lbs : Labels) :
      Keyed L b → Keyed L (b.toBaseLabelsBuilder.ForLabels L lbs (L.hasherHash lbs))
  | reset (b : LabelsBuilder) : Keyed L b → Keyed L b.Reset
  | set (b b1 : LabelsBuilder) (c : LabelCategory) (n v : String) :
      Keyed L b → b.Set c n v = some b1 → Keyed L b1
  | del (b b1 : LabelsBuilder) (ns : List String) :
      Keyed L b → b.Del ns = some b1 → Keyed L b1
  | add (b b1 : LabelsBuilder) (c : LabelCategory) (lbs : Labels) :
      Keyed L b → b.Add L c lbs = some b1 → Keyed L b1
  | setErr (b : LabelsBuilder) (e : String) : Keyed L b → Keyed L (b.SetErr e)
  | setErrorDetails (b : LabelsBuilder) (e : String) :
      Keyed L b → Keyed L (b.SetErrorDetails e)
  | resetError (b : LabelsBuilder) : Keyed L b → Keyed L b.ResetError
  | resetErrorDetails (b : LabelsBuilder) : Keyed L b → Keyed L b.ResetErrorDetails
  | getWithCategory (b : LabelsBuilder) (key : String) :
      Keyed L b → Keyed L (b.GetWithCategory key).2
  | labelsResult (b : LabelsBuilder) : Keyed L b → Keyed L (b.LabelsResult L).2
  | groupedLabels (b : LabelsBuilder) : Keyed L b → Keyed L (b.GroupedLabels L).2

/-- What holds of the result cache, the current result and the memoised base group of
a keyed builder. -/
structure KeyedInv (L : Lib) (b : LabelsBuilder) : Prop where
  entries : CacheKeyed L b.resultCache
  current : b.resultCache.lookup (L.hasherHash b.base) = some b.currentResult
  grouped : ∀ r, b.groupedResult = some r → r = b.baseGroupResult L

/-- The builder `exampleKeep` after `Set(StreamLabel, "b", "5")`: a stream label is
staged under a group name that the base does not have. -/
def exampleKeepStream : LabelsBuilder :=
  { exampleKeep with addStream := [{ Name := "b", Value := "5" }] }

/-- A builder with `without=false` and the groups `a`, `a` over the labels `a="1"`,
`c="3"`, after `Del("c")`. -/
def exampleKeepTwice : LabelsBuilder :=
  { (NewBaseLabelsBuilderWithGrouping ["a", "a"] false false).ForLabels stdLib
      [{ Name := "a", Value := "1" }, { Name := "c", Value := "3" }]
      (encodeLabels [{ Name := "a", Value := "1" }, { Name := "c", Value := "3" }]) with
    del := ["c"] }

/-- The first line of a query with `without=false` and the groups `__name__`, `a`, with
the hasher of the source: a fresh builder over the label `a="1"`. -/
def exampleNameFirst : LabelsBuilder :=
  (NewBaseLabelsBuilderWithGrouping ["__name__", "a"] false false).ForLabels promLib
    [{ Name := "a", Value := "1" }] (promLib.hasherHash [{ Name := "a", Value := "1" }])

/-- The second line of that query: after `Reset`, the builder over `__name__="m"`,
`a="1"`, `c="3"` created with the hasher's hash of these labels, after `Del("zz")`. -/
def exampleNameSecond : LabelsBuilder :=
  { exampleNameFirst.Reset.toBaseLabelsBuilder.ForLabels promLib
      [{ Name := "__name__", Value := "m" }, { Name := "a", Value := "1" },
       { Name := "c", Value := "3" }]
      (promLib.hasherHash [{ Name := "__name__", Value := "m" }, { Name := "a", Value := "1" },
        { Name := "c", Value := "3" }]) with
    del := ["zz"] }

/-- The first line of a query with `without=true` and the group `c`, with the hasher of
the source: a fresh builder over the label `a="1"`. -/
def exampleNameWithoutFirst : LabelsBuilder :=
  (NewBaseLabelsBuilderWithGrouping ["c"] true false).ForLabels promLib
    [{ Name := "a", Value := "1" }] (promLib.hasherHash [{ Name := "a", Value := "1" }])

/-- The second line of that query: after `Reset`, the builder over `__name__="m"`,
`a="1"`, `c="3"` created with the hasher's hash of these labels, after `Del("zz")`. -/
def exampleNameWithoutSecond : LabelsBuilder :=
  { exampleNameWithoutFirst.Reset.toBaseLabelsBuilder.ForLabels promLib
      [{ Name := "__name__", Value := "m" }, { Name := "a", Value := "1" },
       { Name := "c", Value := "3" }]
      (promLib.hasherHash [{ Name := "__name__", Value := "m" }, { Name := "a", Value := "1" },
        { Name := "c", Value := "3" }]) with
    del := ["zz"] }

/-! ## The concrete hash is collision-free -/

theorem charList_toNat_injective : Function.Injective (List.map Char.toNat) := by
  apply List.map_injective_iff.mpr
  intro a b hab
  have h := congrArg Char.ofNat hab
  simpa [Char.ofNat_toNat] using h

theorem encodeLabels_injective : Function.Injective encodeLabels := by
  intro a b hab
  have h1 := Encodable.encode_injective hab
  refine List.map_injective_iff.mpr ?_ h1
  intro x y hxy
  have hn := charList_toNat_injective (congrArg Prod.fst hxy)
  have hv := charList_toNat_injective (congrArg Prod.snd hxy)
  cases x; cases y
  simp only [Label.mk.injEq]
  exact ⟨String.ext hn, String.ext hv⟩

/-! ## Lemmas on the list helpers -/

theorem labelsContain_iff (ls : Labels) (n : String) :
    labelsContain ls n = true ↔ n ∈ names ls := by
  induction ls with
  | nil => simp [labelsContain, names]
  | cons a as ih =>
    unfold labelsContain
    by_cases h : a.Name = n
    · simp [h, names]
    · have h2 : ¬ n = a.Name := fun e => h e.symm
      simp only [h, if_false, ih]
      simp [names, h2]

theorem labelsContain_false_iff (ls : Labels) (n : String) :
    labelsContain ls n = false ↔ n ∉ names ls := by
  rw [← labelsContain_iff]; simp

theorem lookupLabel_none_iff (ls : Labels) (n : String) :
    lookupLabel ls n = none ↔ n ∉ names ls := by
  induction ls with
  | nil => simp [lookupLabel, names]
  | cons a as ih =>
    unfold lookupLabel
    by_cases h : a.Name = n
    · simp [h, names]
    · have h2 : ¬ n = a.Name := fun e => h e.symm
      simp only [h, if_false, ih]
      simp [names, h2]

theorem lookupLabel_some (ls : Labels) (n : String) (l : Label)
    (h : lookupLabel ls n = some l) : l ∈ ls ∧ l.Name = n := by
  induction ls with
  | nil => simp [lookupLabel] at h
  | cons a as ih =>
    unfold lookupLabel at h
    by_cases ha : a.Name = n
    · simp only [ha, if_true, Option.some.injEq] at h
      subst h
      exact ⟨List.mem_cons_self _ _, ha⟩
    · simp only [ha, if_false] at h
      exact ⟨List.mem_cons_of_mem _ (ih h).1, (ih h).2⟩

theorem lookupLabel_of_mem (ls : Labels) (l : Label) (hnd : (names ls).Nodup) (hl : l ∈ ls) :
    lookupLabel ls l.Name = some l := by
  induction ls with
  | nil => simp at hl
  | cons a as ih =>
    unfold lookupLabel
    simp only [names, List.map_cons, List.nodup_cons] at hnd
    rcases List.mem_cons.mp hl with h | h
    · subst h; simp
    · have hne : a.Name ≠ l.Name := by
        intro e
        exact hnd.1 (e ▸ List.mem_map_of_mem Label.Name h)
      simp only [hne, if_false]
      exact ih hnd.2 h

theorem names_append (xs ys : Labels) : names (xs ++ ys) = names xs ++ names ys := by
  simp [names]

theorem mem_names_of_mem {ls : Labels} {l : Label} (h : l ∈ ls) : l.Name ∈ names ls :=
  List.mem_map_of_mem Label.Name h

theorem names_dropName_sublist (n : String) (ls : Labels) :
    (names (dropName n ls)).Sublist (names ls) :=
  (List.filter_sublist ls).map Label.Name

theorem not_mem_names_dropName (n : String) (ls : Labels) : n ∉ names (dropName n ls) := by
  intro h
  obtain ⟨l, hl, hn⟩ := List.mem_map.mp h
  have := (List.mem_filter.mp hl).2
  simp [hn] at this

theorem mem_names_dropName {n m : String} {ls : Labels} :
    m ∈ names (dropName n ls) ↔ m ∈ names ls ∧ m ≠ n := by
  constructor
  · intro h
    refine ⟨(names_dropName_sublist n ls).subset h, fun e => ?_⟩
    subst e
    exact not_mem_names_dropName _ _ h
  · rintro ⟨h, hne⟩
    obtain ⟨l, hl, hn⟩ := List.mem_map.mp h
    refine List.mem_map.mpr ⟨l, List.mem_filter.mpr ⟨hl, ?_⟩, hn⟩
    simp [hn, hne]

theorem dropName_eq_self {n : String} {ls : Labels} (h : n ∉ names ls) : dropName n ls = ls := by
  apply List.filter_eq_self.mpr
  intro l hl
  have : l.Name ≠ n := fun e => h (e ▸ mem_names_of_mem hl)
  simp [this]

theorem lookupLabel_dropName_ne {n m : String} (ls : Labels) (h : m ≠ n) :
    lookupLabel (dropName n ls) m = lookupLabel ls m := by
  induction ls with
  | nil => rfl
  | cons a as ih =>
    by_cases ha : a.Name = n
    · have hm : a.Name ≠ m := fun e => h (e ▸ ha)
      have : dropName n (a :: as) = dropName n as := by simp [dropName, ha]
      rw [this, ih]
      simp [lookupLabel, hm]
    · have : dropName n (a :: as) = a :: dropName n as := by simp [dropName, ha]
      rw [this]
      unfold lookupLabel
      rw [ih]

/-! ## The loop of `deleteWithCategory` -/

theorem deleteLoop_no_match (n : String) :
    ∀ (k i : Nat) (arr : List Label) (cur : Nat),
      (∀ j l, i ≤ j → j < i + k → arr.get? j = some l → l.Name ≠ n) →
      i + k ≤ arr.length → deleteLoop n k i arr cur = some (arr.take cur) := by
  intro k
  induction k with
  | zero => intro i arr cur _ _; rfl
  | succ k ih =>
    intro i arr cur hne hlen
    have hi : i < arr.length := by omega
    obtain ⟨l, hl⟩ : ∃ l, arr.get? i = some l := ⟨arr.get ⟨i, hi⟩, List.get?_eq_get hi⟩
    have hln : l.Name ≠ n := hne i l (le_refl _) (by omega) hl
    unfold deleteLoop
    simp only [hl, hln, if_false]
    exact ih (i + 1) arr cur (fun j l hj hj2 h => hne j l (by omega) (by omega) h) (by omega)

theorem deleteLoop_nodup (n : String) :
    ∀ (rest pre : List Label), n ∉ names pre → (names rest).Nodup →
      deleteLoop n rest.length pre.length (pre ++ rest) (pre ++ rest).length
        = some (pre ++ dropName n rest) := by
  intro rest
  induction rest with
  | nil =>
    intro pre _ _
    simp [deleteLoop, dropName]
  | cons a as ih =>
    intro pre hpre hnd
    have hget : (pre ++ a :: as).get? pre.length = some a := by
      rw [List.get?_eq_getElem?, List.getElem?_append_right (le_refl _)]
      simp
    simp only [names, List.map_cons, List.nodup_cons] at hnd
    simp only [List.length_cons]
    unfold deleteLoop
    simp only [hget]
    by_cases ha : a.Name = n
    · have hnas : n ∉ names as := ha ▸ hnd.1
      have hcur : pre.length + 1 ≤ (pre ++ a :: as).length := by simp
      simp only [ha, if_true, hcur]
      have e1 : (pre ++ a :: as).take pre.length = pre := by simp
      have e2 : ((pre ++ a :: as).drop (pre.length + 1)).take
          ((pre ++ a :: as).length - (pre.length + 1)) = as := by
        have : (pre ++ a :: as).drop (pre.length + 1) = as := by
          rw [List.drop_append_eq_append_drop]
          simp
        rw [this]
        apply List.take_of_length_le
        simp only [List.length_append, List.length_cons]
        omega
      have e3 : (pre ++ a :: as).drop ((pre ++ a :: as).length - 1) = (a :: as).drop as.length := by
        rw [List.drop_append_eq_append_drop]
        simp
      rw [e1, e2, e3]
      have hlen : (pre ++ (as ++ (a :: as).drop as.length)).length = pre.length + 1 + as.length := by
        simp; omega
      rw [deleteLoop_no_match n as.length (pre.length + 1) _ _ ?_ (by rw [hlen])]
      · have hd : dropName n (a :: as) = as := by
          have : dropName n (a :: as) = dropName n as := by simp [dropName, ha]
          rw [this, dropName_eq_self hnas]
        rw [hd]
        have : (pre ++ a :: as).length - 1 = (pre ++ as).length := by simp
        rw [this, ← List.append_assoc, List.take_left]
      · intro j l hj hj2 hjl
        have hmem : l ∈ as := by
          have hj3 : pre.length ≤ j := by omega
          rw [List.get?_eq_getElem?] at hjl
          rw [List.getElem?_append_right hj3] at hjl
          have hin : l ∈ as ++ (a :: as).drop as.length :=
            List.getElem?_mem hjl
          rcases List.mem_append.mp hin with h | h
          · exact h
          · cases as with
            | nil => simp at hj2; omega
            | cons b bs =>
              simp only [List.length_cons, List.drop_succ_cons] at h
              exact List.mem_of_mem_drop h
        exact fun e => hnas (e ▸ mem_names_of_mem hmem)
    · simp only [ha, if_false]
      have hpre2 : n ∉ names (pre ++ [a]) := by
        simp only [names_append, List.mem_append, not_or]
        refine ⟨hpre, ?_⟩
        simp [names]
        exact fun e => ha e.symm
      have := ih (pre ++ [a]) hpre2 hnd.2
      simp only [List.length_append, List.length_singleton, List.append_assoc,
        List.singleton_append, List.length_cons, List.length_nil, Nat.zero_add] at this
      simp only [List.length_append, List.length_cons]
      rw [this]
      have : dropName n (a :: as) = a :: dropName n as := by simp [dropName, ha]
      rw [this]

theorem deleteLoop_eq (n : String) (xs : Labels) (hnd : (names xs).Nodup) :
    deleteLoop n xs.length 0 xs xs.length = some (dropName n xs) := by
  have := deleteLoop_nodup n xs [] (by simp [names]) hnd
  simpa using this

/-! ## The invariant and the closed forms of the mutations -/

theorem inv_iff (b : BaseLabelsBuilder) : b.Inv ↔
    (names b.addStream).Nodup ∧ (names b.addStructuredMetadata).Nodup ∧
    (names b.addParsed).Nodup ∧
    (∀ x, x ∈ names b.addStream → x ∉ names b.addStructuredMetadata) ∧
    (∀ x, x ∈ names b.addStream → x ∉ names b.addParsed) ∧
    (∀ x, x ∈ names b.addStructuredMetadata → x ∉ names b.addParsed) := by
  unfold BaseLabelsBuilder.Inv
  simp only [names_append, List.nodup_append, List.disjoint_append_left]
  simp only [List.Disjoint]
  tauto

theorem overwriteValue_none_iff (n v : String) (xs : Labels) :
    overwriteValue n v xs = none ↔ n ∉ names xs := by
  induction xs with
  | nil => simp [overwriteValue, names]
  | cons a as ih =>
    unfold overwriteValue
    by_cases h : a.Name = n
    · simp [h, names]
    · have h2 : ¬ n = a.Name := fun e => h e.symm
      simp only [h, if_false, Option.map_eq_none', ih]
      simp [names, h2]

theorem overwriteValue_some_names (n v : String) :
    ∀ (xs ys : Labels), overwriteValue n v xs = some ys → names ys = names xs := by
  intro xs
  induction xs with
  | nil => intro ys h; simp [overwriteValue] at h
  | cons a as ih =>
    intro ys h
    unfold overwriteValue at h
    by_cases ha : a.Name = n
    · simp only [ha, if_true, Option.some.injEq] at h
      subst h
      simp [names, ha]
    · simp only [ha, if_false, Option.map_eq_some'] at h
      obtain ⟨r, hr, hy⟩ := h
      subst hy
      have := ih r hr
      simp only [names] at this
      simp [names, this]

theorem overwriteValue_some_lookup_self (n v : String) :
    ∀ (xs ys : Labels), overwriteValue n v xs = some ys →
      lookupLabel ys n = some { Name := n, Value := v } := by
  intro xs
  induction xs with
  | nil => intro ys h; simp [overwriteValue] at h
  | cons a as ih =>
    intro ys h
    unfold overwriteValue at h
    by_cases ha : a.Name = n
    · simp only [ha, if_true, Option.some.injEq] at h
      subst h
      simp [lookupLabel, ha]
    · simp only [ha, if_false, Option.map_eq_some'] at h
      obtain ⟨r, hr, hy⟩ := h
      subst hy
      simp [lookupLabel, ha, ih r hr]

theorem overwriteValue_some_lookup_ne (n v m : String) (hm : m ≠ n) :
    ∀ (xs ys : Labels), overwriteValue n v xs = some ys →
      lookupLabel ys m = lookupLabel xs m := by
  intro xs
  induction xs with
  | nil => intro ys h; simp [overwriteValue] at h
  | cons a as ih =>
    intro ys h
    unfold overwriteValue at h
    by_cases ha : a.Name = n
    · simp only [ha, if_true, Option.some.injEq] at h
      subst h
      have : ¬ a.Name = m := fun e => hm (e ▸ ha)
      simp [lookupLabel, this]
      intro e
      exact absurd e.symm hm
    · simp only [ha, if_false, Option.map_eq_some'] at h
      obtain ⟨r, hr, hy⟩ := h
      subst hy
      simp [lookupLabel, ih r hr]

theorem overwriteValue_eq_map (n v : String) :
    ∀ (xs : Labels), (names xs).Nodup → n ∈ names xs →
      overwriteValue n v xs
        = some (xs.map fun l => if l.Name = n then { Name := n, Value := v } else l) := by
  intro xs
  induction xs with
  | nil => intro _ h; simp [names] at h
  | cons a as ih =>
    intro hnd hn
    simp only [names, List.map_cons, List.nodup_cons] at hnd
    unfold overwriteValue
    by_cases ha : a.Name = n
    · have hrest : ∀ l ∈ as, ¬ l.Name = n := by
        intro l hl e
        exact hnd.1 (ha ▸ e ▸ List.mem_map_of_mem Label.Name hl)
      have hmap : (as.map fun l => if l.Name = n then ({ Name := n, Value := v } : Label) else l)
          = as := by
        conv_rhs => rw [← List.map_id as]
        apply List.map_congr_left
        intro l hl
        simp [hrest l hl]
      simp only [ha, if_true, List.map_cons, hmap]
    · have hn2 : n ∈ names as := by
        simp only [names, List.map_cons, List.mem_cons] at hn
        rcases hn with h | h
        · exact absurd h.symm ha
        · exact h
      simp only [ha, if_false, List.map_cons]
      rw [ih hnd.2 hn2]
      rfl

theorem names_upsert (n v : String) (xs : Labels) :
    names (upsert n v xs) = if n ∈ names xs then names xs else names xs ++ [n] := by
  unfold upsert
  cases h : overwriteValue n v xs with
  | none =>
    have := (overwriteValue_none_iff n v xs).mp h
    simp only [Option.getD_none, names_append, this, if_false]
    rfl
  | some ys =>
    have hmem : n ∈ names xs := by
      by_contra hc
      rw [(overwriteValue_none_iff n v xs).mpr hc] at h
      cases h
    simp [hmem, overwriteValue_some_names n v xs ys h]

theorem mem_names_upsert (n v m : String) (xs : Labels) :
    m ∈ names (upsert n v xs) ↔ m ∈ names xs ∨ m = n := by
  rw [names_upsert]
  by_cases h : n ∈ names xs
  · simp only [h, if_true]
    constructor
    · exact Or.inl
    · rintro (h1 | h1)
      · exact h1
      · exact h1 ▸ h
  · simp [h]

theorem nodup_names_upsert (n v : String) (xs : Labels) (h : (names xs).Nodup) :
    (names (upsert n v xs)).Nodup := by
  rw [names_upsert]
  by_cases hn : n ∈ names xs
  · simpa [hn] using h
  · simp only [hn, if_false]
    exact List.Nodup.append h (List.nodup_singleton n) (by simpa using hn)

theorem lookupLabel_append (xs ys : Labels) (m : String) :
    lookupLabel (xs ++ ys) m = (lookupLabel xs m).orElse fun _ => lookupLabel ys m := by
  induction xs with
  | nil => simp [lookupLabel]
  | cons a as ih =>
    by_cases h : a.Name = m
    · simp [lookupLabel, h]
    · simp [lookupLabel, h, ih]

theorem lookupLabel_upsert_self (n v : String) (xs : Labels) :
    lookupLabel (upsert n v xs) n = some { Name := n, Value := v } := by
  unfold upsert
  cases h : overwriteValue n v xs with
  | none =>
    have := (lookupLabel_none_iff xs n).mpr ((overwriteValue_none_iff n v xs).mp h)
    simp [lookupLabel_append, this, lookupLabel]
  | some ys => simpa using overwriteValue_some_lookup_self n v xs ys h

theorem lookupLabel_upsert_ne (n v m : String) (hm : m ≠ n) (xs : Labels) :
    lookupLabel (upsert n v xs) m = lookupLabel xs m := by
  unfold upsert
  cases h : overwriteValue n v xs with
  | none =>
    have hne : ¬ n = m := fun e => hm e.symm
    simp only [Option.getD_none, lookupLabel_append, lookupLabel, hne, if_false]
    cases lookupLabel xs m <;> rfl
  | some ys => simpa using overwriteValue_some_lookup_ne n v m hm xs ys h

theorem deleteWithCategory_stream (b : LabelsBuilder) (n : String)
    (h : (names b.addStream).Nodup) :
    b.deleteWithCategory StreamLabel n = some { b with addStream := dropName n b.addStream } := by
  simp [LabelsBuilder.deleteWithCategory, BaseLabelsBuilder.add, deleteLoop_eq n _ h,
    LabelsBuilder.setAdd]

theorem deleteWithCategory_meta (b : LabelsBuilder) (n : String)
    (h : (names b.addStructuredMetadata).Nodup) :
    b.deleteWithCategory StructuredMetadataLabel n
      = some { b with addStructuredMetadata := dropName n b.addStructuredMetadata } := by
  simp [LabelsBuilder.deleteWithCategory, BaseLabelsBuilder.add, deleteLoop_eq n _ h,
    LabelsBuilder.setAdd]

theorem deleteWithCategory_parsed (b : LabelsBuilder) (n : String)
    (h : (names b.addParsed).Nodup) :
    b.deleteWithCategory ParsedLabel n = some { b with addParsed := dropName n b.addParsed } := by
  simp [LabelsBuilder.deleteWithCategory, BaseLabelsBuilder.add, deleteLoop_eq n _ h,
    LabelsBuilder.setAdd]

theorem nodup_names_dropName (n : String) (xs : Labels) (h : (names xs).Nodup) :
    (names (dropName n xs)).Nodup :=
  h.sublist (names_dropName_sublist n xs)

/-- Closed form of `Set` with `ParsedLabel` on a state that satisfies the invariant. -/
theorem Set_parsed (b : LabelsBuilder) (n v : String) (hb : b.Inv) :
    b.Set ParsedLabel n v = some
      { b with addStream := dropName n b.addStream
               addStructuredMetadata := dropName n b.addStructuredMetadata
               addParsed := upsert n v b.addParsed
               parserKeyHints :=
                 if n ∈ names b.addParsed then b.parserKeyHints else b.parserKeyHints ++ [n] } := by
  obtain ⟨hS, hM, hP, -, -, -⟩ := (inv_iff _).mp hb
  unfold LabelsBuilder.Set
  simp only [if_true, deleteWithCategory_meta b n hM, Option.some_bind]
  have e := deleteWithCategory_stream
    { b with addStructuredMetadata := dropName n b.addStructuredMetadata } n hS
  rw [e]
  simp only [Option.some_bind, reduceCtorEq, if_false, false_and]
  unfold LabelsBuilder.store upsert
  simp only [BaseLabelsBuilder.add]
  cases h : overwriteValue n v b.addParsed with
  | none =>
    have hn := (overwriteValue_none_iff n v _).mp h
    simp [LabelsBuilder.setAdd, hn]
  | some ys =>
    have hn : n ∈ names b.addParsed := by
      by_contra hc
      rw [(overwriteValue_none_iff n v _).mpr hc] at h
      cases h
    simp [LabelsBuilder.setAdd, hn]

/-- Closed form of `Set` with `StructuredMetadataLabel`. -/
theorem Set_meta (b : LabelsBuilder) (n v : String) (hb : b.Inv) :
    b.Set StructuredMetadataLabel n v = some
      (if n ∈ names b.addParsed then { b with addStream := dropName n b.addStream }
       else { b with addStream := dropName n b.addStream
                     addStructuredMetadata := upsert n v b.addStructuredMetadata }) := by
  obtain ⟨hS, hM, hP, -, -, -⟩ := (inv_iff _).mp hb
  unfold LabelsBuilder.Set
  simp only [reduceCtorEq, if_false, if_true, Option.some_bind, true_and, false_and]
  rw [deleteWithCategory_stream _ n hS]
  simp only [Option.some_bind, labelsContain_iff]
  by_cases hn : n ∈ names b.addParsed
  · simp [hn]
  · simp only [hn, if_false]
    unfold LabelsBuilder.store upsert
    simp only [BaseLabelsBuilder.add]
    cases h : overwriteValue n v b.addStructuredMetadata with
    | none => simp [LabelsBuilder.setAdd]
    | some ys => simp [LabelsBuilder.setAdd]

/-- Closed form of `Set` with `StreamLabel`. -/
theorem Set_stream (b : LabelsBuilder) (n v : String) :
    b.Set StreamLabel n v = some
      (if n ∈ names b.addStructuredMetadata ∨ n ∈ names b.addParsed then b
       else { b with addStream := upsert n v b.addStream }) := by
  unfold LabelsBuilder.Set
  simp only [reduceCtorEq, if_false, if_true, Option.some_bind, true_and, false_and,
    labelsContain_iff]
  by_cases hn : n ∈ names b.addStructuredMetadata ∨ n ∈ names b.addParsed
  · simp [hn]
  · simp only [hn, if_false]
    unfold LabelsBuilder.store upsert
    simp only [BaseLabelsBuilder.add]
    cases h : overwriteValue n v b.addStream with
    | none => simp [LabelsBuilder.setAdd]
    | some ys => simp [LabelsBuilder.setAdd]

theorem Set_invalid (b : LabelsBuilder) (n v : String) : b.Set InvalidCategory n v = none := by
  simp [LabelsBuilder.Set, LabelsBuilder.store, BaseLabelsBuilder.add]

/-- Closed form of the body of `Del` for one name. -/
theorem delOne_eq (b : LabelsBuilder) (n : String) (hb : b.Inv) :
    b.delOne n = some
      { b with addStream := dropName n b.addStream
               addStructuredMetadata := dropName n b.addStructuredMetadata
               addParsed := dropName n b.addParsed
               del := b.del ++ [n] } := by
  obtain ⟨hS, hM, hP, -, -, -⟩ := (inv_iff _).mp hb
  unfold LabelsBuilder.delOne
  rw [deleteWithCategory_stream _ n hS]
  simp only [Option.some_bind]
  have e1 := deleteWithCategory_meta { b with addStream := dropName n b.addStream } n hM
  rw [e1]
  simp only [Option.some_bind]
  have e2 := deleteWithCategory_parsed
    { b with addStream := dropName n b.addStream
             addStructuredMetadata := dropName n b.addStructuredMetadata } n hP
  rw [e2]
  rfl

theorem Set_inv (b b1 : LabelsBuilder) (c : LabelCategory) (n v : String) (hb : b.Inv)
    (h : b.Set c n v = some b1) : b1.Inv := by
  obtain ⟨hS, hM, hP, hSM, hSP, hMP⟩ := (inv_iff _).mp hb
  cases c with
  | ParsedLabel =>
    rw [Set_parsed b n v hb] at h
    cases h
    refine (inv_iff _).mpr ⟨nodup_names_dropName n _ hS, nodup_names_dropName n _ hM,
      nodup_names_upsert n v _ hP, ?_, ?_, ?_⟩
    · intro x hx hx2
      exact hSM x (mem_names_dropName.mp hx).1 (mem_names_dropName.mp hx2).1
    · intro x hx hx2
      rcases (mem_names_upsert n v x _).mp hx2 with h1 | h1
      · exact hSP x (mem_names_dropName.mp hx).1 h1
      · exact (mem_names_dropName.mp hx).2 h1
    · intro x hx hx2
      rcases (mem_names_upsert n v x _).mp hx2 with h1 | h1
      · exact hMP x (mem_names_dropName.mp hx).1 h1
      · exact (mem_names_dropName.mp hx).2 h1
  | StructuredMetadataLabel =>
    rw [Set_meta b n v hb] at h
    by_cases hn : n ∈ names b.addParsed
    · simp only [hn, if_true, Option.some.injEq] at h
      subst h
      refine (inv_iff _).mpr ⟨nodup_names_dropName n _ hS, hM, hP, ?_, ?_, hMP⟩
      · intro x hx
        exact hSM x (mem_names_dropName.mp hx).1
      · intro x hx
        exact hSP x (mem_names_dropName.mp hx).1
    · simp only [hn, if_false, Option.some.injEq] at h
      subst h
      refine (inv_iff _).mpr ⟨nodup_names_dropName n _ hS, nodup_names_upsert n v _ hM, hP,
        ?_, ?_, ?_⟩
      · intro x hx hx2
        rcases (mem_names_upsert n v x _).mp hx2 with h1 | h1
        · exact hSM x (mem_names_dropName.mp hx).1 h1
        · exact (mem_names_dropName.mp hx).2 h1
      · intro x hx
        exact hSP x (mem_names_dropName.mp hx).1
      · intro x hx hx2
        rcases (mem_names_upsert n v x _).mp hx with h1 | h1
        · exact hMP x h1 hx2
        · exact hn (h1 ▸ hx2)
  | StreamLabel =>
    rw [Set_stream b n v] at h
    by_cases hn : n ∈ names b.addStructuredMetadata ∨ n ∈ names b.addParsed
    · simp only [hn, if_true, Option.some.injEq] at h
      subst h
      exact hb
    · simp only [hn, if_false, Option.some.injEq] at h
      subst h
      rw [not_or] at hn
      refine (inv_iff _).mpr ⟨nodup_names_upsert n v _ hS, hM, hP, ?_, ?_, hMP⟩
      · intro x hx hx2
        rcases (mem_names_upsert n v x _).mp hx with h1 | h1
        · exact hSM x h1 hx2
        · exact hn.1 (h1 ▸ hx2)
      · intro x hx hx2
        rcases (mem_names_upsert n v x _).mp hx with h1 | h1
        · exact hSP x h1 hx2
        · exact hn.2 (h1 ▸ hx2)
  | InvalidCategory =>
    rw [Set_invalid] at h
    cases h

theorem delOne_inv (b b1 : LabelsBuilder) (n : String) (hb : b.Inv)
    (h : b.delOne n = some b1) : b1.Inv := by
  obtain ⟨hS, hM, hP, hSM, hSP, hMP⟩ := (inv_iff _).mp hb
  rw [delOne_eq b n hb] at h
  cases h
  refine (inv_iff _).mpr ⟨nodup_names_dropName n _ hS, nodup_names_dropName n _ hM,
    nodup_names_dropName n _ hP, ?_, ?_, ?_⟩
  · intro x hx hx2
    exact hSM x (mem_names_dropName.mp hx).1 (mem_names_dropName.mp hx2).1
  · intro x hx hx2
    exact hSP x (mem_names_dropName.mp hx).1 (mem_names_dropName.mp hx2).1
  · intro x hx hx2
    exact hMP x (mem_names_dropName.mp hx).1 (mem_names_dropName.mp hx2).1

theorem Del_inv (ns : List String) :
    ∀ (b b1 : LabelsBuilder), b.Inv → b.Del ns = some b1 → b1.Inv := by
  induction ns with
  | nil =>
    intro b b1 hb h
    simp only [LabelsBuilder.Del, Option.some.injEq] at h
    exact h ▸ hb
  | cons n ns ih =>
    intro b b1 hb h
    simp only [LabelsBuilder.Del] at h
    cases h1 : b.delOne n with
    | none => simp [h1] at h
    | some b2 =>
      simp only [h1, Option.some_bind] at h
      exact ih b2 b1 (delOne_inv b b2 n hb h1) h

theorem Add_inv (L : Lib) (c : LabelCategory) (lbs : Labels) :
    ∀ (b b1 : LabelsBuilder), b.Inv → b.Add L c lbs = some b1 → b1.Inv := by
  induction lbs with
  | nil =>
    intro b b1 hb h
    simp only [LabelsBuilder.Add, Option.some.injEq] at h
    exact h ▸ hb
  | cons l lbs ih =>
    intro b b1 hb h
    simp only [LabelsBuilder.Add] at h
    generalize (if b.BaseHas l.Name = true then l.Name ++ L.duplicateSuffix else l.Name)
      = name at h
    by_cases h1 : name = L.ErrorLabel
    · rw [if_pos h1] at h
      exact ih { b with err := l.Value } b1 hb h
    · by_cases h2 : name = L.ErrorDetailsLabel
      · rw [if_neg h1, if_pos h2] at h
        exact ih { b with errDetails := l.Value } b1 hb h
      · rw [if_neg h1, if_neg h2] at h
        cases h3 : b.Set c name l.Value with
        | none => simp [h3] at h
        | some b2 =>
          simp only [h3, Option.some_bind] at h
          exact ih b2 b1 (Set_inv b b2 c _ _ hb h3) h

theorem LabelsResult_fields (L : Lib) (b : LabelsBuilder) :
    ∃ cache, (b.LabelsResult L).2 = { b with resultCache := cache } := by
  unfold LabelsBuilder.LabelsResult
  split
  · exact ⟨b.resultCache, rfl⟩
  · dsimp only
    split
    · exact ⟨b.resultCache, rfl⟩
    · exact ⟨_, rfl⟩

theorem toUncategorizedResult_fields (L : Lib) (b : LabelsBuilder) (buf : Labels) :
    ∃ cache, (b.toUncategorizedResult L buf).2 = { b with resultCache := cache } := by
  unfold LabelsBuilder.toUncategorizedResult
  dsimp only
  split
  · exact ⟨b.resultCache, rfl⟩
  · exact ⟨_, rfl⟩

theorem GroupedLabels_inv (L : Lib) (b : LabelsBuilder) (hb : b.Inv) :
    (b.GroupedLabels L).2.Inv := by
  unfold LabelsBuilder.GroupedLabels
  split
  · obtain ⟨cache, h⟩ := LabelsResult_fields L b
    rw [h]; exact hb
  · split
    · exact hb
    · split
      · split
        · exact hb
        · unfold LabelsBuilder.toBaseGroup
          split <;> exact hb
      · split
        · obtain ⟨cache, h⟩ := LabelsResult_fields L b
          rw [h]; exact hb
        · split
          · unfold LabelsBuilder.withoutResult
            dsimp only
            obtain ⟨cache, h⟩ := toUncategorizedResult_fields L
              (if b.addStructuredMetadata.any (fun la => b.groups.contains la.Name) = true then
                { b with referencedStructuredMetadata := true } else b) (L.sortSort _)
            rw [h]
            split <;> exact hb
          · unfold LabelsBuilder.withResult
            dsimp only
            obtain ⟨cache, h⟩ := toUncategorizedResult_fields L
              (if (b.withLoop b.groups).2 = true then
                { b with referencedStructuredMetadata := true } else b) (b.withLoop b.groups).1
            rw [h]
            split <;> exact hb

/-- Every reachable state satisfies the invariant of the pending lists. -/
theorem Reachable.inv {L : Lib} {b : LabelsBuilder} (h : Reachable L b) : b.Inv := by
  induction h with
  | fresh groups without noLabels lbs hash =>
    unfold BaseLabelsBuilder.ForLabels
    split <;> simp [BaseLabelsBuilder.Inv, NewBaseLabelsBuilderWithGrouping, names]
  | forLabels b lbs hash _ ih =>
    unfold BaseLabelsBuilder.ForLabels
    split <;> exact ih
  | reset b _ _ => simp [LabelsBuilder.Reset, BaseLabelsBuilder.Reset, BaseLabelsBuilder.Inv, names]
  | set b b1 c n v _ h ih => exact Set_inv b b1 c n v ih h
  | del b b1 ns _ h ih => exact Del_inv ns b b1 ih h
  | add b b1 c lbs _ h ih => exact Add_inv L c lbs b b1 ih h
  | setErr b e _ ih => exact ih
  | setErrorDetails b e _ ih => exact ih
  | resetError b _ ih => exact ih
  | resetErrorDetails b _ ih => exact ih
  | getWithCategory b key _ ih =>
    unfold LabelsBuilder.GetWithCategory
    dsimp only
    split <;> exact ih
  | labelsResult b _ ih =>
    obtain ⟨cache, h⟩ := LabelsResult_fields L b
    rw [h]; exact ih
  | groupedLabels b _ ih => exact GroupedLabels_inv L b ih

/-! ## Lookups after a mutation -/

theorem GetWithCategory_fst (b : LabelsBuilder) (key : String) :
    (b.GetWithCategory key).1 = b.getWithCategory key := by
  unfold LabelsBuilder.GetWithCategory
  dsimp only
  split <;> rfl

theorem filter_name_eq_lookup (n : String) :
    ∀ (xs : Labels), (names xs).Nodup →
      xs.filter (fun l => decide (l.Name = n)) = (lookupLabel xs n).toList := by
  intro xs
  induction xs with
  | nil => intro _; rfl
  | cons a as ih =>
    intro hnd
    simp only [names, List.map_cons, List.nodup_cons] at hnd
    by_cases ha : a.Name = n
    · have hn : n ∉ names as := ha ▸ hnd.1
      have hnone := (lookupLabel_none_iff as n).mpr hn
      have := ih hnd.2
      rw [hnone] at this
      simp [lookupLabel, ha, this]
    · simp [lookupLabel, ha, ih hnd.2]

theorem upsert_eq (n v : String) (xs : Labels) (hnd : (names xs).Nodup) :
    upsert n v xs =
      if n ∈ names xs then
        xs.map fun l => if l.Name = n then { Name := n, Value := v } else l
      else xs ++ [{ Name := n, Value := v }] := by
  unfold upsert
  by_cases hn : n ∈ names xs
  · simp [hn, overwriteValue_eq_map n v xs hnd hn]
  · simp [hn, (overwriteValue_none_iff n v xs).mpr hn]

theorem getWithCategory_eq_resolveInOrder (b : LabelsBuilder) (hb : b.Inv) (n : String) :
    b.getWithCategory n = resolveInOrder b n := by
  obtain ⟨-, -, -, hSM, hSP, hMP⟩ := (inv_iff _).mp hb
  unfold LabelsBuilder.getWithCategory BaseLabelsBuilder.lookupAdd resolveInOrder
  cases hS : lookupLabel b.addStream n with
  | some l =>
    have hn : n ∈ names b.addStream := by
      by_contra hc
      rw [(lookupLabel_none_iff _ _).mpr hc] at hS
      cases hS
    rw [(lookupLabel_none_iff _ _).mpr (hSP n hn), (lookupLabel_none_iff _ _).mpr (hSM n hn)]
  | none =>
    cases hM : lookupLabel b.addStructuredMetadata n with
    | some l =>
      have hn : n ∈ names b.addStructuredMetadata := by
        by_contra hc
        rw [(lookupLabel_none_iff _ _).mpr hc] at hM
        cases hM
      rw [(lookupLabel_none_iff _ _).mpr (hMP n hn)]
    | none =>
      cases hP : lookupLabel b.addParsed n with
      | some l => rfl
      | none => simp

theorem lookupLabel_isSome_iff (ls : Labels) (n : String) :
    (∃ l, lookupLabel ls n = some l) ↔ n ∈ names ls := by
  rw [← not_iff_not, ← lookupLabel_none_iff]
  cases lookupLabel ls n <;> simp

/-- C1. In every reachable state, for a category `c` that has a pending list, a name
`n` not staged in a pending list of strictly higher precedence than `c` and a value
`v`: `Set(c, n, v)` returns, afterwards `GetWithCategory(n)` is `(v, c, true)`, the
pending list of `c` is the old one with the entry named `n` overwritten in place when
there was one and with `n=v` appended at the end otherwise, it holds exactly one entry
named `n`, and `GetWithCategory(m)` is unchanged for every other name `m`. -/
theorem Set_then_GetWithCategory (L : Lib) (b : LabelsBuilder) (hb : Reachable L b)
    (c : LabelCategory) (n v : String) (hc : c ≠ InvalidCategory)
    (hprec : ¬ stagedHigher b c n) :
    ∃ b1 xs, b.Set c n v = some b1 ∧ b.add c = some xs ∧
      (b1.GetWithCategory n).1 = (v, c, true) ∧
      b1.add c = some
        (if n ∈ names xs then
          xs.map fun l => if l.Name = n then { Name := n, Value := v } else l
        else xs ++ [{ Name := n, Value := v }]) ∧
      (∃ ys, b1.add c = some ys ∧
        ys.filter (fun l => decide (l.Name = n)) = [{ Name := n, Value := v }]) ∧
      ∀ m, m ≠ n → (b1.GetWithCategory m).1 = (b.GetWithCategory m).1 := by
  have hinv := hb.inv
  obtain ⟨hS, hM, hP, hSM, hSP, hMP⟩ := (inv_iff _).mp hinv
  simp only [GetWithCategory_fst]
  cases c with
  | InvalidCategory => exact absurd rfl hc
  | ParsedLabel =>
    refine ⟨_, b.addParsed, Set_parsed b n v hinv, rfl, ?_, ?_, ?_, ?_⟩
    · simp [LabelsBuilder.getWithCategory, BaseLabelsBuilder.lookupAdd,
        (lookupLabel_none_iff _ _).mpr (not_mem_names_dropName n _), lookupLabel_upsert_self]
    · simp only [BaseLabelsBuilder.add, upsert_eq n v _ hP]
    · refine ⟨upsert n v b.addParsed, rfl, ?_⟩
      rw [filter_name_eq_lookup n _ (nodup_names_upsert n v _ hP), lookupLabel_upsert_self]
      rfl
    · intro m hm
      simp [LabelsBuilder.getWithCategory, BaseLabelsBuilder.lookupAdd,
        lookupLabel_dropName_ne _ hm, lookupLabel_upsert_ne n v m hm]
  | StructuredMetadataLabel =>
    have hn : n ∉ names b.addParsed := hprec
    refine ⟨_, b.addStructuredMetadata, Set_meta b n v hinv, rfl, ?_, ?_, ?_, ?_⟩
    · simp [hn, LabelsBuilder.getWithCategory, BaseLabelsBuilder.lookupAdd,
        (lookupLabel_none_iff _ _).mpr (not_mem_names_dropName n _), lookupLabel_upsert_self]
    · simp only [hn, if_false, BaseLabelsBuilder.add, upsert_eq n v _ hM]
    · refine ⟨upsert n v b.addStructuredMetadata, by simp [hn, BaseLabelsBuilder.add], ?_⟩
      rw [filter_name_eq_lookup n _ (nodup_names_upsert n v _ hM), lookupLabel_upsert_self]
      rfl
    · intro m hm
      simp [hn, LabelsBuilder.getWithCategory, BaseLabelsBuilder.lookupAdd,
        lookupLabel_dropName_ne _ hm, lookupLabel_upsert_ne n v m hm]
  | StreamLabel =>
    have hn : ¬ (n ∈ names b.addStructuredMetadata ∨ n ∈ names b.addParsed) := hprec
    refine ⟨_, b.addStream, Set_stream b n v, rfl, ?_, ?_, ?_, ?_⟩
    · simp [hn, LabelsBuilder.getWithCategory, BaseLabelsBuilder.lookupAdd,
        lookupLabel_upsert_self]
    · simp only [hn, if_false, BaseLabelsBuilder.add, upsert_eq n v _ hS]
    · refine ⟨upsert n v b.addStream, by simp [hn, BaseLabelsBuilder.add], ?_⟩
      rw [filter_name_eq_lookup n _ (nodup_names_upsert n v _ hS), lookupLabel_upsert_self]
      rfl
    · intro m hm
      simp [hn, LabelsBuilder.getWithCategory, BaseLabelsBuilder.lookupAdd,
        lookupLabel_upsert_ne n v m hm]

/-! ## Finalisation lemmas -/

theorem appendErrors_eq (L : Lib) (b : LabelsBuilder) (buf : Labels) :
    b.appendErrors L buf = buf ++ b.appendErrors L [] := by
  unfold LabelsBuilder.appendErrors
  by_cases h1 : b.err = "" <;> by_cases h2 : b.errDetails = "" <;> simp [h1, h2]

theorem mem_appendErrors_nil (L : Lib) (b : LabelsBuilder) (l : Label)
    (h : l ∈ b.appendErrors L []) :
    (l = { Name := L.ErrorLabel, Value := b.err } ∧ b.err ≠ "") ∨
    (l = { Name := L.ErrorDetailsLabel, Value := b.errDetails } ∧ b.errDetails ≠ "") := by
  unfold LabelsBuilder.appendErrors at h
  by_cases h1 : b.err = "" <;> by_cases h2 : b.errDetails = "" <;>
    simp [h1, h2] at h <;> simp [h1, h2, h]

theorem streamEntry_name (b : LabelsBuilder) (l r : Label) (h : b.streamEntry l = some r) :
    r.Name = l.Name := by
  unfold LabelsBuilder.streamEntry at h
  split_ifs at h <;> simp at h <;> simp [← h]

theorem streamEntry_unchanged (b : LabelsBuilder) (hd : b.hasDel = false) (ha : b.hasAdd = false)
    (l : Label) : b.streamEntry l = some l := by
  simp only [BaseLabelsBuilder.hasDel, BaseLabelsBuilder.hasAdd, Bool.or_eq_false_iff,
    decide_eq_false_iff_not, not_lt, Nat.le_zero, List.length_eq_zero] at hd ha
  obtain ⟨⟨hS, hM⟩, hP⟩ := ha
  simp [LabelsBuilder.streamEntry, hd, hS, hM, hP, labelsContain]

theorem categoriesContain_all (c : LabelCategory) (hc : c ≠ InvalidCategory) :
    categoriesContain allCategories c = true := by
  cases c <;> first | rfl | exact absurd rfl hc

/-- The method `UnsortedLabels` called without a category, in one expression: the
fast path and the general path give the same sequence. -/
theorem UnsortedLabels_none (L : Lib) (b : LabelsBuilder) :
    b.UnsortedLabels L none = b.appendErrors L
      (b.base.filterMap b.streamEntry
        ++ b.addStructuredMetadata.filter (fun l => !labelsContain b.addParsed l.Name)
        ++ b.addParsed) := by
  unfold LabelsBuilder.UnsortedLabels
  simp only [Option.getD_none, categoriesContain_all StreamLabel (by decide),
    categoriesContain_all StructuredMetadataLabel (by decide),
    categoriesContain_all ParsedLabel (by decide), Bool.and_true, if_true]
  by_cases hfast : (!b.hasDel && !b.hasAdd) = true
  · simp only [hfast, if_true]
    simp only [Bool.and_eq_true, Bool.not_eq_true'] at hfast
    have hse : b.streamEntry = some := funext (streamEntry_unchanged b hfast.1 hfast.2)
    have ha := hfast.2
    simp only [BaseLabelsBuilder.hasAdd, Bool.or_eq_false_iff,
      decide_eq_false_iff_not, not_lt, Nat.le_zero, List.length_eq_zero] at ha
    simp [hse, ha.1.2, ha.2]
  · simp only [hfast]
    by_cases he : (b.HasErr || b.HasErrorDetails) = true
    · simp [he]
    · simp only [he]
      simp only [LabelsBuilder.HasErr, LabelsBuilder.HasErrorDetails, Bool.or_eq_true,
        decide_eq_true_eq, not_or, not_not] at he
      simp [LabelsBuilder.appendErrors, he.1, he.2]

theorem mem_ite_append {α : Type} {c : Prop} [Decidable c] {xs ys : List α} {x : α}
    (h : x ∈ (if c then xs ++ ys else xs)) : x ∈ xs ∨ x ∈ ys := by
  split_ifs at h
  · exact List.mem_append.mp h
  · exact Or.inl h

theorem mem_ite_nil {α : Type} {c : Prop} [Decidable c] {xs : List α} {x : α}
    (h : x ∈ (if c then xs else [])) : x ∈ xs := by
  split_ifs at h
  · exact h
  · simp at h

theorem mem_UnsortedLabels_cases (L : Lib) (b : LabelsBuilder)
    (categories : Option (List LabelCategory)) (l : Label)
    (h : l ∈ b.UnsortedLabels L categories) :
    (∃ l0 ∈ b.base, b.streamEntry l0 = some l) ∨ l ∈ b.addStructuredMetadata ∨
      l ∈ b.addParsed ∨ l ∈ b.appendErrors L [] := by
  unfold LabelsBuilder.UnsortedLabels at h
  dsimp only at h
  by_cases hfast : (!b.hasDel && !b.hasAdd
      && categoriesContain (categories.getD allCategories) StreamLabel) = true
  · rw [if_pos hfast] at h
    simp only [Bool.and_eq_true, Bool.not_eq_true'] at hfast
    have hbase : l ∈ b.base → ∃ l0 ∈ b.base, b.streamEntry l0 = some l :=
      fun hl => ⟨l, hl, streamEntry_unchanged b hfast.1.1 hfast.1.2 l⟩
    split_ifs at h
    · rw [appendErrors_eq] at h
      rcases List.mem_append.mp h with h | h
      · exact Or.inl (hbase h)
      · exact Or.inr (Or.inr (Or.inr h))
    · exact Or.inl (hbase h)
  · rw [if_neg hfast] at h
    have key : ∀ x, x ∈ (if categoriesContain (categories.getD allCategories) ParsedLabel = true
        then (if categoriesContain (categories.getD allCategories) StructuredMetadataLabel = true
          then (if categoriesContain (categories.getD allCategories) StreamLabel = true
            then b.base.filterMap b.streamEntry else [])
            ++ b.addStructuredMetadata.filter (fun l => !labelsContain b.addParsed l.Name)
          else (if categoriesContain (categories.getD allCategories) StreamLabel = true
            then b.base.filterMap b.streamEntry else [])) ++ b.addParsed
        else (if categoriesContain (categories.getD allCategories) StructuredMetadataLabel = true
          then (if categoriesContain (categories.getD allCategories) StreamLabel = true
            then b.base.filterMap b.streamEntry else [])
            ++ b.addStructuredMetadata.filter (fun l => !labelsContain b.addParsed l.Name)
          else (if categoriesContain (categories.getD allCategories) StreamLabel = true
            then b.base.filterMap b.streamEntry else []))) →
        (∃ l0 ∈ b.base, b.streamEntry l0 = some x) ∨ x ∈ b.addStructuredMetadata ∨
          x ∈ b.addParsed := by
      intro x hx
      rcases mem_ite_append hx with hx | hx
      · rcases mem_ite_append hx with hx | hx
        · have := mem_ite_nil hx
          obtain ⟨l0, hl0, he⟩ := List.mem_filterMap.mp this
          exact Or.inl ⟨l0, hl0, he⟩
        · exact Or.inr (Or.inl (List.mem_filter.mp hx).1)
      · exact Or.inr (Or.inr hx)
    by_cases he : ((b.HasErr || b.HasErrorDetails)
        && categoriesContain (categories.getD allCategories) ParsedLabel) = true
    · rw [if_pos he, appendErrors_eq] at h
      rcases List.mem_append.mp h with h | h
      · rcases key l h with h | h | h
        · exact Or.inl h
        · exact Or.inr (Or.inl h)
        · exact Or.inr (Or.inr (Or.inl h))
      · exact Or.inr (Or.inr (Or.inr h))
    · rw [if_neg he] at h
      rcases key l h with h | h | h
      · exact Or.inl h
      · exact Or.inr (Or.inl h)
      · exact Or.inr (Or.inr (Or.inl h))

theorem filterMap_streamEntry_filter (b : LabelsBuilder) (n : String) (xs : Labels) :
    (xs.filterMap b.streamEntry).filter (fun l => decide (l.Name = n))
      = (xs.filter (fun l => decide (l.Name = n))).filterMap b.streamEntry := by
  induction xs with
  | nil => rfl
  | cons a as ih =>
    cases h : b.streamEntry a with
    | none =>
      by_cases ha : a.Name = n
      · simp [List.filterMap_cons, h, ha, ih]
      · simp [List.filterMap_cons, h, ha, ih]
    | some r =>
      have hr := streamEntry_name b a r h
      by_cases ha : a.Name = n
      · simp [List.filterMap_cons, h, ha, hr, ih]
      · simp [List.filterMap_cons, h, ha, hr, ih]

theorem filter_appendErrors_nil (L : Lib) (b : LabelsBuilder) (n : String)
    (h1 : n ≠ L.ErrorLabel) (h2 : n ≠ L.ErrorDetailsLabel) :
    (b.appendErrors L []).filter (fun l => decide (l.Name = n)) = [] := by
  apply List.filter_eq_nil_iff.mpr
  intro l hl
  rcases mem_appendErrors_nil L b l hl with h | h
  · simp [h.1, Ne.symm h1]
  · simp [h.1, Ne.symm h2]

/-- The entries named `n` of `UnsortedLabels()`, for a name that is not a reserved
error label: what the base contributes, then the structured metadata entry unless
the name is parsed, then the parsed entry. -/
theorem UnsortedLabels_filter_name (L : Lib) (b : LabelsBuilder) (hb : b.Inv) (n : String)
    (h1 : n ≠ L.ErrorLabel) (h2 : n ≠ L.ErrorDetailsLabel) :
    (b.UnsortedLabels L none).filter (fun l => decide (l.Name = n)) =
      (b.base.filter (fun l => decide (l.Name = n))).filterMap b.streamEntry
      ++ (if n ∈ names b.addParsed then [] else (lookupLabel b.addStructuredMetadata n).toList)
      ++ (lookupLabel b.addParsed n).toList := by
  obtain ⟨-, hM, hP, -, -, -⟩ := (inv_iff _).mp hb
  rw [UnsortedLabels_none, appendErrors_eq]
  simp only [List.filter_append, filter_appendErrors_nil L b n h1 h2, List.append_nil,
    filterMap_streamEntry_filter, filter_name_eq_lookup n _ hP]
  congr 2
  rw [List.filter_filter]
  have : (b.addStructuredMetadata.filter
      fun a => decide (a.Name = n) && !labelsContain b.addParsed a.Name)
      = (b.addStructuredMetadata.filter (fun l => decide (l.Name = n))).filter
          (fun a => !labelsContain b.addParsed a.Name) := by
    rw [List.filter_filter]
    congr 1
    funext a
    exact Bool.and_comm _ _
  rw [this, filter_name_eq_lookup n _ hM]
  by_cases hn : n ∈ names b.addParsed
  · simp only [hn, if_true]
    apply List.filter_eq_nil_iff.mpr
    intro l hl
    cases hl2 : lookupLabel b.addStructuredMetadata n with
    | none => simp [hl2] at hl
    | some r =>
      simp only [hl2, Option.toList_some, List.mem_singleton] at hl
      subst hl
      have := (lookupLabel_some _ _ _ hl2).2
      simp [this, (labelsContain_iff _ _).mpr hn]
  · simp only [hn, if_false]
    apply List.filter_eq_self.mpr
    intro l hl
    cases hl2 : lookupLabel b.addStructuredMetadata n with
    | none => simp [hl2] at hl
    | some r =>
      simp only [hl2, Option.toList_some, List.mem_singleton] at hl
      subst hl
      have := (lookupLabel_some _ _ _ hl2).2
      simp [this, (labelsContain_false_iff _ _).mpr hn]

theorem filterMap_streamEntry_shadowed (b : LabelsBuilder) (n : String)
    (h : n ∈ b.del ∨ n ∈ names b.addStructuredMetadata ∨ n ∈ names b.addParsed) :
    (b.base.filter (fun l => decide (l.Name = n))).filterMap b.streamEntry = [] := by
  apply List.filterMap_eq_nil_iff.mpr
  intro l hl
  have hn : l.Name = n := by simpa using (List.mem_filter.mp hl).2
  unfold LabelsBuilder.streamEntry
  rcases h with h | h | h
  · simp [hn, h]
  · simp [hn, (labelsContain_iff _ _).mpr h]
  · simp [hn, (labelsContain_iff _ _).mpr h]

theorem labels_filter_singleton (L : Lib) (b : LabelsBuilder) (p : Label → Bool) (x : Label)
    (h : (b.UnsortedLabels L none).filter p = [x]) : (b.labels L none).filter p = [x] := by
  have hp : ((b.labels L none).filter p).Perm ((b.UnsortedLabels L none).filter p) :=
    (L.sortSort_perm _).filter p
  rw [h] at hp
  exact List.perm_singleton.mp hp

theorem exampleBuilder_reachable : Reachable stdLib exampleBuilder :=
  Reachable.fresh [] false false _ _

/-- Instance of C1 on the fresh builder over `app="x"`, `env="prod"`: setting the
stream label `app` to `y`. -/
theorem Set_then_GetWithCategory_witness :
    Reachable stdLib exampleBuilder ∧ StreamLabel ≠ InvalidCategory ∧
    ¬ stagedHigher exampleBuilder StreamLabel "app" ∧
    ∃ b1 xs, exampleBuilder.Set StreamLabel "app" "y" = some b1 ∧
      exampleBuilder.add StreamLabel = some xs ∧
      (b1.GetWithCategory "app").1 = ("y", StreamLabel, true) ∧
      b1.add StreamLabel = some
        (if "app" ∈ names xs then
          xs.map fun l => if l.Name = "app" then { Name := "app", Value := "y" } else l
        else xs ++ [{ Name := "app", Value := "y" }]) ∧
      (∃ ys, b1.add StreamLabel = some ys ∧
        ys.filter (fun l => decide (l.Name = "app")) = [{ Name := "app", Value := "y" }]) ∧
      ∀ m, m ≠ "app" → (b1.GetWithCategory m).1 = (exampleBuilder.GetWithCategory m).1 :=
  have hprec : ¬ stagedHigher exampleBuilder StreamLabel "app" := by
    simp [stagedHigher, exampleBuilder, BaseLabelsBuilder.ForLabels, NewBaseLabelsBuilder,
      NewBaseLabelsBuilderWithGrouping, names]
  ⟨exampleBuilder_reachable, by decide, hprec,
    Set_then_GetWithCategory stdLib exampleBuilder exampleBuilder_reachable StreamLabel
      "app" "y" (by decide) hprec⟩

/-- C2. In every reachable state, for a name `n` that is not a reserved error label:
`Set(ParsedLabel, n, v1)` then `Set(StructuredMetadataLabel, n, v2)` both return,
afterwards `GetWithCategory(n)` is `(v1, ParsedLabel, true)`, and the finalized labels
(`labels()` over all categories) contain `n=v1` and no other entry named `n`. -/
theorem Set_parsed_then_meta (L : Lib) (b : LabelsBuilder) (hb : Reachable L b)
    (n v1 v2 : String) (h1 : n ≠ L.ErrorLabel) (h2 : n ≠ L.ErrorDetailsLabel) :
    ∃ b1 b2, b.Set ParsedLabel n v1 = some b1 ∧
      b1.Set StructuredMetadataLabel n v2 = some b2 ∧
      (b2.GetWithCategory n).1 = (v1, ParsedLabel, true) ∧
      { Name := n, Value := v1 } ∈ b2.labels L none ∧
      (b2.labels L none).filter (fun l => decide (l.Name = n)) = [{ Name := n, Value := v1 }] := by
  have hinv := hb.inv
  obtain ⟨b1, hset1⟩ : ∃ b1, b.Set ParsedLabel n v1 = some b1 := ⟨_, Set_parsed b n v1 hinv⟩
  have hinv1 : b1.Inv := Set_inv b b1 _ _ _ hinv hset1
  have hP1 : lookupLabel b1.addParsed n = some { Name := n, Value := v1 } := by
    rw [Set_parsed b n v1 hinv] at hset1
    cases hset1
    exact lookupLabel_upsert_self n v1 _
  have hnP : n ∈ names b1.addParsed := (lookupLabel_isSome_iff _ _).mp ⟨_, hP1⟩
  obtain ⟨-, -, -, -, hSP, hMP⟩ := (inv_iff _).mp hinv1
  have hnS : n ∉ names b1.addStream := fun h => hSP n h hnP
  have hset2 : b1.Set StructuredMetadataLabel n v2 = some b1 := by
    rw [Set_meta b1 n v2 hinv1]
    simp only [hnP, if_true, dropName_eq_self hnS]
  have hfilter : (b1.UnsortedLabels L none).filter (fun l => decide (l.Name = n))
      = [{ Name := n, Value := v1 }] := by
    rw [UnsortedLabels_filter_name L b1 hinv1 n h1 h2,
      filterMap_streamEntry_shadowed b1 n (Or.inr (Or.inr hnP)), hP1]
    simp [hnP]
  have hlab := labels_filter_singleton L b1 _ _ hfilter
  refine ⟨b1, b1, hset1, hset2, ?_, ?_, hlab⟩
  · rw [GetWithCategory_fst, getWithCategory_eq_resolveInOrder b1 hinv1]
    simp [resolveInOrder, hP1]
  · have : ({ Name := n, Value := v1 } : Label) ∈
        (b1.labels L none).filter (fun l => decide (l.Name = n)) := by
      rw [hlab]; exact List.mem_singleton_self _
    exact (List.mem_filter.mp this).1

/-- Instance of C2 on the fresh builder over `app="x"`, `env="prod"`, for the name
`level`. -/
theorem Set_parsed_then_meta_witness :
    Reachable stdLib exampleBuilder ∧ "level" ≠ stdLib.ErrorLabel ∧
    "level" ≠ stdLib.ErrorDetailsLabel ∧
    ∃ b1 b2, exampleBuilder.Set ParsedLabel "level" "error" = some b1 ∧
      b1.Set StructuredMetadataLabel "level" "warn" = some b2 ∧
      (b2.GetWithCategory "level").1 = ("error", ParsedLabel, true) ∧
      { Name := "level", Value := "error" } ∈ b2.labels stdLib none ∧
      (b2.labels stdLib none).filter (fun l => decide (l.Name = "level"))
        = [{ Name := "level", Value := "error" }] :=
  ⟨exampleBuilder_reachable, by decide, by decide,
    Set_parsed_then_meta stdLib exampleBuilder exampleBuilder_reachable "level" "error" "warn"
      (by decide) (by decide)⟩

/-- C3. In every reachable state, when `n` is already staged in a pending list of
strictly higher precedence than `c`, `Set(c, n, v)` returns the builder unchanged: the
deletion list, the three pending lists, `err`, `errDetails` and every other field are
as before the call. -/
theorem Set_shadowed_noop (L : Lib) (b : LabelsBuilder) (hb : Reachable L b)
    (c : LabelCategory) (n v : String) (hprec : stagedHigher b c n) :
    b.Set c n v = some b := by
  have hinv := hb.inv
  obtain ⟨-, -, -, -, hSP, -⟩ := (inv_iff _).mp hinv
  cases c with
  | InvalidCategory => exact absurd hprec id
  | ParsedLabel => exact absurd hprec id
  | StructuredMetadataLabel =>
    have hnP : n ∈ names b.addParsed := hprec
    have hnS : n ∉ names b.addStream := fun h => hSP n h hnP
    rw [Set_meta b n v hinv]
    simp only [hnP, if_true, dropName_eq_self hnS]
  | StreamLabel =>
    have hn : n ∈ names b.addStructuredMetadata ∨ n ∈ names b.addParsed := hprec
    rw [Set_stream b n v]
    simp only [hn, if_true]

theorem exampleParsed_reachable : Reachable stdLib exampleParsed :=
  Reachable.set exampleBuilder exampleParsed ParsedLabel "level" "error"
    exampleBuilder_reachable (by decide)

/-- Instance of C3: `level` is staged as parsed, a stream `Set` of it changes
nothing. -/
theorem Set_shadowed_noop_witness :
    Reachable stdLib exampleParsed ∧ stagedHigher exampleParsed StreamLabel "level" ∧
    exampleParsed.Set StreamLabel "level" "warn" = some exampleParsed :=
  have hprec : stagedHigher exampleParsed StreamLabel "level" := by
    simp [stagedHigher, exampleParsed, names]
  ⟨exampleParsed_reachable, hprec,
    Set_shadowed_noop stdLib exampleParsed exampleParsed_reachable StreamLabel "level" "warn"
      hprec⟩

/-- C4. In every reachable state, `GetWithCategory(n)` is the parsed pending value
with category `ParsedLabel` if `n` is staged there; else the structured metadata
pending value with its category; else the stream pending value with category
`StreamLabel`; else not found (`("", InvalidCategory, false)`) if `n` is in the
deletion list; else the base value with category `StreamLabel` if `n` is a base label;
else not found. -/
theorem GetWithCategory_resolution (L : Lib) (b : LabelsBuilder) (hb : Reachable L b)
    (n : String) : (b.GetWithCategory n).1 = resolveInOrder b n := by
  rw [GetWithCategory_fst]
  exact getWithCategory_eq_resolveInOrder b hb.inv n

/-- Instance of C4 on the builder with `level` staged as parsed. -/
theorem GetWithCategory_resolution_witness :
    Reachable stdLib exampleParsed ∧
    (exampleParsed.GetWithCategory "level").1 = resolveInOrder exampleParsed "level" :=
  ⟨exampleParsed_reachable,
    GetWithCategory_resolution stdLib exampleParsed exampleParsed_reachable "level"⟩

/-- C5. In every reachable state, for a name `n` that is not a reserved error label,
`Del(n)` returns and afterwards `n` is in none of the three pending lists, `n` is in
the deletion list, `GetWithCategory(n)` is `("", InvalidCategory, false)`, and no label
named `n` occurs in `UnsortedLabels()` whatever categories are requested. -/
theorem Del_removes (L : Lib) (b : LabelsBuilder) (hb : Reachable L b) (n : String)
    (h1 : n ≠ L.ErrorLabel) (h2 : n ≠ L.ErrorDetailsLabel) :
    ∃ b1, b.Del [n] = some b1 ∧
      n ∉ names b1.addStream ∧ n ∉ names b1.addStructuredMetadata ∧
      n ∉ names b1.addParsed ∧ n ∈ b1.del ∧
      (b1.GetWithCategory n).1 = ("", InvalidCategory, false) ∧
      ∀ (categories : Option (List LabelCategory)) (l : Label),
        l ∈ b1.UnsortedLabels L categories → l.Name ≠ n := by
  have hinv := hb.inv
  have hdel : b.Del [n] = some
      { b with addStream := dropName n b.addStream
               addStructuredMetadata := dropName n b.addStructuredMetadata
               addParsed := dropName n b.addParsed
               del := b.del ++ [n] } := by
    simp [LabelsBuilder.Del, delOne_eq b n hinv]
  refine ⟨_, hdel, not_mem_names_dropName n _, not_mem_names_dropName n _,
    not_mem_names_dropName n _, by simp, ?_, ?_⟩
  · simp [GetWithCategory_fst, LabelsBuilder.getWithCategory, BaseLabelsBuilder.lookupAdd,
      (lookupLabel_none_iff _ _).mpr (not_mem_names_dropName n _)]
  · intro categories l hl hn
    rcases mem_UnsortedLabels_cases L _ categories l hl with ⟨l0, -, he⟩ | h | h | h
    · have hname := streamEntry_name _ l0 l he
      unfold LabelsBuilder.streamEntry at he
      simp [← hname, hn] at he
    · exact not_mem_names_dropName n _ (hn ▸ mem_names_of_mem h)
    · exact not_mem_names_dropName n _ (hn ▸ mem_names_of_mem h)
    · rcases mem_appendErrors_nil L _ l h with h | h
      · exact h1 (by rw [← hn, h.1])
      · exact h2 (by rw [← hn, h.1])

/-- Instance of C5: deleting `app` from the fresh builder over `app="x"`,
`env="prod"`. -/
theorem Del_removes_witness :
    Reachable stdLib exampleBuilder ∧ "app" ≠ stdLib.ErrorLabel ∧
    "app" ≠ stdLib.ErrorDetailsLabel ∧
    ∃ b1, exampleBuilder.Del ["app"] = some b1 ∧
      "app" ∉ names b1.addStream ∧ "app" ∉ names b1.addStructuredMetadata ∧
      "app" ∉ names b1.addParsed ∧ "app" ∈ b1.del ∧
      (b1.GetWithCategory "app").1 = ("", InvalidCategory, false) ∧
      ∀ (categories : Option (List LabelCategory)) (l : Label),
        l ∈ b1.UnsortedLabels stdLib categories → l.Name ≠ "app" :=
  ⟨exampleBuilder_reachable, by decide, by decide,
    Del_removes stdLib exampleBuilder exampleBuilder_reachable "app" (by decide) (by decide)⟩

/-- C6, evaluated where it fails.  On the fresh builder over `app="x"`, `env="prod"`,
`Del("app")` followed by `Set(StreamLabel, "app", "y")` returns a builder on which
`Get("app")` is `("y", true)`, while the finalized labels (`labels()` over all
categories) are `env="prod"` alone: the re-added stream label is not in them. -/
theorem Del_then_Set_stream_lost :
    ∃ b1 b2, exampleBuilder.Del ["app"] = some b1 ∧
      b1.Set StreamLabel "app" "y" = some b2 ∧
      (b2.Get "app").1 = ("y", true) ∧
      b2.labels stdLib none = [{ Name := "env", Value := "prod" }] ∧
      ∀ l ∈ b2.labels stdLib none, l.Name ≠ "app" :=
  ⟨{ exampleBuilder with del := ["app"] },
   { exampleBuilder with del := ["app"], addStream := [{ Name := "app", Value := "y" }] },
   by decide, by decide, by decide, by decide, by decide⟩

theorem mem_UnsortedLabels_of_parsed (L : Lib) (b : LabelsBuilder) (l : Label)
    (h : l ∈ b.addParsed) : l ∈ b.UnsortedLabels L none := by
  rw [UnsortedLabels_none, appendErrors_eq]
  simp [h]

theorem mem_UnsortedLabels_of_meta (L : Lib) (b : LabelsBuilder) (l : Label)
    (h : l ∈ b.addStructuredMetadata) (hn : l.Name ∉ names b.addParsed) :
    l ∈ b.UnsortedLabels L none := by
  rw [UnsortedLabels_none, appendErrors_eq]
  have : l ∈ b.addStructuredMetadata.filter (fun l => !labelsContain b.addParsed l.Name) :=
    List.mem_filter.mpr ⟨h, by simp [(labelsContain_false_iff _ _).mpr hn]⟩
  simp [this]

/-- The part of C6 that the code does honour: after `Del(n)`, a `Set` of `n` as
structured metadata or as parsed reappears, in `Get` and in the finalized labels. -/
theorem Del_then_Set_reappears (L : Lib) (b : LabelsBuilder) (hb : Reachable L b)
    (c : LabelCategory) (hc : c = StructuredMetadataLabel ∨ c = ParsedLabel) (n v : String) :
    ∃ b1 b2, b.Del [n] = some b1 ∧ b1.Set c n v = some b2 ∧
      (b2.Get n).1 = (v, true) ∧
      ({ Name := n, Value := v } : Label) ∈ b2.labels L none := by
  have hinv := hb.inv
  obtain ⟨b1, hdel⟩ : ∃ b1, b.Del [n] = some b1 := by
    simp [LabelsBuilder.Del, delOne_eq b n hinv]
  have hinv1 : b1.Inv := Del_inv [n] b b1 hinv hdel
  have hnP1 : n ∉ names b1.addParsed := by
    simp only [LabelsBuilder.Del, delOne_eq b n hinv, Option.some_bind, Option.some.injEq] at hdel
    subst hdel
    exact not_mem_names_dropName n _
  have hget : ∀ b2 : LabelsBuilder, b2.Inv →
      (lookupLabel b2.addParsed n = some { Name := n, Value := v } ∨
        (lookupLabel b2.addParsed n = none ∧
          lookupLabel b2.addStructuredMetadata n = some { Name := n, Value := v })) →
      (b2.Get n).1 = (v, true) := by
    intro b2 hi h
    simp only [LabelsBuilder.Get, GetWithCategory_fst, getWithCategory_eq_resolveInOrder b2 hi,
      resolveInOrder]
    rcases h with h | ⟨h, h'⟩
    · simp [h]
    · simp [h, h']
  rcases hc with hc | hc
  · subst hc
    have hset := Set_meta b1 n v hinv1
    simp only [hnP1, if_false] at hset
    refine ⟨b1, _, hdel, hset, ?_, ?_⟩
    · exact hget _ (Set_inv b1 _ _ _ _ hinv1 hset)
        (Or.inr ⟨(lookupLabel_none_iff _ _).mpr hnP1, lookupLabel_upsert_self n v _⟩)
    · refine (L.sortSort_perm _).mem_iff.mpr (mem_UnsortedLabels_of_meta L _ _ ?_ hnP1)
      exact (lookupLabel_some _ _ _ (lookupLabel_upsert_self n v _)).1
  · subst hc
    have hset := Set_parsed b1 n v hinv1
    refine ⟨b1, _, hdel, hset, ?_, ?_⟩
    · exact hget _ (Set_inv b1 _ _ _ _ hinv1 hset) (Or.inl (lookupLabel_upsert_self n v _))
    · refine (L.sortSort_perm _).mem_iff.mpr (mem_UnsortedLabels_of_parsed L _ _ ?_)
      exact (lookupLabel_some _ _ _ (lookupLabel_upsert_self n v _)).1

theorem Labels.Get_of_lookup (xs : Labels) (n : String) (l : Label)
    (h : lookupLabel xs n = some l) : Labels.Get xs n = l.Value := by
  induction xs with
  | nil => simp [lookupLabel] at h
  | cons a as ih =>
    unfold lookupLabel at h
    unfold Labels.Get
    by_cases ha : a.Name = n
    · simp only [ha, if_true, Option.some.injEq] at h
      subst h
      simp [ha]
    · simp only [ha, if_false] at h
      simp [ha, ih h]

theorem eq_singleton_of_mem {α : Type} {xs : List α} {x : α} (hlen : xs.length ≤ 1)
    (hx : x ∈ xs) : xs = [x] := by
  match xs, hlen, hx with
  | [y], _, hx => rw [List.mem_singleton.mp hx]
  | _ :: _ :: _, hlen, _ => simp at hlen

theorem streamEntry_of_unshadowed (b : LabelsBuilder) (l0 : Label)
    (hnP : l0.Name ∉ names b.addParsed) (hnM : l0.Name ∉ names b.addStructuredMetadata) :
    b.streamEntry l0 =
      if l0.Name ∈ b.del then none
      else some { Name := l0.Name,
                  Value := if l0.Name ∈ names b.addStream then Labels.Get b.addStream l0.Name
                    else l0.Value } := by
  unfold LabelsBuilder.streamEntry
  simp only [(labelsContain_false_iff _ _).mpr hnP, (labelsContain_false_iff _ _).mpr hnM,
    Bool.false_eq_true, if_false]
  by_cases hd : l0.Name ∈ b.del
  · simp [hd]
  · by_cases hs : l0.Name ∈ names b.addStream
    · simp [hd, hs, (labelsContain_iff _ _).mpr hs]
    · simp [hd, hs, (labelsContain_false_iff _ _).mpr hs]

theorem mem_iff_lookup (xs : Labels) (hnd : (names xs).Nodup) (n v : String) :
    ({ Name := n, Value := v } : Label) ∈ xs ↔ lookupLabel xs n = some { Name := n, Value := v } :=
  ⟨fun h => lookupLabel_of_mem xs _ hnd h, fun h => (lookupLabel_some _ _ _ h).1⟩

theorem UnsortedLabels_filter_name_iff (L : Lib) (b : LabelsBuilder) (hb : b.Inv)
    (hbase : (names b.base).Nodup) (n v : String)
    (h1 : n ≠ L.ErrorLabel) (h2 : n ≠ L.ErrorDetailsLabel) :
    ((b.UnsortedLabels L none).filter (fun l => decide (l.Name = n)) = [{ Name := n, Value := v }]
      ↔ finalizesTo b n v) ∧
    ((b.UnsortedLabels L none).filter (fun l => decide (l.Name = n))).length ≤ 1 := by
  obtain ⟨hS, hM, hP, -, -, -⟩ := (inv_iff _).mp hb
  rw [UnsortedLabels_filter_name L b hb n h1 h2]
  unfold finalizesTo
  rw [mem_iff_lookup _ hP, mem_iff_lookup _ hM]
  cases hlp : lookupLabel b.addParsed n with
  | some lp =>
    have hnP : n ∈ names b.addParsed := (lookupLabel_isSome_iff _ _).mp ⟨_, hlp⟩
    rw [filterMap_streamEntry_shadowed b n (Or.inr (Or.inr hnP))]
    simp [hnP]
  | none =>
    have hnP : n ∉ names b.addParsed := (lookupLabel_none_iff _ _).mp hlp
    cases hlm : lookupLabel b.addStructuredMetadata n with
    | some lm =>
      have hnM : n ∈ names b.addStructuredMetadata := (lookupLabel_isSome_iff _ _).mp ⟨_, hlm⟩
      rw [filterMap_streamEntry_shadowed b n (Or.inr (Or.inl hnM))]
      simp [hnP, hnM]
    | none =>
      have hnM : n ∉ names b.addStructuredMetadata := (lookupLabel_none_iff _ _).mp hlm
      rw [filter_name_eq_lookup n _ hbase]
      cases hlb : lookupLabel b.base n with
      | none =>
        have hnB : n ∉ names b.base := (lookupLabel_none_iff _ _).mp hlb
        simp [hnP, hnB]
      | some l0 =>
        have hnB : n ∈ names b.base := (lookupLabel_isSome_iff _ _).mp ⟨_, hlb⟩
        have hl0 : l0.Name = n := (lookupLabel_some _ _ _ hlb).2
        have hget : Labels.Get b.base n = l0.Value := Labels.Get_of_lookup _ _ _ hlb
        have hse := streamEntry_of_unshadowed b l0 (hl0 ▸ hnP) (hl0 ▸ hnM)
        rw [hl0] at hse
        simp only [Option.toList_some, List.filterMap_cons, List.filterMap_nil, hnP, if_false,
          Option.toList_none, List.append_nil, hnB, hnM, not_false_eq_true, true_and,
          reduceCtorEq, false_or, false_and, hget, hse]
        by_cases hd : n ∈ b.del
        · simp [hd]
        · simp only [hd, if_false, List.length_singleton, le_refl, and_true,
            List.cons.injEq, and_true, Label.mk.injEq, true_and]
          constructor
          · intro h
            exact ⟨not_false, h.symm⟩
          · intro h
            exact h.2.symm

/-- C7. In every reachable state over a base with unique names, for a name `n` that
is not a reserved error label and every value `v`: the pair `n=v` occurs in
`UnsortedLabels()` (all categories) exactly when `n` is staged as parsed with value
`v`, or staged as structured metadata with value `v` and not as parsed, or `n` is a
base label that is not deleted and not staged as parsed or structured metadata and `v`
is its stream pending value if there is one and its base value otherwise; and then
`n=v` is the only entry named `n`. -/
theorem UnsortedLabels_characterisation (L : Lib) (b : LabelsBuilder) (hb : Reachable L b)
    (hbase : (names b.base).Nodup) (n v : String)
    (h1 : n ≠ L.ErrorLabel) (h2 : n ≠ L.ErrorDetailsLabel) :
    (({ Name := n, Value := v } : Label) ∈ b.UnsortedLabels L none ↔ finalizesTo b n v) ∧
    (finalizesTo b n v →
      (b.UnsortedLabels L none).filter (fun l => decide (l.Name = n))
        = [{ Name := n, Value := v }]) := by
  obtain ⟨hiff, hlen⟩ := UnsortedLabels_filter_name_iff L b hb.inv hbase n v h1 h2
  refine ⟨⟨fun hmem => hiff.mp ?_, fun hf => ?_⟩, hiff.mpr⟩
  · have hin : ({ Name := n, Value := v } : Label) ∈
        (b.UnsortedLabels L none).filter (fun l => decide (l.Name = n)) :=
      List.mem_filter.mpr ⟨hmem, by simp⟩
    exact eq_singleton_of_mem hlen hin
  · have : ({ Name := n, Value := v } : Label) ∈
        (b.UnsortedLabels L none).filter (fun l => decide (l.Name = n)) := by
      rw [hiff.mpr hf]; exact List.mem_singleton_self _
    exact (List.mem_filter.mp this).1

theorem exampleFinal_reachable : Reachable stdLib exampleFinal :=
  Reachable.set exampleParsed exampleFinal StructuredMetadataLabel "app" "y"
    exampleParsed_reachable (by decide)

/-- Instance of C7 on the example of the specification: base `app="x"`, `env="prod"`,
`Set(ParsedLabel, "level", "error")`, `Set(StructuredMetadataLabel, "app", "y")`.  The
name `app` finalizes to `y`, and the finalized labels are `app="y"`, `env="prod"`,
`level="error"`. -/
theorem UnsortedLabels_characterisation_witness :
    (Reachable stdLib exampleFinal ∧ (names exampleFinal.base).Nodup ∧
      "app" ≠ stdLib.ErrorLabel ∧ "app" ≠ stdLib.ErrorDetailsLabel) ∧
    ((({ Name := "app", Value := "y" } : Label) ∈ exampleFinal.UnsortedLabels stdLib none
        ↔ finalizesTo exampleFinal "app" "y") ∧
      (finalizesTo exampleFinal "app" "y" →
        (exampleFinal.UnsortedLabels stdLib none).filter (fun l => decide (l.Name = "app"))
          = [{ Name := "app", Value := "y" }])) ∧
    exampleFinal.labels stdLib none =
      [{ Name := "app", Value := "y" }, { Name := "env", Value := "prod" },
       { Name := "level", Value := "error" }] :=
  ⟨⟨exampleFinal_reachable, by decide, by decide, by decide⟩,
    UnsortedLabels_characterisation stdLib exampleFinal exampleFinal_reachable (by decide)
      "app" "y" (by decide) (by decide),
    by decide⟩

theorem labelsResult.Parsed_eq (r : labelsResult) : r.Parsed = r.parsed := by
  unfold labelsResult.Parsed
  split
  · rename_i h
    exact (List.length_eq_zero.mp h).symm
  · rfl

theorem labelsResult.StructuredMetadata_eq (r : labelsResult) :
    r.StructuredMetadata = r.structuredMetadata := by
  unfold labelsResult.StructuredMetadata
  split
  · rename_i h
    exact (List.length_eq_zero.mp h).symm
  · rfl

theorem labelsResult.Stream_eq (r : labelsResult) : r.Stream = r.stream := by
  unfold labelsResult.Stream
  split
  · rename_i h
    exact (List.length_eq_zero.mp h).symm
  · rfl

theorem categoryOf_parsed_iff (L : Lib) (b : LabelsBuilder) (l : Label) :
    decide (b.categoryOf L l = ParsedLabel) = b.inParsedClass L l := by
  unfold LabelsBuilder.categoryOf LabelsBuilder.inParsedClass
  by_cases h1 : l.Name = L.ErrorLabel ∨ l.Name = L.ErrorDetailsLabel
  · simp [h1]
  · by_cases h2 : l.Name ∈ names b.addParsed
    · simp [h1, h2, (labelsContain_iff _ _).mpr h2]
    · have h3 := (labelsContain_false_iff _ _).mpr h2
      by_cases h4 : labelsContain b.addStructuredMetadata l.Name = true
      · simp [h1, h2, h3, h4]
      · simp [h1, h2, h3, h4]

theorem categoryOf_meta_iff (L : Lib) (b : LabelsBuilder) (hb : b.Inv) (l : Label) :
    decide (b.categoryOf L l = StructuredMetadataLabel) = b.inMetaClass L l := by
  obtain ⟨-, -, -, -, -, hMP⟩ := (inv_iff _).mp hb
  unfold LabelsBuilder.categoryOf LabelsBuilder.inMetaClass
  by_cases h1 : l.Name = L.ErrorLabel ∨ l.Name = L.ErrorDetailsLabel
  · rcases h1 with h1 | h1 <;> simp [h1]
  · have h1a : l.Name ≠ L.ErrorLabel := fun e => h1 (Or.inl e)
    have h1b : l.Name ≠ L.ErrorDetailsLabel := fun e => h1 (Or.inr e)
    by_cases h4 : l.Name ∈ names b.addStructuredMetadata
    · have h2 := hMP _ h4
      simp [h1, h1a, h1b, h4, (labelsContain_iff _ _).mpr h4,
        (labelsContain_false_iff _ _).mpr h2]
    · by_cases h2 : l.Name ∈ names b.addParsed
      · simp [h1, h4, (labelsContain_iff _ _).mpr h2]
      · simp [h1, h4, (labelsContain_false_iff _ _).mpr h4,
          (labelsContain_false_iff _ _).mpr h2]

theorem categoryOf_stream_iff (L : Lib) (b : LabelsBuilder) (hb : b.Inv) (l : Label) :
    decide (b.categoryOf L l = StreamLabel) = (!b.inParsedClass L l && !b.inMetaClass L l) := by
  rw [← categoryOf_parsed_iff, ← categoryOf_meta_iff L b hb]
  have hne : b.categoryOf L l ≠ InvalidCategory := by
    unfold LabelsBuilder.categoryOf
    split_ifs <;> simp
  cases h : b.categoryOf L l with
  | InvalidCategory => exact absurd h hne
  | StreamLabel => simp
  | StructuredMetadataLabel => simp
  | ParsedLabel => simp

/-- The two branches of the modified path of `LabelsResult`. -/
theorem LabelsResult_modified (L : Lib) (b : LabelsBuilder)
    (hmod : b.hasDel = true ∨ b.hasAdd = true ∨ b.HasErr = true) :
    b.LabelsResult L =
      match b.resultCache.lookup (L.hasherHash (b.finalized L)) with
      | some cached => (cached, b)
      | none =>
        let result := NewLabelsResult (L.labelsString (b.finalized L))
          (L.hasherHash (b.finalized L))
          (labelsNew L ((b.finalized L).filter fun l => decide (b.categoryOf L l = StreamLabel)))
          (labelsNew L ((b.finalized L).filter
            fun l => decide (b.categoryOf L l = StructuredMetadataLabel)))
          (labelsNew L ((b.finalized L).filter fun l => decide (b.categoryOf L l = ParsedLabel)))
        (result, { b with resultCache := (L.hasherHash (b.finalized L), result) :: b.resultCache }) := by
  unfold LabelsBuilder.LabelsResult
  have : ¬ ((!b.hasDel && !b.hasAdd && !b.HasErr) = true) := by
    rcases hmod with h | h | h <;> simp [h]
  rw [if_neg this]
  rfl

/-- C8, amended.  In every reachable state with a deletion, a pending addition or an
error: when the result cache already holds an entry under the hash of the sorted
finalized sequence, `LabelsResult()` returns that entry as it is and leaves the builder
unchanged; otherwise it returns a new result, stored in the cache under that hash, whose
`Parsed()` is exactly (a name-sorted permutation of) the finalized labels whose name is
staged as parsed or is a reserved error label, whose `StructuredMetadata()` is exactly
those whose name is staged as structured metadata and is not reserved, and whose
`Stream()` is exactly the remaining ones. -/
theorem LabelsResult_categorized (L : Lib) (b : LabelsBuilder) (hb : Reachable L b)
    (hmod : b.hasDel = true ∨ b.hasAdd = true ∨ b.HasErr = true) :
    (∀ cached, b.resultCache.lookup (L.hasherHash (b.finalized L)) = some cached →
      b.LabelsResult L = (cached, b)) ∧
    (b.resultCache.lookup (L.hasherHash (b.finalized L)) = none →
      ((b.LabelsResult L).1.Parsed.Perm ((b.finalized L).filter (b.inParsedClass L)) ∧
        List.Sorted nameLE (b.LabelsResult L).1.Parsed) ∧
      ((b.LabelsResult L).1.StructuredMetadata.Perm ((b.finalized L).filter (b.inMetaClass L)) ∧
        List.Sorted nameLE (b.LabelsResult L).1.StructuredMetadata) ∧
      ((b.LabelsResult L).1.Stream.Perm
          ((b.finalized L).filter fun l => !b.inParsedClass L l && !b.inMetaClass L l) ∧
        List.Sorted nameLE (b.LabelsResult L).1.Stream) ∧
      (b.LabelsResult L).2 =
        { b with resultCache :=
            (L.hasherHash (b.finalized L), (b.LabelsResult L).1) :: b.resultCache }) := by
  have hinv := hb.inv
  rw [LabelsResult_modified L b hmod]
  constructor
  · intro cached hc
    rw [hc]
  · intro hc
    rw [hc]
    simp only [labelsResult.Parsed_eq, labelsResult.StructuredMetadata_eq,
      labelsResult.Stream_eq, NewLabelsResult, labelsNew]
    have e1 : (fun l => decide (b.categoryOf L l = ParsedLabel)) = b.inParsedClass L :=
      funext (categoryOf_parsed_iff L b)
    have e2 : (fun l => decide (b.categoryOf L l = StructuredMetadataLabel))
        = b.inMetaClass L := funext (categoryOf_meta_iff L b hinv)
    have e3 : (fun l => decide (b.categoryOf L l = StreamLabel))
        = fun l => !b.inParsedClass L l && !b.inMetaClass L l :=
      funext (categoryOf_stream_iff L b hinv)
    rw [e1, e2, e3]
    exact ⟨⟨L.slicesSortFunc_perm _, L.slicesSortFunc_sorted _⟩,
      ⟨L.slicesSortFunc_perm _, L.slicesSortFunc_sorted _⟩,
      ⟨L.slicesSortFunc_perm _, L.slicesSortFunc_sorted _⟩, trivial⟩

/-- Instance of C8 (amended) on the example of the specification, whose finalized
sequence is not yet in the cache. -/
theorem LabelsResult_categorized_witness :
    (Reachable stdLib exampleFinal ∧
      (exampleFinal.hasDel = true ∨ exampleFinal.hasAdd = true ∨ exampleFinal.HasErr = true)) ∧
    (∀ cached, exampleFinal.resultCache.lookup (stdLib.hasherHash (exampleFinal.finalized stdLib))
        = some cached → exampleFinal.LabelsResult stdLib = (cached, exampleFinal)) ∧
    (exampleFinal.resultCache.lookup (stdLib.hasherHash (exampleFinal.finalized stdLib)) = none →
      ((exampleFinal.LabelsResult stdLib).1.Parsed.Perm
          ((exampleFinal.finalized stdLib).filter (exampleFinal.inParsedClass stdLib)) ∧
        List.Sorted nameLE (exampleFinal.LabelsResult stdLib).1.Parsed) ∧
      ((exampleFinal.LabelsResult stdLib).1.StructuredMetadata.Perm
          ((exampleFinal.finalized stdLib).filter (exampleFinal.inMetaClass stdLib)) ∧
        List.Sorted nameLE (exampleFinal.LabelsResult stdLib).1.StructuredMetadata) ∧
      ((exampleFinal.LabelsResult stdLib).1.Stream.Perm
          ((exampleFinal.finalized stdLib).filter
            fun l => !exampleFinal.inParsedClass stdLib l && !exampleFinal.inMetaClass stdLib l) ∧
        List.Sorted nameLE (exampleFinal.LabelsResult stdLib).1.Stream) ∧
      (exampleFinal.LabelsResult stdLib).2 =
        { exampleFinal with resultCache :=
            (stdLib.hasherHash (exampleFinal.finalized stdLib),
              (exampleFinal.LabelsResult stdLib).1) :: exampleFinal.resultCache }) ∧
    (exampleFinal.LabelsResult stdLib).1.Parsed = [{ Name := "level", Value := "error" }] ∧
    (exampleFinal.LabelsResult stdLib).1.StructuredMetadata = [{ Name := "app", Value := "y" }] ∧
    (exampleFinal.LabelsResult stdLib).1.Stream = [{ Name := "env", Value := "prod" }] :=
  have h := LabelsResult_categorized stdLib exampleFinal exampleFinal_reachable
    (Or.inr (Or.inl (by decide)))
  ⟨⟨exampleFinal_reachable, Or.inr (Or.inl (by decide))⟩, h.1, h.2,
    by decide, by decide, by decide⟩

theorem exampleShadow_reachable : Reachable stdLib exampleShadow :=
  Reachable.set exampleBuilder exampleShadow ParsedLabel "app" "x"
    exampleBuilder_reachable (by decide)

/-- C8 as stated fails.  With a collision-free hash, on the builder over `app="x"`,
`env="prod"` (created with the hash of its base) after `Set(ParsedLabel, "app", "x")`,
the finalized labels are those of the base, so `LabelsResult()` returns the result
cached for the base: its `Parsed()` is empty and its `Stream()` holds `app="x"`,
although `app` is staged as parsed. -/
theorem LabelsResult_categorized_counterexample :
    Reachable stdLib exampleShadow ∧ Function.Injective stdLib.hasherHash ∧
    exampleShadow.hasAdd = true ∧
    (exampleShadow.finalized stdLib).filter (exampleShadow.inParsedClass stdLib)
      = [{ Name := "app", Value := "x" }] ∧
    (exampleShadow.LabelsResult stdLib).1.Parsed = [] ∧
    (exampleShadow.LabelsResult stdLib).1.Stream
      = [{ Name := "app", Value := "x" }, { Name := "env", Value := "prod" }] ∧
    ¬ (exampleShadow.LabelsResult stdLib).1.Parsed.Perm
        ((exampleShadow.finalized stdLib).filter (exampleShadow.inParsedClass stdLib)) :=
  have hP : (exampleShadow.LabelsResult stdLib).1.Parsed = [] := by decide
  have hF : (exampleShadow.finalized stdLib).filter (exampleShadow.inParsedClass stdLib)
      = [{ Name := "app", Value := "x" }] := by decide
  ⟨exampleShadow_reachable, encodeLabels_injective, by decide, hF, hP, by decide,
    by rw [hP, hF]; simp⟩

theorem mem_appendErrors_err (L : Lib) (b : LabelsBuilder) (buf : Labels) (h : b.err ≠ "") :
    ({ Name := L.ErrorLabel, Value := b.err } : Label) ∈ b.appendErrors L buf := by
  unfold LabelsBuilder.appendErrors
  by_cases h2 : b.errDetails = "" <;> simp [h, h2]

theorem mem_appendErrors_errDetails (L : Lib) (b : LabelsBuilder) (buf : Labels)
    (h : b.errDetails ≠ "") :
    ({ Name := L.ErrorDetailsLabel, Value := b.errDetails } : Label) ∈ b.appendErrors L buf := by
  unfold LabelsBuilder.appendErrors
  simp [h]

theorem mem_Labels_of_mem_parsed (L : Lib) (r : labelsResult) (l : Label) (h : l ∈ r.parsed) :
    l ∈ r.Labels L := by
  unfold labelsResult.Labels flattenLabels
  refine (L.sortSort_perm _).mem_iff.mpr ?_
  simp [h]

/-- A label with a reserved error name that is in the finalized sequence is, on a
cache miss, in the `Parsed()` subset and in `Labels()` of the result. -/
theorem LabelsResult_reserved_mem (L : Lib) (b : LabelsBuilder)
    (hmod : b.hasDel = true ∨ b.hasAdd = true ∨ b.HasErr = true)
    (hmiss : b.resultCache.lookup (L.hasherHash (b.finalized L)) = none)
    (l : Label) (hl : l ∈ b.UnsortedLabels L none)
    (hres : l.Name = L.ErrorLabel ∨ l.Name = L.ErrorDetailsLabel) :
    l ∈ (b.LabelsResult L).1.Labels L ∧ l ∈ (b.LabelsResult L).1.Parsed := by
  have hp : l ∈ (b.LabelsResult L).1.parsed := by
    rw [LabelsResult_modified L b hmod, hmiss]
    simp only [NewLabelsResult, labelsNew]
    refine (L.slicesSortFunc_perm _).mem_iff.mpr (List.mem_filter.mpr ⟨?_, ?_⟩)
    · exact (L.slicesSortFunc_perm _).mem_iff.mpr hl
    · simp [LabelsBuilder.categoryOf, hres]
  exact ⟨mem_Labels_of_mem_parsed L _ l hp, by rw [labelsResult.Parsed_eq]; exact hp⟩

/-- C9 as stated fails, in two ways.  With only `errDetails` set on an unmodified
builder, `LabelsResult()` is the cached result of the base, which has no error-details
label.  And with `err` set, when the sorted finalized sequence is already cached (here
by `ForLabels`, for a base that itself holds `__error__="boom"`), the cached result is
returned: the error label is in its `Stream()` subset, not in `Parsed()`. -/
theorem LabelsResult_error_labels_counterexample :
    (exampleDetailsOnly.errDetails ≠ "" ∧
      (exampleDetailsOnly.LabelsResult stdLib).1.Labels stdLib
        = [{ Name := "app", Value := "x" }, { Name := "env", Value := "prod" }] ∧
      ({ Name := stdLib.ErrorDetailsLabel, Value := exampleDetailsOnly.errDetails } : Label)
        ∉ (exampleDetailsOnly.LabelsResult stdLib).1.Labels stdLib) ∧
    (exampleErrorBase.err ≠ "" ∧
      ((NewBaseLabelsBuilder.ForLabels stdLib [{ Name := "__error__", Value := "boom" }]
          (encodeLabels [{ Name := "__error__", Value := "boom" }])).Del ["__error__"]).map
        (fun b => b.SetErr "boom") = some exampleErrorBase ∧
      (exampleErrorBase.LabelsResult stdLib).1.Stream = [{ Name := "__error__", Value := "boom" }] ∧
      (exampleErrorBase.LabelsResult stdLib).1.Parsed = [] ∧
      ({ Name := stdLib.ErrorLabel, Value := exampleErrorBase.err } : Label)
        ∉ (exampleErrorBase.LabelsResult stdLib).1.Parsed) :=
  ⟨⟨by decide, by decide, by decide⟩, ⟨by decide, by decide, by decide, by decide, by decide⟩⟩

/-- C10. In every builder state whose error value is non-empty, `GroupedLabels()`
returns exactly what `LabelsResult()` returns in that state (the same result and the
same builder afterwards), whatever `groups`, `without` and `noLabels` are. -/
theorem GroupedLabels_error (L : Lib) (b : LabelsBuilder) (h : b.err ≠ "") :
    b.GroupedLabels L = b.LabelsResult L := by
  unfold LabelsBuilder.GroupedLabels
  have : b.HasErr = true := by simp [LabelsBuilder.HasErr, h]
  rw [if_pos this]

/-- Instance of C10: with groups, `without` and `noLabels` set, the grouped result of
a builder in error is the plain result, and it holds the error label. -/
theorem GroupedLabels_error_witness :
    exampleGrouped.err ≠ "" ∧
    exampleGrouped.GroupedLabels stdLib = exampleGrouped.LabelsResult stdLib ∧
    (exampleGrouped.GroupedLabels stdLib).1.Labels stdLib =
      [{ Name := "__error__", Value := "boom" }, { Name := "app", Value := "x" },
       { Name := "env", Value := "prod" }, { Name := "level", Value := "error" }] :=
  ⟨by decide, GroupedLabels_error stdLib exampleGrouped (by decide), by decide⟩

/-! ## Grouping short-circuits, idempotence and reset -/

theorem sortSort_nil (L : Lib) : L.sortSort [] = [] :=
  List.Perm.eq_nil (L.sortSort_perm [])

/-- C13. In every builder state with `noLabels` set and no error, `GroupedLabels()`
returns the shared `EmptyLabelsResult` and leaves the builder unchanged, whatever the
base labels, deletions, pending additions, `groups` and `without` are; that result has
no label in any subset nor in `Labels()`. -/
theorem GroupedLabels_noLabels (L : Lib) (b : LabelsBuilder) (herr : b.err = "")
    (hn : b.noLabels = true) :
    b.GroupedLabels L = (EmptyLabelsResult L, b) ∧
    (EmptyLabelsResult L).Stream = [] ∧ (EmptyLabelsResult L).StructuredMetadata = [] ∧
    (EmptyLabelsResult L).Parsed = [] ∧ (EmptyLabelsResult L).Labels L = [] := by
  refine ⟨?_, rfl, rfl, rfl, ?_⟩
  · unfold LabelsBuilder.GroupedLabels
    have h1 : ¬ (b.HasErr = true) := by simp [LabelsBuilder.HasErr, herr]
    rw [if_neg h1, if_pos hn]
  · simp [labelsResult.Labels, flattenLabels, EmptyLabelsResult, NewLabelsResult, sortSort_nil]

/-- Instance of C13: a builder with `noLabels`, groups, a deletion and a parsed
label. -/
theorem GroupedLabels_noLabels_witness :
    (exampleNoLabels.err = "" ∧ exampleNoLabels.noLabels = true) ∧
    exampleNoLabels.GroupedLabels stdLib = (EmptyLabelsResult stdLib, exampleNoLabels) ∧
    (EmptyLabelsResult stdLib).Stream = [] ∧ (EmptyLabelsResult stdLib).StructuredMetadata = [] ∧
    (EmptyLabelsResult stdLib).Parsed = [] ∧ (EmptyLabelsResult stdLib).Labels stdLib = [] :=
  ⟨⟨by decide, by decide⟩, GroupedLabels_noLabels stdLib exampleNoLabels (by decide) (by decide)⟩

theorem labelsResult.Labels_sorted (L : Lib) (r : labelsResult) :
    List.Sorted nameLE (r.Labels L) :=
  L.sortSort_sorted _

theorem lookup_cons_self (k : Nat) (r : labelsResult) (cache : List (Nat × labelsResult)) :
    List.lookup k ((k, r) :: cache) = some r := by
  simp [List.lookup]

/-- A call of `LabelsResult()` on a modified builder whose cache holds `r` under the
hash of the sorted finalized sequence returns `r` and changes nothing. -/
theorem LabelsResult_hit (L : Lib) (b : LabelsBuilder)
    (hmod : b.hasDel = true ∨ b.hasAdd = true ∨ b.HasErr = true) (r : labelsResult)
    (h : b.resultCache.lookup (L.hasherHash (b.finalized L)) = some r) :
    b.LabelsResult L = (r, b) := by
  rw [LabelsResult_modified L b hmod, h]

/-- C14. In every builder state, `LabelsResult().Labels()` is sorted by name, and a
second call of `LabelsResult()` right after the first returns the same result and
leaves the builder, its result cache included, as the first call left it. -/
theorem LabelsResult_sorted_idempotent (L : Lib) (b : LabelsBuilder) :
    List.Sorted nameLE ((b.LabelsResult L).1.Labels L) ∧
    (b.LabelsResult L).2.LabelsResult L = ((b.LabelsResult L).1, (b.LabelsResult L).2) ∧
    ((b.LabelsResult L).2.LabelsResult L).2.resultCache = (b.LabelsResult L).2.resultCache := by
  have key : (b.LabelsResult L).2.LabelsResult L
      = ((b.LabelsResult L).1, (b.LabelsResult L).2) := by
    by_cases hmod : b.hasDel = true ∨ b.hasAdd = true ∨ b.HasErr = true
    · rw [LabelsResult_modified L b hmod]
      cases hc : b.resultCache.lookup (L.hasherHash (b.finalized L)) with
      | some cached => exact LabelsResult_hit L b hmod cached hc
      | none =>
        exact LabelsResult_hit L
          { b with resultCache := (L.hasherHash (b.finalized L), _) :: b.resultCache }
          hmod _ (lookup_cons_self _ _ _)
    · have hun : (!b.hasDel && !b.hasAdd && !b.HasErr) = true := by
        simp only [not_or, Bool.not_eq_true] at hmod
        simp [hmod.1, hmod.2.1, hmod.2.2]
      have e : b.LabelsResult L = (b.currentResult, b) := by
        unfold LabelsBuilder.LabelsResult
        rw [if_pos hun]
      rw [e]
      exact e
  exact ⟨labelsResult.Labels_sorted L _, key, by rw [key]⟩

/-- C17. In every builder state, `Reset()` leaves the deletion list, the three
pending-addition lists, `err` and `errDetails` empty, and leaves `groups`, `without`,
`noLabels` and the result cache as they were; the same holds when it is called on the
shared base builder. -/
theorem Reset_clears_line_state (b : LabelsBuilder) :
    (b.Reset.del = [] ∧ b.Reset.addStream = [] ∧ b.Reset.addStructuredMetadata = [] ∧
      b.Reset.addParsed = [] ∧ b.Reset.err = "" ∧ b.Reset.errDetails = "") ∧
    (b.Reset.groups = b.groups ∧ b.Reset.without = b.without ∧
      b.Reset.noLabels = b.noLabels ∧ b.Reset.resultCache = b.resultCache) ∧
    (b.toBaseLabelsBuilder.Reset.del = [] ∧ b.toBaseLabelsBuilder.Reset.addStream = [] ∧
      b.toBaseLabelsBuilder.Reset.addStructuredMetadata = [] ∧
      b.toBaseLabelsBuilder.Reset.addParsed = [] ∧ b.toBaseLabelsBuilder.Reset.err = "" ∧
      b.toBaseLabelsBuilder.Reset.errDetails = "") ∧
    (b.toBaseLabelsBuilder.Reset.groups = b.groups ∧
      b.toBaseLabelsBuilder.Reset.without = b.without ∧
      b.toBaseLabelsBuilder.Reset.noLabels = b.noLabels ∧
      b.toBaseLabelsBuilder.Reset.resultCache = b.resultCache) :=
  ⟨⟨rfl, rfl, rfl, rfl, rfl, rfl⟩, ⟨rfl, rfl, rfl, rfl⟩, ⟨rfl, rfl, rfl, rfl, rfl, rfl⟩,
    ⟨rfl, rfl, rfl, rfl⟩⟩

/-! ## `Add` as a sequence of `Set` -/

theorem deleteLoop_subset (n : String) :
    ∀ (k i : Nat) (arr : List Label) (cur : Nat) (out : Labels),
      deleteLoop n k i arr cur = some out → ∀ x ∈ out, x ∈ arr := by
  intro k
  induction k with
  | zero =>
    intro i arr cur out h x hx
    simp only [deleteLoop, Option.some.injEq] at h
    subst h
    exact List.mem_of_mem_take hx
  | succ k ih =>
    intro i arr cur out h x hx
    unfold deleteLoop at h
    simp only [List.get?_eq_getElem?] at h
    cases hg : arr[i]? with
    | none => simp [hg] at h
    | some l =>
      simp only [hg] at h
      by_cases hl : l.Name = n
      · by_cases hc : i + 1 ≤ cur
        · rw [if_pos hl, if_pos hc] at h
          have := ih _ _ _ _ h x hx
          rcases List.mem_append.mp this with h1 | h1
          · exact List.mem_of_mem_take h1
          · rcases List.mem_append.mp h1 with h2 | h2
            · exact List.mem_of_mem_drop (List.mem_of_mem_take h2)
            · exact List.mem_of_mem_drop h2
        · rw [if_pos hl, if_neg hc] at h
          cases h
      · rw [if_neg hl] at h
        exact ih _ _ _ _ h x hx

theorem mem_stagedNames (b : BaseLabelsBuilder) (x : String) :
    x ∈ b.stagedNames ↔
      x ∈ names b.addStream ∨ x ∈ names b.addStructuredMetadata ∨ x ∈ names b.addParsed := by
  simp only [BaseLabelsBuilder.stagedNames, names_append, List.mem_append]
  tauto

theorem names_subset_of_subset {xs ys : Labels} (h : ∀ x ∈ xs, x ∈ ys) :
    ∀ n ∈ names xs, n ∈ names ys := by
  intro n hn
  obtain ⟨l, hl, rfl⟩ := List.mem_map.mp hn
  exact mem_names_of_mem (h l hl)

/-- The method `deleteWithCategory` stages nothing and touches nothing but the
pending lists. -/
theorem deleteWithCategory_shrinks (b b1 : LabelsBuilder) (c : LabelCategory) (n : String)
    (h : b.deleteWithCategory c n = some b1) :
    (∀ x ∈ b1.stagedNames, x ∈ b.stagedNames) ∧ b1.base = b.base := by
  unfold LabelsBuilder.deleteWithCategory at h
  cases c with
  | InvalidCategory => simp [BaseLabelsBuilder.add] at h
  | StreamLabel =>
    simp only [BaseLabelsBuilder.add] at h
    cases hd : deleteLoop n b.addStream.length 0 b.addStream b.addStream.length with
    | none => simp [hd] at h
    | some ys =>
      simp only [hd, LabelsBuilder.setAdd, Option.some.injEq] at h
      subst h
      refine ⟨fun x hx => ?_, rfl⟩
      rw [mem_stagedNames] at hx ⊢
      rcases hx with hx | hx | hx
      · exact Or.inl (names_subset_of_subset (deleteLoop_subset n _ _ _ _ _ hd) x hx)
      · exact Or.inr (Or.inl hx)
      · exact Or.inr (Or.inr hx)
  | StructuredMetadataLabel =>
    simp only [BaseLabelsBuilder.add] at h
    cases hd : deleteLoop n b.addStructuredMetadata.length 0 b.addStructuredMetadata
        b.addStructuredMetadata.length with
    | none => simp [hd] at h
    | some ys =>
      simp only [hd, LabelsBuilder.setAdd, Option.some.injEq] at h
      subst h
      refine ⟨fun x hx => ?_, rfl⟩
      rw [mem_stagedNames] at hx ⊢
      rcases hx with hx | hx | hx
      · exact Or.inl hx
      · exact Or.inr (Or.inl (names_subset_of_subset (deleteLoop_subset n _ _ _ _ _ hd) x hx))
      · exact Or.inr (Or.inr hx)
  | ParsedLabel =>
    simp only [BaseLabelsBuilder.add] at h
    cases hd : deleteLoop n b.addParsed.length 0 b.addParsed b.addParsed.length with
    | none => simp [hd] at h
    | some ys =>
      simp only [hd, LabelsBuilder.setAdd, Option.some.injEq] at h
      subst h
      refine ⟨fun x hx => ?_, rfl⟩
      rw [mem_stagedNames] at hx ⊢
      rcases hx with hx | hx | hx
      · exact Or.inl hx
      · exact Or.inr (Or.inl hx)
      · exact Or.inr (Or.inr (names_subset_of_subset (deleteLoop_subset n _ _ _ _ _ hd) x hx))

theorem mem_names_store_list (n v : String) (xs : Labels) (x : String) :
    (∀ ys, overwriteValue n v xs = some ys → x ∈ names ys → x ∈ names xs) ∧
    (x ∈ names (xs ++ [{ Name := n, Value := v }]) → x ∈ names xs ∨ x = n) := by
  constructor
  · intro ys h hx
    rw [overwriteValue_some_names n v xs ys h] at hx
    exact hx
  · intro hx
    simpa [names] using hx

/-- The end of `Set` stages at most the name it is given. -/
theorem store_staged (b b1 : LabelsBuilder) (c : LabelCategory) (n v : String)
    (h : b.store c n v = some b1) :
    (∀ x ∈ b1.stagedNames, x ∈ b.stagedNames ∨ x = n) ∧ b1.base = b.base := by
  unfold LabelsBuilder.store at h
  cases c with
  | InvalidCategory => simp [BaseLabelsBuilder.add] at h
  | StreamLabel =>
    simp only [BaseLabelsBuilder.add] at h
    cases ho : overwriteValue n v b.addStream with
    | some ys =>
      simp only [ho, LabelsBuilder.setAdd, Option.some.injEq] at h
      subst h
      refine ⟨fun x hx => Or.inl ?_, rfl⟩
      rw [mem_stagedNames] at hx ⊢
      rcases hx with hx | hx | hx
      · exact Or.inl ((mem_names_store_list n v _ x).1 ys ho hx)
      · exact Or.inr (Or.inl hx)
      · exact Or.inr (Or.inr hx)
    | none =>
      simp only [ho, LabelsBuilder.setAdd, Option.map_some', reduceCtorEq, if_false,
        Option.some.injEq] at h
      subst h
      refine ⟨fun x hx => ?_, rfl⟩
      rw [mem_stagedNames] at hx
      rw [mem_stagedNames]
      rcases hx with hx | hx | hx
      · rcases (mem_names_store_list n v _ x).2 hx with h1 | h1
        · exact Or.inl (Or.inl h1)
        · exact Or.inr h1
      · exact Or.inl (Or.inr (Or.inl hx))
      · exact Or.inl (Or.inr (Or.inr hx))
  | StructuredMetadataLabel =>
    simp only [BaseLabelsBuilder.add] at h
    cases ho : overwriteValue n v b.addStructuredMetadata with
    | some ys =>
      simp only [ho, LabelsBuilder.setAdd, Option.some.injEq] at h
      subst h
      refine ⟨fun x hx => Or.inl ?_, rfl⟩
      rw [mem_stagedNames] at hx ⊢
      rcases hx with hx | hx | hx
      · exact Or.inl hx
      · exact Or.inr (Or.inl ((mem_names_store_list n v _ x).1 ys ho hx))
      · exact Or.inr (Or.inr hx)
    | none =>
      simp only [ho, LabelsBuilder.setAdd, Option.map_some', reduceCtorEq, if_false,
        Option.some.injEq] at h
      subst h
      refine ⟨fun x hx => ?_, rfl⟩
      rw [mem_stagedNames] at hx
      rw [mem_stagedNames]
      rcases hx with hx | hx | hx
      · exact Or.inl (Or.inl hx)
      · rcases (mem_names_store_list n v _ x).2 hx with h1 | h1
        · exact Or.inl (Or.inr (Or.inl h1))
        · exact Or.inr h1
      · exact Or.inl (Or.inr (Or.inr hx))
  | ParsedLabel =>
    simp only [BaseLabelsBuilder.add] at h
    cases ho : overwriteValue n v b.addParsed with
    | some ys =>
      simp only [ho, LabelsBuilder.setAdd, Option.some.injEq] at h
      subst h
      refine ⟨fun x hx => Or.inl ?_, rfl⟩
      rw [mem_stagedNames] at hx ⊢
      rcases hx with hx | hx | hx
      · exact Or.inl hx
      · exact Or.inr (Or.inl hx)
      · exact Or.inr (Or.inr ((mem_names_store_list n v _ x).1 ys ho hx))
    | none =>
      simp only [ho, LabelsBuilder.setAdd, Option.map_some', if_true,
        Option.some.injEq] at h
      subst h
      refine ⟨fun x hx => ?_, rfl⟩
      rw [mem_stagedNames] at hx
      rw [mem_stagedNames]
      rcases hx with hx | hx | hx
      · exact Or.inl (Or.inl hx)
      · exact Or.inl (Or.inr (Or.inl hx))
      · rcases (mem_names_store_list n v _ x).2 hx with h1 | h1
        · exact Or.inl (Or.inr (Or.inr h1))
        · exact Or.inr h1

/-- In every builder state, `Set(c, n, v)` stages at most the name `n` and leaves the
base labels alone. -/
theorem Set_staged (b b1 : LabelsBuilder) (c : LabelCategory) (n v : String)
    (h : b.Set c n v = some b1) :
    (∀ x ∈ b1.stagedNames, x ∈ b.stagedNames ∨ x = n) ∧ b1.base = b.base := by
  unfold LabelsBuilder.Set at h
  obtain ⟨ba, hba, h⟩ := Option.bind_eq_some.mp h
  obtain ⟨bb, hbb, h⟩ := Option.bind_eq_some.mp h
  have h1 : (∀ x ∈ ba.stagedNames, x ∈ b.stagedNames) ∧ ba.base = b.base := by
    split_ifs at hba
    · obtain ⟨b0, hb0, hba⟩ := Option.bind_eq_some.mp hba
      have e0 := deleteWithCategory_shrinks _ _ _ _ hb0
      have e1 := deleteWithCategory_shrinks _ _ _ _ hba
      exact ⟨fun x hx => e0.1 x (e1.1 x hx), e1.2.trans e0.2⟩
    · cases hba
      exact ⟨fun x hx => hx, rfl⟩
  have h2 : (∀ x ∈ bb.stagedNames, x ∈ ba.stagedNames) ∧ bb.base = ba.base := by
    split_ifs at hbb
    · exact deleteWithCategory_shrinks _ _ _ _ hbb
    · cases hbb
      exact ⟨fun x hx => hx, rfl⟩
  have h3 : (∀ x ∈ b1.stagedNames, x ∈ bb.stagedNames ∨ x = n) ∧ b1.base = bb.base := by
    split_ifs at h
    · cases h
      exact ⟨fun x hx => Or.inl hx, rfl⟩
    · cases h
      exact ⟨fun x hx => Or.inl hx, rfl⟩
    · exact store_staged _ _ _ _ _ h
  refine ⟨fun x hx => ?_, h3.2.trans (h2.2.trans h1.2)⟩
  rcases h3.1 x hx with hx | hx
  · exact Or.inl (h1.1 x (h2.1 x hx))
  · exact Or.inr hx

theorem Add_eq_addInOrder (L : Lib) (category : LabelCategory) (lbs : Labels) :
    ∀ b : LabelsBuilder, b.Add L category lbs = b.addInOrder L category lbs := by
  induction lbs with
  | nil => intro b; rfl
  | cons l lbs ih =>
    intro b
    have hfold : b.addInOrder L category (l :: lbs)
        = (b.addOne L category l).bind fun b1 => b1.addInOrder L category lbs := rfl
    rw [hfold]
    simp only [LabelsBuilder.Add, LabelsBuilder.addOne]
    split_ifs <;>
      first
        | (simp only [Option.some_bind]; exact ih _)
        | (congr 1; funext b1; exact ih b1)

theorem addOne_staged (L : Lib) (b b1 : LabelsBuilder) (c : LabelCategory) (l : Label)
    (h : b.addOne L c l = some b1) :
    (∀ x ∈ b1.stagedNames, x ∈ b.stagedNames ∨ (x ≠ L.ErrorLabel ∧ x ≠ L.ErrorDetailsLabel)) ∧
    b1.base = b.base := by
  unfold LabelsBuilder.addOne at h
  simp only at h
  generalize (if b.BaseHas l.Name = true then l.Name ++ L.duplicateSuffix else l.Name)
    = name at h
  by_cases h1 : name = L.ErrorLabel
  · rw [if_pos h1] at h
    cases h
    exact ⟨fun x hx => Or.inl hx, rfl⟩
  · by_cases h2 : name = L.ErrorDetailsLabel
    · rw [if_neg h1, if_pos h2] at h
      cases h
      exact ⟨fun x hx => Or.inl hx, rfl⟩
    · rw [if_neg h1, if_neg h2] at h
      have := Set_staged _ _ _ _ _ h
      refine ⟨fun x hx => ?_, this.2⟩
      rcases this.1 x hx with hx | hx
      · exact Or.inl hx
      · exact Or.inr ⟨hx ▸ h1, hx ▸ h2⟩

theorem addInOrder_staged (L : Lib) (c : LabelCategory) (lbs : Labels) :
    ∀ (b b1 : LabelsBuilder), b.addInOrder L c lbs = some b1 →
      ∀ x ∈ b1.stagedNames, x ∈ b.stagedNames ∨ (x ≠ L.ErrorLabel ∧ x ≠ L.ErrorDetailsLabel) := by
  induction lbs with
  | nil =>
    intro b b1 h x hx
    simp only [LabelsBuilder.addInOrder, List.foldlM_nil, Option.pure_def,
      Option.some.injEq] at h
    subst h
    exact Or.inl hx
  | cons l lbs ih =>
    intro b b1 h x hx
    unfold LabelsBuilder.addInOrder at ih h
    simp only [List.foldlM_cons, Option.bind_eq_bind] at h
    obtain ⟨b0, hb0, h⟩ := Option.bind_eq_some.mp h
    rcases ih b0 b1 h x hx with h1 | h1
    · exact (addOne_staged L b b0 c l hb0).1 x h1
    · exact Or.inr h1

/-- C19. In every builder state, for every category and label sequence,
`Add(category, lbs)` gives the same outcome as processing the labels of `lbs` in order,
each one suffixed when it collides with a base name and then diverted to `err` or
`errDetails` when its name is a reserved error name and applied as
`Set(category, name, value)` otherwise; and a name that is in a pending list after
`Add` was there before or is not a reserved error name. -/
theorem Add_refines_Set (L : Lib) (b : LabelsBuilder) (category : LabelCategory)
    (lbs : Labels) :
    b.Add L category lbs = b.addInOrder L category lbs ∧
    ∀ b1, b.Add L category lbs = some b1 →
      ∀ x ∈ b1.stagedNames,
        x ∈ b.stagedNames ∨ (x ≠ L.ErrorLabel ∧ x ≠ L.ErrorDetailsLabel) := by
  refine ⟨Add_eq_addInOrder L category lbs b, fun b1 h => ?_⟩
  rw [Add_eq_addInOrder] at h
  exact addInOrder_staged L category lbs b b1 h

/-- Instance of C19 on the fresh builder over `app="x"`, `env="prod"`: adding
`app="z"`, `__error__="boom"` and `level="warn"` as parsed labels stages
`app_extracted` and `level` and sets `err`. -/
theorem Add_refines_Set_witness :
    exampleBuilder.Add stdLib ParsedLabel
        [{ Name := "app", Value := "z" }, { Name := "__error__", Value := "boom" },
         { Name := "level", Value := "warn" }]
      = exampleBuilder.addInOrder stdLib ParsedLabel
        [{ Name := "app", Value := "z" }, { Name := "__error__", Value := "boom" },
         { Name := "level", Value := "warn" }] ∧
    (∀ b1, exampleBuilder.Add stdLib ParsedLabel
        [{ Name := "app", Value := "z" }, { Name := "__error__", Value := "boom" },
         { Name := "level", Value := "warn" }] = some b1 →
      ∀ x ∈ b1.stagedNames,
        x ∈ exampleBuilder.stagedNames ∨
          (x ≠ stdLib.ErrorLabel ∧ x ≠ stdLib.ErrorDetailsLabel)) ∧
    exampleBuilder.Add stdLib ParsedLabel
        [{ Name := "app", Value := "z" }, { Name := "__error__", Value := "boom" },
         { Name := "level", Value := "warn" }]
      = some { exampleBuilder with
          addParsed := [{ Name := "app_extracted", Value := "z" },
                        { Name := "level", Value := "warn" }]
          parserKeyHints := ["app_extracted", "level"]
          err := "boom" } :=
  have h := Add_refines_Set stdLib exampleBuilder ParsedLabel
    [{ Name := "app", Value := "z" }, { Name := "__error__", Value := "boom" },
     { Name := "level", Value := "warn" }]
  ⟨h.1, h.2, by decide⟩

/-! ## The interned string set -/

/-- C20. For every interned string set `i`, byte content `data` and constructor
`createNew`: on a key of `i`, `Get` returns the stored pair and the set as it was,
whatever the constructor is; on a miss it returns the pair of the constructor; the set
after the call is `i` extended with `data` mapped to the returned pair exactly when the
call was a miss and `i` held fewer than `MaxInternedStrings` (1024) entries, and `i`
itself otherwise.  Hence an existing entry never changes, a set within the cap stays
within the cap, and a full set is left unchanged by a miss. -/
theorem internedStringSet.Get_spec (i : internedStringSet) (data : List (Fin 256))
    (createNew : Unit → String × Bool) :
    (∀ s, i.lookup data = some s → ∀ other : Unit → String × Bool,
      i.Get data other = (s, i)) ∧
    (i.lookup data = none → (i.Get data createNew).1 = createNew ()) ∧
    (i.Get data createNew).2 =
      (if i.lookup data = none ∧ i.entries.length < MaxInternedStrings then
        i.insert data (i.Get data createNew).1
      else i) ∧
    (∀ k s, i.lookup k = some s → (i.Get data createNew).2.lookup k = some s) ∧
    (i.entries.length ≤ MaxInternedStrings →
      (i.Get data createNew).2.entries.length ≤ MaxInternedStrings) ∧
    (MaxInternedStrings ≤ i.entries.length → i.lookup data = none →
      (i.Get data createNew).2 = i) ∧
    MaxInternedStrings = 1024 := by
  cases h : i.lookup data with
  | some s =>
    have hget : ∀ other : Unit → String × Bool, i.Get data other = (s, i) := by
      intro other
      simp [internedStringSet.Get, h]
    refine ⟨?_, ?_, ?_, ?_, ?_, ?_, rfl⟩
    · intro s' hs' other
      cases hs'
      exact hget other
    · intro hn
      cases hn
    · simp [hget createNew]
    · intro k s' hk
      rw [hget createNew]
      exact hk
    · intro hle
      rw [hget createNew]
      exact hle
    · intro _ hn
      cases hn
  | none =>
    have hnot : data ∉ i := AList.lookup_eq_none.mp h
    by_cases hfull : i.entries.length ≥ MaxInternedStrings
    · have hget : i.Get data createNew = (createNew (), i) := by
        simp [internedStringSet.Get, h, hfull]
      refine ⟨?_, ?_, ?_, ?_, ?_, ?_, rfl⟩
      · intro s hs
        cases hs
      · intro _
        rw [hget]
      · rw [hget]
        have : ¬ i.entries.length < MaxInternedStrings := by omega
        simp [this]
      · intro k s hk
        rw [hget]
        exact hk
      · intro hle
        rw [hget]
        exact hle
      · intro _ _
        rw [hget]
    · have hget : i.Get data createNew = (createNew (), i.insert data (createNew ())) := by
        simp [internedStringSet.Get, h, hfull]
      have hlt : i.entries.length < MaxInternedStrings := by omega
      refine ⟨?_, ?_, ?_, ?_, ?_, ?_, rfl⟩
      · intro s hs
        cases hs
      · intro _
        rw [hget]
      · rw [hget]
        simp [hlt]
      · intro k s hk
        rw [hget]
        have hne : k ≠ data := by
          intro e
          rw [e, h] at hk
          cases hk
        rw [AList.lookup_insert_ne hne]
        exact hk
      · intro _
        rw [hget]
        simp only [AList.insert_entries_of_neg hnot, List.length_cons]
        omega
      · intro hge
        exact absurd hge hfull

/-- Instance of C20: a miss on the empty set stores the pair of the constructor. -/
theorem internedStringSet.Get_spec_witness :
    (∀ s, (∅ : internedStringSet).lookup [104, 105] = some s →
      ∀ other : Unit → String × Bool, (∅ : internedStringSet).Get [104, 105] other = (s, ∅)) ∧
    ((∅ : internedStringSet).lookup [104, 105] = none →
      ((∅ : internedStringSet).Get [104, 105] (fun _ => ("hi", true))).1 = ("hi", true)) ∧
    ((∅ : internedStringSet).Get [104, 105] (fun _ => ("hi", true))).2 =
      (if (∅ : internedStringSet).lookup [104, 105] = none ∧
          (∅ : internedStringSet).entries.length < MaxInternedStrings then
        (∅ : internedStringSet).insert [104, 105]
          ((∅ : internedStringSet).Get [104, 105] (fun _ => ("hi", true))).1
      else ∅) :=
  have h := internedStringSet.Get_spec ∅ [104, 105] (fun _ => ("hi", true))
  ⟨h.1, h.2.1, h.2.2.1⟩

/-! ## `Add` and the base labels -/

/-- On a state that satisfies the invariant, `Set` with a category that has a pending
list returns, and it changes the pending lists and the parser hints only. -/
theorem Set_frame (b : LabelsBuilder) (c : LabelCategory) (n v : String) (hb : b.Inv)
    (hc : c ≠ InvalidCategory) :
    ∃ b1, b.Set c n v = some b1 ∧ b1.del = b.del ∧ b1.err = b.err ∧
      b1.errDetails = b.errDetails ∧ b1.base = b.base ∧
      b1.currentResult = b.currentResult ∧ b1.groupedResult = b.groupedResult ∧
      b1.resultCache = b.resultCache ∧ b1.groups = b.groups ∧ b1.without = b.without ∧
      b1.noLabels = b.noLabels := by
  cases c with
  | InvalidCategory => exact absurd rfl hc
  | ParsedLabel => exact ⟨_, Set_parsed b n v hb, rfl, rfl, rfl, rfl, rfl, rfl, rfl, rfl, rfl, rfl⟩
  | StructuredMetadataLabel =>
    refine ⟨_, Set_meta b n v hb, ?_⟩
    split_ifs <;> exact ⟨rfl, rfl, rfl, rfl, rfl, rfl, rfl, rfl, rfl, rfl⟩
  | StreamLabel =>
    refine ⟨_, Set_stream b n v, ?_⟩
    split_ifs <;> exact ⟨rfl, rfl, rfl, rfl, rfl, rfl, rfl, rfl, rfl, rfl⟩

theorem Labels.Has_iff (ls : Labels) (n : String) : Labels.Has ls n = true ↔ n ∈ names ls := by
  simp only [Labels.Has, List.any_eq_true, decide_eq_true_eq, names, List.mem_map]

/-- A base label whose name is neither deleted nor staged is what a point lookup and
finalization report. -/
theorem base_label_visible (L : Lib) (b : LabelsBuilder) (hdel : b.del = [])
    (hst : ∀ x ∈ b.stagedNames, x ∉ names b.base) (hnd : (names b.base).Nodup)
    (l : Label) (hl : l ∈ b.base) :
    (b.GetWithCategory l.Name).1 = (l.Value, StreamLabel, true) ∧
    l ∈ b.UnsortedLabels L none ∧ l ∈ b.labels L none := by
  have hn : l.Name ∉ b.stagedNames := fun h => hst _ h (mem_names_of_mem hl)
  rw [mem_stagedNames] at hn
  simp only [not_or] at hn
  obtain ⟨hS, hM, hP⟩ := hn
  have hU : l ∈ b.UnsortedLabels L none := by
    rw [UnsortedLabels_none, appendErrors_eq]
    have hse : b.streamEntry l = some l := by
      simp [LabelsBuilder.streamEntry, hdel, (labelsContain_false_iff _ _).mpr hS,
        (labelsContain_false_iff _ _).mpr hM, (labelsContain_false_iff _ _).mpr hP]
    have : l ∈ b.base.filterMap b.streamEntry := List.mem_filterMap.mpr ⟨l, hl, hse⟩
    simp [this]
  refine ⟨?_, hU, (L.sortSort_perm _).mem_iff.mpr hU⟩
  rw [GetWithCategory_fst]
  simp [LabelsBuilder.getWithCategory, BaseLabelsBuilder.lookupAdd,
    (lookupLabel_none_iff _ _).mpr hS, (lookupLabel_none_iff _ _).mpr hM,
    (lookupLabel_none_iff _ _).mpr hP, hdel, lookupLabel_of_mem _ _ hnd hl]

/-- The method `Add` on a state where no base name is staged or deleted, for labels
whose suffixed names are not base names: it returns, and still no base name is staged
or deleted. -/
theorem Add_keeps_base_unstaged (L : Lib) (c : LabelCategory) (hc : c ≠ InvalidCategory)
    (lbs : Labels) :
    ∀ b : LabelsBuilder, b.Inv → b.del = [] → (∀ x ∈ b.stagedNames, x ∉ names b.base) →
      (∀ l ∈ lbs, l.Name ∈ names b.base → l.Name ++ L.duplicateSuffix ∉ names b.base) →
      ∃ b1, b.Add L c lbs = some b1 ∧ b1.base = b.base ∧ b1.del = [] ∧
        ∀ x ∈ b1.stagedNames, x ∉ names b1.base := by
  induction lbs with
  | nil =>
    intro b _ hdel hst _
    exact ⟨b, rfl, rfl, hdel, hst⟩
  | cons l lbs ih =>
    intro b hinv hdel hst hsuf
    have hsuf' : ∀ l' ∈ lbs, l'.Name ∈ names b.base →
        l'.Name ++ L.duplicateSuffix ∉ names b.base :=
      fun l' hl' => hsuf l' (List.mem_cons_of_mem _ hl')
    have hname : (if b.BaseHas l.Name = true then l.Name ++ L.duplicateSuffix else l.Name)
        ∉ names b.base := by
      by_cases hh : b.BaseHas l.Name = true
      · rw [if_pos hh]
        exact hsuf l (List.mem_cons_self _ _) ((Labels.Has_iff _ _).mp hh)
      · rw [if_neg hh]
        exact fun h => hh ((Labels.Has_iff _ _).mpr h)
    simp only [LabelsBuilder.Add]
    generalize (if b.BaseHas l.Name = true then l.Name ++ L.duplicateSuffix else l.Name)
      = name at hname
    by_cases h1 : name = L.ErrorLabel
    · rw [if_pos h1]
      exact ih { b with err := l.Value } hinv hdel hst hsuf'
    · by_cases h2 : name = L.ErrorDetailsLabel
      · rw [if_neg h1, if_pos h2]
        exact ih { b with errDetails := l.Value } hinv hdel hst hsuf'
      · rw [if_neg h1, if_neg h2]
        obtain ⟨b0, hset, hd0, -, -, hb0, -⟩ := Set_frame b c name l.Value hinv hc
        rw [hset, Option.some_bind]
        have hst0 : ∀ x ∈ b0.stagedNames, x ∉ names b0.base := by
          intro x hx
          rw [hb0]
          rcases (Set_staged b b0 c name l.Value hset).1 x hx with h | h
          · exact hst x h
          · exact h ▸ hname
        obtain ⟨b1, hadd, hb1, hd1, hst1⟩ := ih b0 (Set_inv b b0 c _ _ hinv hset)
          (hd0.trans hdel) hst0 (by rw [hb0]; exact hsuf')
        exact ⟨b1, hadd, hb1.trans hb0, hd1, hst1⟩

/-- C18, amended.  For every duplicate-free base, category with a pending list and
label sequence `lbs` such that no label of `lbs` whose name collides with a base name
has its suffixed name in the base as well: `Add(category, lbs)` on a builder with no
deletion and no pending addition returns, and afterwards every base label is reported
by `GetWithCategory` with its base value and category `StreamLabel`, and is in
`UnsortedLabels()` and in the finalized `labels()`. -/
theorem Add_keeps_base_labels (L : Lib) (b : LabelsBuilder) (c : LabelCategory)
    (lbs : Labels) (hc : c ≠ InvalidCategory) (hnd : (names b.base).Nodup)
    (hfresh : b.del = [] ∧ b.addStream = [] ∧ b.addStructuredMetadata = [] ∧ b.addParsed = [])
    (hsuf : ∀ l ∈ lbs, l.Name ∈ names b.base → l.Name ++ L.duplicateSuffix ∉ names b.base) :
    ∃ b1, b.Add L c lbs = some b1 ∧
      ∀ l ∈ b.base,
        (b1.GetWithCategory l.Name).1 = (l.Value, StreamLabel, true) ∧
        l ∈ b1.UnsortedLabels L none ∧ l ∈ b1.labels L none := by
  obtain ⟨hdel, hS, hM, hP⟩ := hfresh
  have hinv : b.Inv := by simp [BaseLabelsBuilder.Inv, hS, hM, hP, names]
  have hst : ∀ x ∈ b.stagedNames, x ∉ names b.base := by
    intro x hx
    simp [BaseLabelsBuilder.stagedNames, hS, hM, hP, names] at hx
  obtain ⟨b1, hadd, hb1, hd1, hst1⟩ := Add_keeps_base_unstaged L c hc lbs b hinv hdel hst hsuf
  refine ⟨b1, hadd, fun l hl => ?_⟩
  exact base_label_visible L b1 hd1 hst1 (hb1 ▸ hnd) l (hb1 ▸ hl)

/-- Instance of C18 (amended): adding `app="z"` and `level="warn"` as parsed labels to
the fresh builder over `app="x"`, `env="prod"`. -/
theorem Add_keeps_base_labels_witness :
    (ParsedLabel ≠ InvalidCategory ∧ (names exampleBuilder.base).Nodup ∧
      (exampleBuilder.del = [] ∧ exampleBuilder.addStream = [] ∧
        exampleBuilder.addStructuredMetadata = [] ∧ exampleBuilder.addParsed = []) ∧
      (∀ l ∈ [({ Name := "app", Value := "z" } : Label), { Name := "level", Value := "warn" }],
        l.Name ∈ names exampleBuilder.base →
          l.Name ++ stdLib.duplicateSuffix ∉ names exampleBuilder.base)) ∧
    ∃ b1, exampleBuilder.Add stdLib ParsedLabel
        [{ Name := "app", Value := "z" }, { Name := "level", Value := "warn" }] = some b1 ∧
      ∀ l ∈ exampleBuilder.base,
        (b1.GetWithCategory l.Name).1 = (l.Value, StreamLabel, true) ∧
        l ∈ b1.UnsortedLabels stdLib none ∧ l ∈ b1.labels stdLib none :=
  ⟨⟨by decide, by decide, by decide, by decide⟩,
    Add_keeps_base_labels stdLib exampleBuilder ParsedLabel
      [{ Name := "app", Value := "z" }, { Name := "level", Value := "warn" }]
      (by decide) (by decide) (by decide) (by decide)⟩

/-- C18 as stated fails.  Over the duplicate-free base `a="1"`, `a_extracted="2"`,
`Add(ParsedLabel, [a="9"])` on the fresh builder stages the colliding label under the
suffixed name `a_extracted`, which is itself a base name: afterwards
`GetWithCategory("a_extracted")` is `("9", ParsedLabel, true)` and the finalized labels
are `a="1"`, `a_extracted="9"`, without the base label `a_extracted="2"`. -/
theorem Add_keeps_base_labels_counterexample :
    (names exampleSuffixBase.base).Nodup ∧
    ({ Name := "a_extracted", Value := "2" } : Label) ∈ exampleSuffixBase.base ∧
    ∃ b1, exampleSuffixBase.Add stdLib ParsedLabel [{ Name := "a", Value := "9" }] = some b1 ∧
      (b1.GetWithCategory "a_extracted").1 = ("9", ParsedLabel, true) ∧
      b1.labels stdLib none
        = [{ Name := "a", Value := "1" }, { Name := "a_extracted", Value := "9" }] ∧
      ({ Name := "a_extracted", Value := "2" } : Label) ∉ b1.labels stdLib none :=
  ⟨by decide, by decide,
    { exampleSuffixBase with
      addParsed := [{ Name := "a_extracted", Value := "9" }]
      parserKeyHints := ["a_extracted"] },
    by decide, by decide, by decide, by decide⟩

/-! ## The result cache -/

theorem lookup_some_mem {k : Nat} {r : labelsResult} :
    ∀ {c : List (Nat × labelsResult)}, c.lookup k = some r → (k, r) ∈ c := by
  intro c
  induction c with
  | nil => intro h; simp [List.lookup] at h
  | cons e c ih =>
    intro h
    obtain ⟨k1, r1⟩ := e
    by_cases hk : k = k1
    · subst hk
      simp only [List.lookup, beq_self_eq_true, Option.some.injEq] at h
      subst h
      exact List.mem_cons_self _ _
    · have hb : (k == k1) = false := by simpa using hk
      simp only [List.lookup, hb] at h
      exact List.mem_cons_of_mem _ (ih h)

theorem lookup_none_iff_keys {k : Nat} :
    ∀ {c : List (Nat × labelsResult)}, c.lookup k = none ↔ k ∉ c.map Prod.fst := by
  intro c
  induction c with
  | nil => simp [List.lookup]
  | cons e c ih =>
    obtain ⟨k1, r1⟩ := e
    by_cases hk : k = k1
    · subst hk
      simp [List.lookup]
    · have hb : (k == k1) = false := by simpa using hk
      simp only [List.lookup, hb, ih, List.map_cons, List.mem_cons, hk, false_or]

theorem lookup_cons_ne {k k1 : Nat} (r1 : labelsResult) (c : List (Nat × labelsResult))
    (hk : k ≠ k1) : List.lookup k ((k1, r1) :: c) = List.lookup k c := by
  have hb : (k == k1) = false := by simpa using hk
  simp only [List.lookup, hb]

theorem CacheGrows.refl (c : List (Nat × labelsResult)) : CacheGrows c c := Or.inl rfl

/-- A key that is in the cache keeps its result when the cache grows. -/
theorem CacheGrows.lookup {c c1 : List (Nat × labelsResult)} (h : CacheGrows c c1)
    {k : Nat} {r : labelsResult} (hk : c.lookup k = some r) : c1.lookup k = some r := by
  rcases h with h | ⟨k1, r1, h, hnone⟩
  · rw [h]; exact hk
  · rw [h, lookup_cons_ne]
    · exact hk
    · intro e
      rw [e, hnone] at hk
      cases hk

theorem CacheGrows.keysNodup {c c1 : List (Nat × labelsResult)} (h : CacheGrows c c1)
    (hn : (c.map Prod.fst).Nodup) : (c1.map Prod.fst).Nodup := by
  rcases h with h | ⟨k1, r1, h, hnone⟩
  · rw [h]; exact hn
  · rw [h]
    simp only [List.map_cons, List.nodup_cons]
    exact ⟨lookup_none_iff_keys.mp hnone, hn⟩

theorem CacheOK.cons {L : Lib} {c : List (Nat × labelsResult)} (h : CacheOK L c)
    {k : Nat} {r : labelsResult} (hr : EntryOK L k r) : CacheOK L ((k, r) :: c) := by
  intro k1 r1 hmem
  rcases List.mem_cons.mp hmem with e | e
  · cases e
    exact hr
  · exact h k1 r1 e

theorem perm_filter_three (L : Lib) (b : LabelsBuilder) (buf : Labels) :
    (buf.filter (fun l => decide (b.categoryOf L l = StreamLabel))
      ++ buf.filter (fun l => decide (b.categoryOf L l = StructuredMetadataLabel))
      ++ buf.filter (fun l => decide (b.categoryOf L l = ParsedLabel))).Perm buf := by
  induction buf with
  | nil => simp
  | cons a as ih =>
    have hne : b.categoryOf L a ≠ InvalidCategory := by
      unfold LabelsBuilder.categoryOf
      split_ifs <;> simp
    cases h : b.categoryOf L a with
    | InvalidCategory => exact absurd h hne
    | StreamLabel =>
      simp only [List.filter_cons, h, decide_True, reduceCtorEq, decide_False, if_true,
        Bool.false_eq_true, if_false, List.cons_append]
      exact List.Perm.cons a ih
    | StructuredMetadataLabel =>
      simp only [List.filter_cons, h, decide_True, reduceCtorEq, decide_False, if_true,
        Bool.false_eq_true, if_false]
      refine List.Perm.trans ?_ (List.Perm.cons a ih)
      simp only [List.append_assoc]
      exact List.perm_middle
    | ParsedLabel =>
      simp only [List.filter_cons, h, decide_True, reduceCtorEq, decide_False, if_true,
        Bool.false_eq_true, if_false]
      refine List.Perm.trans ?_ (List.Perm.cons a ih)
      exact List.perm_middle

/-- The entry `LabelsResult` builds on a cache miss is well formed for the hash of the
sorted finalized sequence. -/
theorem EntryOK_new (L : Lib) (b : LabelsBuilder) :
    EntryOK L (L.hasherHash (b.finalized L))
      (NewLabelsResult (L.labelsString (b.finalized L)) (L.hasherHash (b.finalized L))
        (labelsNew L ((b.finalized L).filter fun l => decide (b.categoryOf L l = StreamLabel)))
        (labelsNew L ((b.finalized L).filter
          fun l => decide (b.categoryOf L l = StructuredMetadataLabel)))
        (labelsNew L ((b.finalized L).filter
          fun l => decide (b.categoryOf L l = ParsedLabel)))) := by
  refine ⟨b.finalized L, ?_, L.slicesSortFunc_sorted _, rfl, rfl, rfl⟩
  refine List.Perm.symm (List.Perm.trans ?_ (perm_filter_three L b (b.finalized L)))
  simp only [labelsResult.all, NewLabelsResult, labelsNew]
  exact List.Perm.append (List.Perm.append (L.slicesSortFunc_perm _) (L.slicesSortFunc_perm _))
    (L.slicesSortFunc_perm _)

/-- The entry `toUncategorizedResult` builds on a cache miss is well formed when the
buffer is sorted by name. -/
theorem EntryOK_uncategorized (L : Lib) (buf : Labels) (hs : List.Sorted nameLE buf) :
    EntryOK L (L.hasherHash buf) (NewLabelsResult (L.labelsString buf) (L.hasherHash buf) buf [] []) :=
  ⟨buf, by simp [labelsResult.all, NewLabelsResult], hs, rfl, rfl, rfl⟩

theorem ScratchOnly.same (b : LabelsBuilder) : ScratchOnly b b :=
  ⟨rfl, rfl, rfl, rfl, rfl, rfl, rfl⟩

theorem ScratchOnly.trans {b b1 b2 : LabelsBuilder} (h1 : ScratchOnly b b1)
    (h2 : ScratchOnly b1 b2) : ScratchOnly b b2 :=
  ⟨h2.1.trans h1.1, h2.2.1.trans h1.2.1, h2.2.2.1.trans h1.2.2.1,
    h2.2.2.2.1.trans h1.2.2.2.1, h2.2.2.2.2.1.trans h1.2.2.2.2.1,
    h2.2.2.2.2.2.1.trans h1.2.2.2.2.2.1, h2.2.2.2.2.2.2.trans h1.2.2.2.2.2.2⟩

theorem Set_scratchOnly (b b1 : LabelsBuilder) (c : LabelCategory) (n v : String)
    (hb : b.Inv) (h : b.Set c n v = some b1) : ScratchOnly b b1 := by
  by_cases hc : c = InvalidCategory
  · rw [hc, Set_invalid] at h
    cases h
  · obtain ⟨b2, hset, -, -, -, h1, h2, h3, h4, h5, h6, h7⟩ := Set_frame b c n v hb hc
    rw [hset] at h
    cases h
    exact ⟨h1, h2, h3, h4, h5, h6, h7⟩

theorem Del_scratchOnly (ns : List String) :
    ∀ (b b1 : LabelsBuilder), b.Inv → b.Del ns = some b1 → ScratchOnly b b1 := by
  induction ns with
  | nil =>
    intro b b1 _ h
    simp only [LabelsBuilder.Del, Option.some.injEq] at h
    exact h ▸ ScratchOnly.same b
  | cons n ns ih =>
    intro b b1 hb h
    simp only [LabelsBuilder.Del] at h
    cases h1 : b.delOne n with
    | none => simp [h1] at h
    | some b2 =>
      simp only [h1, Option.some_bind] at h
      have hs : ScratchOnly b b2 := by
        have h2 := h1
        rw [delOne_eq b n hb] at h2
        cases h2
        exact ⟨rfl, rfl, rfl, rfl, rfl, rfl, rfl⟩
      exact hs.trans (ih b2 b1 (delOne_inv b b2 n hb h1) h)

theorem Add_scratchOnly (L : Lib) (c : LabelCategory) (lbs : Labels) :
    ∀ (b b1 : LabelsBuilder), b.Inv → b.Add L c lbs = some b1 → ScratchOnly b b1 := by
  induction lbs with
  | nil =>
    intro b b1 _ h
    simp only [LabelsBuilder.Add, Option.some.injEq] at h
    exact h ▸ ScratchOnly.same b
  | cons l lbs ih =>
    intro b b1 hb h
    simp only [LabelsBuilder.Add] at h
    generalize (if b.BaseHas l.Name = true then l.Name ++ L.duplicateSuffix else l.Name)
      = name at h
    by_cases h1 : name = L.ErrorLabel
    · rw [if_pos h1] at h
      exact ScratchOnly.trans ⟨rfl, rfl, rfl, rfl, rfl, rfl, rfl⟩
        (ih { b with err := l.Value } b1 hb h)
    · by_cases h2 : name = L.ErrorDetailsLabel
      · rw [if_neg h1, if_pos h2] at h
        exact ScratchOnly.trans ⟨rfl, rfl, rfl, rfl, rfl, rfl, rfl⟩
          (ih { b with errDetails := l.Value } b1 hb h)
      · rw [if_neg h1, if_neg h2] at h
        cases h3 : b.Set c name l.Value with
        | none => simp [h3] at h
        | some b2 =>
          simp only [h3, Option.some_bind] at h
          exact ScratchOnly.trans (Set_scratchOnly b b2 c _ _ hb h3)
            (ih b2 b1 (Set_inv b b2 c _ _ hb h3) h)

theorem GetWithCategory_scratchOnly (b : LabelsBuilder) (key : String) :
    ScratchOnly b (b.GetWithCategory key).2 := by
  unfold LabelsBuilder.GetWithCategory
  dsimp only
  split <;> exact ⟨rfl, rfl, rfl, rfl, rfl, rfl, rfl⟩

theorem baseGroupResult_congr (L : Lib) (b b1 : LabelsBuilder) (hbase : b1.base = b.base)
    (hg : b1.groups = b.groups) (hw : b1.without = b.without) :
    b1.baseGroupResult L = b.baseGroupResult L := by
  simp only [LabelsBuilder.baseGroupResult, hbase, hg, hw]

theorem CoherentInv.of_scratchOnly {L : Lib} {b b1 : LabelsBuilder} (h : CoherentInv L b)
    (hs : ScratchOnly b b1) : CoherentInv L b1 := by
  obtain ⟨h1, h2, h3, h4, h5, h6, h7⟩ := hs
  refine ⟨?_, ?_, ?_, ?_, ?_, ?_⟩
  · rw [h4]; exact h.cacheOK
  · rw [h4]; exact h.keysNodup
  · rw [h4, h1, h2]; exact h.current
  · intro r hr
    rw [baseGroupResult_congr L b b1 h1 h5 h6]
    exact h.grouped r (h3 ▸ hr)
  · rw [h5]; exact h.groupsSorted
  · rw [h1]; exact h.baseSorted

/-! ## What the finalizing calls do to the builder -/

/-- The method `LabelsResult` changes the result cache only, which grows by at most one
well-formed entry. -/
theorem LabelsResult_effect (L : Lib) (b : LabelsBuilder) :
    ∃ cache, (b.LabelsResult L).2 = { b with resultCache := cache } ∧
      CacheGrows b.resultCache cache ∧ (CacheOK L b.resultCache → CacheOK L cache) := by
  unfold LabelsBuilder.LabelsResult
  split
  · exact ⟨b.resultCache, rfl, CacheGrows.refl _, id⟩
  · dsimp only
    split
    · exact ⟨b.resultCache, rfl, CacheGrows.refl _, id⟩
    · rename_i hnone
      exact ⟨_, rfl, Or.inr ⟨_, _, rfl, hnone⟩, fun h => h.cons (EntryOK_new L b)⟩

/-- The method `toUncategorizedResult` on a name-sorted buffer changes the result cache
only, which grows by at most one well-formed entry. -/
theorem toUncategorizedResult_effect (L : Lib) (b : LabelsBuilder) (buf : Labels)
    (hs : List.Sorted nameLE buf) :
    ∃ cache, (b.toUncategorizedResult L buf).2 = { b with resultCache := cache } ∧
      CacheGrows b.resultCache cache ∧ (CacheOK L b.resultCache → CacheOK L cache) := by
  unfold LabelsBuilder.toUncategorizedResult
  dsimp only
  split
  · exact ⟨b.resultCache, rfl, CacheGrows.refl _, id⟩
  · rename_i hnone
    exact ⟨_, rfl, Or.inr ⟨_, _, rfl, hnone⟩, fun h => h.cons (EntryOK_uncategorized L buf hs)⟩

theorem lookupAdd_name (b : BaseLabelsBuilder) (g : String) (l : Label) (c : LabelCategory)
    (h : b.lookupAdd g = some (l, c)) : l.Name = g := by
  unfold BaseLabelsBuilder.lookupAdd at h
  cases hS : lookupLabel b.addStream g with
  | some l1 =>
    simp only [hS, Option.some.injEq, Prod.mk.injEq] at h
    exact h.1 ▸ (lookupLabel_some _ _ _ hS).2
  | none =>
    cases hM : lookupLabel b.addStructuredMetadata g with
    | some l1 =>
      simp only [hS, hM, Option.some.injEq, Prod.mk.injEq] at h
      exact h.1 ▸ (lookupLabel_some _ _ _ hM).2
    | none =>
      cases hP : lookupLabel b.addParsed g with
      | some l1 =>
        simp only [hS, hM, hP, Option.some.injEq, Prod.mk.injEq] at h
        exact h.1 ▸ (lookupLabel_some _ _ _ hP).2
      | none => simp [hS, hM, hP] at h

theorem withEntry_name (b : LabelsBuilder) (g : String) (l : Label)
    (h : b.withEntry g = some l) : l.Name = g := by
  unfold LabelsBuilder.withEntry at h
  split_ifs at h
  cases hA : b.lookupAdd g with
  | some p =>
    obtain ⟨l1, c⟩ := p
    simp only [hA, Option.some.injEq] at h
    exact h ▸ lookupAdd_name _ g l1 c hA
  | none =>
    simp only [hA] at h
    exact (lookupLabel_some _ _ _ h).2

/-- The buffer of `withResult`: one entry per group name that resolves, in the order of
the group names. -/
theorem withLoop_eq (b : LabelsBuilder) (gs : List String) :
    (b.withLoop gs).1 = gs.filterMap b.withEntry := by
  induction gs with
  | nil => rfl
  | cons g gs ih =>
    unfold LabelsBuilder.withLoop
    simp only [List.filterMap_cons, LabelsBuilder.withEntry]
    by_cases hd : b.del.contains g = true
    · simp only [hd, if_true]
      exact ih
    · have hd1 : g ∉ b.del := by simpa using hd
      cases hA : b.lookupAdd g with
      | some p =>
        obtain ⟨l1, c⟩ := p
        simp [hd1, ih]
      | none =>
        cases hB : lookupLabel b.base g with
        | some l => simp [hd1, ih]
        | none => simp [hd1, ih]

theorem withLoop_sorted (b : LabelsBuilder) (gs : List String)
    (hs : List.Sorted (fun a b : String => a ≤ b) gs) :
    List.Sorted nameLE (b.withLoop gs).1 := by
  rw [withLoop_eq]
  unfold List.Sorted
  rw [List.pairwise_filterMap]
  refine List.Pairwise.imp ?_ hs
  intro g g1 hle l hl l1 hl1
  have e := withEntry_name b g l (by simpa using hl)
  have e1 := withEntry_name b g1 l1 (by simpa using hl1)
  unfold nameLE
  rw [e, e1]
  exact hle

/-- The method `GroupedLabels` over name-sorted groups changes the result cache, which
grows by at most one well-formed entry, and the memoised base group, which stays or
becomes the base group of this builder. -/
theorem GroupedLabels_effect (L : Lib) (b : LabelsBuilder)
    (hg : List.Sorted (fun a b : String => a ≤ b) b.groups) :
    (b.GroupedLabels L).2.base = b.base ∧
    (b.GroupedLabels L).2.currentResult = b.currentResult ∧
    (b.GroupedLabels L).2.groups = b.groups ∧ (b.GroupedLabels L).2.without = b.without ∧
    (b.GroupedLabels L).2.noLabels = b.noLabels ∧
    CacheGrows b.resultCache (b.GroupedLabels L).2.resultCache ∧
    (CacheOK L b.resultCache → CacheOK L (b.GroupedLabels L).2.resultCache) ∧
    ((b.GroupedLabels L).2.groupedResult = b.groupedResult ∨
      (b.GroupedLabels L).2.groupedResult = some (b.baseGroupResult L)) := by
  have hsame : ∀ b1 : LabelsBuilder, b1 = b →
      b1.base = b.base ∧ b1.currentResult = b.currentResult ∧ b1.groups = b.groups ∧
      b1.without = b.without ∧ b1.noLabels = b.noLabels ∧
      CacheGrows b.resultCache b1.resultCache ∧
      (CacheOK L b.resultCache → CacheOK L b1.resultCache) ∧
      (b1.groupedResult = b.groupedResult ∨
        b1.groupedResult = some (b.baseGroupResult L)) := by
    intro b1 e
    subst e
    exact ⟨rfl, rfl, rfl, rfl, rfl, CacheGrows.refl _, id, Or.inl rfl⟩
  have hcache : ∀ (b0 b1 : LabelsBuilder) (cache : List (Nat × labelsResult)),
      ScratchOnly b b0 → b1 = { b0 with resultCache := cache } →
      CacheGrows b0.resultCache cache → (CacheOK L b0.resultCache → CacheOK L cache) →
      b1.base = b.base ∧ b1.currentResult = b.currentResult ∧ b1.groups = b.groups ∧
      b1.without = b.without ∧ b1.noLabels = b.noLabels ∧
      CacheGrows b.resultCache b1.resultCache ∧
      (CacheOK L b.resultCache → CacheOK L b1.resultCache) ∧
      (b1.groupedResult = b.groupedResult ∨
        b1.groupedResult = some (b.baseGroupResult L)) := by
    intro b0 b1 cache hs e hgrow hok
    subst e
    obtain ⟨h1, h2, h3, h4, h5, h6, h7⟩ := hs
    exact ⟨h1, h2, h5, h6, h7, h4 ▸ hgrow, fun h => hok (h4 ▸ h), Or.inl h3⟩
  unfold LabelsBuilder.GroupedLabels
  split
  · obtain ⟨cache, e, hgrow, hok⟩ := LabelsResult_effect L b
    exact hcache b _ cache (ScratchOnly.same b) e hgrow hok
  · split
    · exact hsame b rfl
    · split
      · split
        · exact hsame b rfl
        · unfold LabelsBuilder.toBaseGroup
          split
          · exact hsame b rfl
          · exact ⟨rfl, rfl, rfl, rfl, rfl, CacheGrows.refl _, id, Or.inr rfl⟩
      · split
        · obtain ⟨cache, e, hgrow, hok⟩ := LabelsResult_effect L b
          exact hcache b _ cache (ScratchOnly.same b) e hgrow hok
        · split
          · unfold LabelsBuilder.withoutResult
            dsimp only
            obtain ⟨cache, e, hgrow, hok⟩ := toUncategorizedResult_effect L
              (if b.addStructuredMetadata.any (fun la => b.groups.contains la.Name) = true then
                { b with referencedStructuredMetadata := true } else b) (L.sortSort _)
              (L.sortSort_sorted _)
            refine hcache _ _ cache ?_ e hgrow hok
            split <;> exact ⟨rfl, rfl, rfl, rfl, rfl, rfl, rfl⟩
          · unfold LabelsBuilder.withResult
            dsimp only
            obtain ⟨cache, e, hgrow, hok⟩ := toUncategorizedResult_effect L
              (if (b.withLoop b.groups).2 = true then
                { b with referencedStructuredMetadata := true } else b) (b.withLoop b.groups).1
              (withLoop_sorted b b.groups hg)
            refine hcache _ _ cache ?_ e hgrow hok
            split <;> exact ⟨rfl, rfl, rfl, rfl, rfl, rfl, rfl⟩

/-! ## Coherent builders satisfy the cache invariant -/

/-- The method `ForLabels` with a name-sorted base and the hasher's hash of it, on a
shared builder whose cache is well formed. -/
theorem ForLabels_coherentInv (L : Lib) (s : BaseLabelsBuilder) (lbs : Labels)
    (hs : List.Sorted nameLE lbs) (hc : CacheOK L s.resultCache)
    (hk : (s.resultCache.map Prod.fst).Nodup)
    (hg : List.Sorted (fun a b : String => a ≤ b) s.groups) :
    CoherentInv L (s.ForLabels L lbs (L.hasherHash lbs)) ∧
    CacheGrows s.resultCache (s.ForLabels L lbs (L.hasherHash lbs)).resultCache := by
  unfold BaseLabelsBuilder.ForLabels
  cases hl : s.resultCache.lookup (L.hasherHash lbs) with
  | some r =>
    exact ⟨⟨hc, hk, hl, (fun r hr => by cases hr), hg, hs⟩, CacheGrows.refl _⟩
  | none =>
    have hgrow : CacheGrows s.resultCache
        ((L.hasherHash lbs, NewLabelsResult (L.labelsString lbs) (L.hasherHash lbs) lbs [] [])
          :: s.resultCache) := Or.inr ⟨_, _, rfl, hl⟩
    exact ⟨⟨hc.cons (EntryOK_uncategorized L lbs hs), hgrow.keysNodup hk,
      lookup_cons_self _ _ _, (fun r hr => by cases hr), hg, hs⟩, hgrow⟩

/-- One step keeps the cache invariant and lets the cache grow only. -/
theorem Step.keepsInv {L : Lib} {b b1 : LabelsBuilder} (h : Step L b b1) (hb : b.Inv)
    (hi : CoherentInv L b) :
    CoherentInv L b1 ∧ CacheGrows b.resultCache b1.resultCache := by
  have hscratch : ∀ b2 : LabelsBuilder, ScratchOnly b b2 →
      CoherentInv L b2 ∧ CacheGrows b.resultCache b2.resultCache :=
    fun b2 hs => ⟨hi.of_scratchOnly hs, by rw [hs.2.2.2.1]; exact CacheGrows.refl _⟩
  cases h with
  | forLabels lbs hs =>
    exact ForLabels_coherentInv L b.toBaseLabelsBuilder lbs hs hi.cacheOK hi.keysNodup
      hi.groupsSorted
  | reset => exact hscratch _ ⟨rfl, rfl, rfl, rfl, rfl, rfl, rfl⟩
  | set _ c n v h => exact hscratch _ (Set_scratchOnly b b1 c n v hb h)
  | del _ ns h => exact hscratch _ (Del_scratchOnly ns b b1 hb h)
  | add _ c lbs h => exact hscratch _ (Add_scratchOnly L c lbs b b1 hb h)
  | setErr e => exact hscratch _ ⟨rfl, rfl, rfl, rfl, rfl, rfl, rfl⟩
  | setErrorDetails e => exact hscratch _ ⟨rfl, rfl, rfl, rfl, rfl, rfl, rfl⟩
  | resetError => exact hscratch _ ⟨rfl, rfl, rfl, rfl, rfl, rfl, rfl⟩
  | resetErrorDetails => exact hscratch _ ⟨rfl, rfl, rfl, rfl, rfl, rfl, rfl⟩
  | getWithCategory key => exact hscratch _ (GetWithCategory_scratchOnly b key)
  | labelsResult =>
    obtain ⟨cache, e, hgrow, hok⟩ := LabelsResult_effect L b
    rw [e]
    exact ⟨⟨hok hi.cacheOK, hgrow.keysNodup hi.keysNodup, hgrow.lookup hi.current,
      hi.grouped, hi.groupsSorted, hi.baseSorted⟩, hgrow⟩
  | groupedLabels =>
    obtain ⟨h1, h2, h3, h4, h5, hgrow, hok, hgr⟩ := GroupedLabels_effect L b hi.groupsSorted
    refine ⟨⟨hok hi.cacheOK, hgrow.keysNodup hi.keysNodup, ?_, ?_, h3 ▸ hi.groupsSorted,
      h1 ▸ hi.baseSorted⟩, hgrow⟩
    · rw [h1, h2]
      exact hgrow.lookup hi.current
    · intro r hr
      rw [baseGroupResult_congr L b _ h1 h3 h4]
      rcases hgr with e | e
      · exact hi.grouped r (e ▸ hr)
      · rw [e] at hr
        cases hr
        rfl

theorem Step.keepsReachable {L : Lib} {b b1 : LabelsBuilder} (h : Step L b b1)
    (hb : Reachable L b) : Reachable L b1 := by
  cases h with
  | forLabels lbs hs => exact Reachable.forLabels b lbs _ hb
  | reset => exact Reachable.reset b hb
  | set _ c n v h => exact Reachable.set b b1 c n v hb h
  | del _ ns h => exact Reachable.del b b1 ns hb h
  | add _ c lbs h => exact Reachable.add b b1 c lbs hb h
  | setErr e => exact Reachable.setErr b e hb
  | setErrorDetails e => exact Reachable.setErrorDetails b e hb
  | resetError => exact Reachable.resetError b hb
  | resetErrorDetails => exact Reachable.resetErrorDetails b hb
  | getWithCategory key => exact Reachable.getWithCategory b key hb
  | labelsResult => exact Reachable.labelsResult b hb
  | groupedLabels => exact Reachable.groupedLabels b hb

/-- A coherent builder is a reachable one. -/
theorem Coherent.reachable {L : Lib} {b : LabelsBuilder} (h : Coherent L b) :
    Reachable L b := by
  induction h with
  | fresh groups without noLabels lbs _ _ => exact Reachable.fresh groups without noLabels lbs _
  | step b b1 _ hstep ih => exact hstep.keepsReachable ih

/-- A coherent builder satisfies the cache invariant. -/
theorem Coherent.coherentInv {L : Lib} {b : LabelsBuilder} (h : Coherent L b) :
    CoherentInv L b := by
  induction h with
  | fresh groups without noLabels lbs hg hs =>
    exact (ForLabels_coherentInv L (NewBaseLabelsBuilderWithGrouping groups without noLabels)
      lbs hs (fun k r hm => by simp [NewBaseLabelsBuilderWithGrouping] at hm)
      (by simp [NewBaseLabelsBuilderWithGrouping]) hg).1
  | step b b1 hb hstep ih => exact (hstep.keepsInv hb.reachable.inv ih).1

/-- A builder reached from a coherent one is coherent, and the cache entries of the
earlier builder are still there, unchanged. -/
theorem Later.coherent {L : Lib} {b b1 : LabelsBuilder} (h : Later L b b1)
    (hb : Coherent L b) :
    Coherent L b1 ∧
    ∀ k r, b.resultCache.lookup k = some r → b1.resultCache.lookup k = some r := by
  induction h with
  | refl => exact ⟨hb, fun _ _ h => h⟩
  | tail _ hstep ih =>
    obtain ⟨hc, hl⟩ := ih
    exact ⟨Coherent.step _ _ hc hstep,
      fun k r h => (hstep.keepsInv hc.reachable.inv hc.coherentInv).2.lookup (hl k r h)⟩

/-! ## One cache entry for one finalized sequence -/

theorem sorted_names_nodup_lt {l : Labels} (hs : List.Sorted nameLE l)
    (hn : (names l).Nodup) : l.Pairwise (fun a b => a.Name < b.Name) := by
  have h2 : l.Pairwise (fun a b => a.Name ≠ b.Name) := by
    unfold names List.Nodup at hn
    exact List.pairwise_map.mp hn
  exact (List.Pairwise.and hs h2).imp (fun h => lt_of_le_of_ne h.1 h.2)

/-- Two name-sorted arrangements of the same labels are equal when no name occurs
twice. -/
theorem sorted_perm_unique {l1 l2 : Labels} (hp : l1.Perm l2) (h1 : List.Sorted nameLE l1)
    (h2 : List.Sorted nameLE l2) (hn : (names l2).Nodup) : l1 = l2 := by
  have hn1 : (names l1).Nodup := (hp.map Label.Name).nodup_iff.mpr hn
  haveI : IsAntisymm Label (fun a b => a.Name < b.Name) :=
    ⟨fun a b h3 h4 => absurd h4 (lt_asymm h3)⟩
  exact List.eq_of_perm_of_sorted hp (sorted_names_nodup_lt h1 hn1)
    (sorted_names_nodup_lt h2 hn)

/-- The sorted finalized sequence of an unmodified builder without error values is its
base, when the base is sorted by name and has no name twice. -/
theorem finalized_unmodified (L : Lib) (b : LabelsBuilder) (hd : b.hasDel = false)
    (ha : b.hasAdd = false) (he : b.err = "") (hed : b.errDetails = "")
    (hs : List.Sorted nameLE b.base) (hn : (names b.base).Nodup) :
    b.finalized L = b.base := by
  have e : b.UnsortedLabels L none = b.base := by
    unfold LabelsBuilder.UnsortedLabels
    simp [hd, ha, categoriesContain_all StreamLabel (by decide),
      categoriesContain_all ParsedLabel (by decide), LabelsBuilder.appendErrors, he, hed]
  unfold LabelsBuilder.finalized
  rw [e]
  exact sorted_perm_unique (L.slicesSortFunc_perm _) (L.slicesSortFunc_sorted _) hs hn

/-- After `LabelsResult()` the cache holds the returned result under the hash of the
sorted finalized sequence. -/
theorem LabelsResult_cached (L : Lib) (b : LabelsBuilder) (hc : CoherentInv L b)
    (he : b.err = "") (hed : b.errDetails = "") (hn : (names b.base).Nodup) :
    (b.LabelsResult L).2.resultCache.lookup (L.hasherHash (b.finalized L))
      = some (b.LabelsResult L).1 := by
  by_cases hmod : b.hasDel = true ∨ b.hasAdd = true ∨ b.HasErr = true
  · rw [LabelsResult_modified L b hmod]
    cases hl : b.resultCache.lookup (L.hasherHash (b.finalized L)) with
    | some cached => exact hl
    | none => exact lookup_cons_self _ _ _
  · simp only [not_or, Bool.not_eq_true] at hmod
    have e : b.LabelsResult L = (b.currentResult, b) := by
      unfold LabelsBuilder.LabelsResult
      rw [if_pos (by simp [hmod.1, hmod.2.1, hmod.2.2])]
    rw [e, finalized_unmodified L b hmod.1 hmod.2.1 he hed hc.baseSorted hn]
    exact hc.current

theorem sorted_of_nameListLE {l : Labels} (h : List.Sorted nameListLE l) :
    List.Sorted nameLE l :=
  List.Pairwise.imp (fun {_ _} hab => String.le_iff_toList_le.mpr hab) h

/-- C15. Take a builder of a query whose lines are all started by `ForLabels` with a
name-sorted base and the hasher's hash of it, call `LabelsResult()` on it, and take any
builder reached afterwards on the same shared base builder (by `Reset`, `ForLabels`,
`Set`, `Del`, ...).  If neither has an error or error details set, the bases have no
name twice, and the two sorted finalized sequences are equal, then `LabelsResult()` on
the second returns the very result the first call returned, and the result cache holds
exactly one entry under the hash of that sequence, which is that result. -/
theorem LabelsResult_cache_dedup (L : Lib) (b1 b2 : LabelsBuilder) (hc : Coherent L b1)
    (hl : Later L (b1.LabelsResult L).2 b2)
    (he1 : b1.err = "" ∧ b1.errDetails = "") (he2 : b2.err = "" ∧ b2.errDetails = "")
    (hn1 : (names b1.base).Nodup) (hn2 : (names b2.base).Nodup)
    (hseq : b1.finalized L = b2.finalized L) :
    (b2.LabelsResult L).1 = (b1.LabelsResult L).1 ∧
    ((b2.LabelsResult L).2.resultCache.map Prod.fst).count (L.hasherHash (b2.finalized L)) = 1 ∧
    (b2.LabelsResult L).2.resultCache.lookup (L.hasherHash (b2.finalized L))
      = some (b1.LabelsResult L).1 := by
  have c1 : Coherent L (b1.LabelsResult L).2 := Coherent.step _ _ hc (Step.labelsResult b1)
  obtain ⟨c2, hlk⟩ := hl.coherent c1
  have c3 : Coherent L (b2.LabelsResult L).2 := Coherent.step _ _ c2 (Step.labelsResult b2)
  have a1 := LabelsResult_cached L b1 hc.coherentInv he1.1 he1.2 hn1
  have a2 := LabelsResult_cached L b2 c2.coherentInv he2.1 he2.2 hn2
  obtain ⟨cache, e, hgrow, -⟩ := LabelsResult_effect L b2
  have a3 : (b2.LabelsResult L).2.resultCache.lookup (L.hasherHash (b2.finalized L))
      = some (b1.LabelsResult L).1 := by
    rw [e]
    exact hgrow.lookup (hseq ▸ hlk _ _ a1)
  have hmem : L.hasherHash (b2.finalized L) ∈ (b2.LabelsResult L).2.resultCache.map Prod.fst :=
    List.mem_map.mpr ⟨_, lookup_some_mem a3, rfl⟩
  refine ⟨?_, List.count_eq_one_of_mem c3.coherentInv.keysNodup hmem, a3⟩
  rw [a3] at a2
  exact (Option.some.inj a2).symm

theorem exampleBuilder_coherent : Coherent stdLib exampleBuilder :=
  Coherent.fresh [] false false _ List.sorted_nil (sorted_of_nameListLE (by decide))

theorem exampleNextLineDel_later :
    Later stdLib (exampleBuilder.LabelsResult stdLib).2 exampleNextLineDel :=
  Relation.ReflTransGen.tail
    (Relation.ReflTransGen.tail
      (Relation.ReflTransGen.tail Relation.ReflTransGen.refl (Step.reset _))
      (Step.forLabels _
        [{ Name := "app", Value := "x" }, { Name := "env", Value := "prod" },
         { Name := "zone", Value := "a" }] (sorted_of_nameListLE (by decide))))
    (Step.del exampleNextLine exampleNextLineDel ["zone"] (by decide))

/-- Instance of C15: the unmodified builder over `app="x"`, `env="prod"`, and on the
next line the builder over `app="x"`, `env="prod"`, `zone="a"` after `Del("zone")`. -/
theorem LabelsResult_cache_dedup_witness :
    (Coherent stdLib exampleBuilder ∧
      Later stdLib (exampleBuilder.LabelsResult stdLib).2 exampleNextLineDel ∧
      (exampleBuilder.err = "" ∧ exampleBuilder.errDetails = "") ∧
      (exampleNextLineDel.err = "" ∧ exampleNextLineDel.errDetails = "") ∧
      (names exampleBuilder.base).Nodup ∧ (names exampleNextLineDel.base).Nodup ∧
      exampleBuilder.finalized stdLib = exampleNextLineDel.finalized stdLib) ∧
    (exampleNextLineDel.LabelsResult stdLib).1 = (exampleBuilder.LabelsResult stdLib).1 ∧
    ((exampleNextLineDel.LabelsResult stdLib).2.resultCache.map Prod.fst).count
      (stdLib.hasherHash (exampleNextLineDel.finalized stdLib)) = 1 ∧
    (exampleNextLineDel.LabelsResult stdLib).2.resultCache.lookup
      (stdLib.hasherHash (exampleNextLineDel.finalized stdLib))
      = some (exampleBuilder.LabelsResult stdLib).1 ∧
    exampleNextLineDel.hasDel = true ∧ exampleBuilder.hasDel = false ∧
    exampleBuilder.hasAdd = false :=
  have h := LabelsResult_cache_dedup stdLib exampleBuilder exampleNextLineDel
    exampleBuilder_coherent exampleNextLineDel_later ⟨by decide, by decide⟩
    ⟨by decide, by decide⟩ (by decide) (by decide) (by decide)
  ⟨⟨exampleBuilder_coherent, exampleNextLineDel_later, ⟨by decide, by decide⟩,
    ⟨by decide, by decide⟩, by decide, by decide, by decide⟩, h.1, h.2.1, h.2.2,
    by decide, by decide, by decide⟩

/-! ## The invariant of the results -/

theorem labelsResult.Labels_perm_all (L : Lib) (r : labelsResult) :
    (r.Labels L).Perm r.all := by
  unfold labelsResult.Labels flattenLabels labelsResult.all
  simpa [List.append_assoc] using L.sortSort_perm [r.stream, r.structuredMetadata, r.parsed].flatten

theorem resultInvariantFor_of_seq (L : Lib) (hash : Labels → Nat) (r : labelsResult)
    (seq : Labels) (hp : seq.Perm r.all) (hs : List.Sorted nameLE seq) (hh : r.h = hash seq)
    (hstr : r.s = L.labelsString seq) : resultInvariantFor L hash r := by
  have hpl := labelsResult.Labels_perm_all L r
  refine ⟨⟨?_, labelsResult.Labels_sorted L r⟩, seq, hp.trans hpl.symm, hs, hh, hstr, ?_⟩
  · rw [labelsResult.Stream_eq, labelsResult.StructuredMetadata_eq, labelsResult.Parsed_eq]
    exact hpl
  · intro hn
    exact sorted_perm_unique (hp.trans hpl.symm) hs (labelsResult.Labels_sorted L r) hn

theorem EntryOK.invariant {L : Lib} {k : Nat} {r : labelsResult} (h : EntryOK L k r) :
    resultInvariantFor L L.hasherHash r := by
  obtain ⟨seq, hp, hs, hk, hh, hstr⟩ := h
  exact resultInvariantFor_of_seq L L.hasherHash r seq hp hs (hh.trans hk) hstr

theorem LabelsResult_entryOK (L : Lib) (b : LabelsBuilder) (hi : CoherentInv L b) :
    ∃ k, EntryOK L k (b.LabelsResult L).1 := by
  by_cases hmod : b.hasDel = true ∨ b.hasAdd = true ∨ b.HasErr = true
  · rw [LabelsResult_modified L b hmod]
    cases hl : b.resultCache.lookup (L.hasherHash (b.finalized L)) with
    | some cached => exact ⟨_, hi.cacheOK _ _ (lookup_some_mem hl)⟩
    | none => exact ⟨_, EntryOK_new L b⟩
  · simp only [not_or, Bool.not_eq_true] at hmod
    have e : b.LabelsResult L = (b.currentResult, b) := by
      unfold LabelsBuilder.LabelsResult
      rw [if_pos (by simp [hmod.1, hmod.2.1, hmod.2.2])]
    rw [e]
    exact ⟨_, hi.cacheOK _ _ (lookup_some_mem hi.current)⟩

theorem toUncategorizedResult_entryOK (L : Lib) (b : LabelsBuilder) (buf : Labels)
    (hs : List.Sorted nameLE buf) (hc : CacheOK L b.resultCache) :
    EntryOK L (L.hasherHash buf) (b.toUncategorizedResult L buf).1 := by
  unfold LabelsBuilder.toUncategorizedResult
  dsimp only
  cases hl : b.resultCache.lookup (L.hasherHash buf) with
  | some cached => exact hc _ _ (lookup_some_mem hl)
  | none => exact EntryOK_uncategorized L buf hs

theorem toBaseGroup_fst (L : Lib) (b : LabelsBuilder)
    (hgr : ∀ r, b.groupedResult = some r → r = b.baseGroupResult L) :
    (b.toBaseGroup L).1 = b.baseGroupResult L := by
  unfold LabelsBuilder.toBaseGroup
  cases h : b.groupedResult with
  | some r => exact hgr r h
  | none => rfl

theorem stdLib_builderKeep_sorted (ls : Labels) (gs : List String)
    (h : List.Sorted nameLE ls) : List.Sorted nameLE (stdLib.builderKeep ls gs) :=
  List.Pairwise.filter _ h

theorem stdLib_builderDel_sorted (ls : Labels) (gs : List String)
    (h : List.Sorted nameLE ls) : List.Sorted nameLE (stdLib.builderDel ls gs) :=
  List.Pairwise.filter _ h

/-- C16, amended.  For a builder of a query whose lines are all started by `ForLabels`
with a name-sorted base and the hasher's hash of it, over a name-sorted list of groups
(the library builder returning name-sorted labels): the result of `LabelsResult()` and
the result of `GroupedLabels()` have as `Labels()` the name-sorted concatenation of
`Stream()`, `StructuredMetadata()` and `Parsed()`, and their `Hash()` and `String()` are
the hash and the string form of one name-sorted arrangement of these labels, which is
`Labels()` itself when no name occurs twice in it.  The hash is the hasher's, except
for `GroupedLabels()` without an error when `noLabels` is set or when the builder is
unmodified and has groups: there it is `Labels.Hash`. -/
theorem results_invariant (L : Lib) (b : LabelsBuilder) (hc : Coherent L b)
    (hkeep : ∀ ls gs, List.Sorted nameLE ls → List.Sorted nameLE (L.builderKeep ls gs))
    (hdel : ∀ ls gs, List.Sorted nameLE ls → List.Sorted nameLE (L.builderDel ls gs)) :
    resultInvariantFor L L.hasherHash (b.LabelsResult L).1 ∧
    (resultInvariantFor L L.hasherHash (b.GroupedLabels L).1 ∨
      (b.err = "" ∧
        (b.noLabels = true ∨ (b.hasDel = false ∧ b.hasAdd = false ∧ b.groups ≠ [])) ∧
        resultInvariantFor L L.labelsHash (b.GroupedLabels L).1)) := by
  have hi := hc.coherentInv
  have hLR : resultInvariantFor L L.hasherHash (b.LabelsResult L).1 := by
    obtain ⟨k, hk⟩ := LabelsResult_entryOK L b hi
    exact hk.invariant
  refine ⟨hLR, ?_⟩
  by_cases herr : b.HasErr = true
  · left
    have e : b.GroupedLabels L = b.LabelsResult L := by
      unfold LabelsBuilder.GroupedLabels
      rw [if_pos herr]
    rw [e]
    exact hLR
  · have herr1 : b.err = "" := by simpa [LabelsBuilder.HasErr] using herr
    by_cases hno : b.noLabels = true
    · right
      have e : b.GroupedLabels L = (EmptyLabelsResult L, b) := by
        unfold LabelsBuilder.GroupedLabels
        rw [if_neg herr, if_pos hno]
      rw [e]
      exact ⟨herr1, Or.inl hno, resultInvariantFor_of_seq L L.labelsHash _ []
        (by simp [labelsResult.all, EmptyLabelsResult, NewLabelsResult]) List.sorted_nil rfl rfl⟩
    · by_cases hun : (!b.hasDel && !b.hasAdd) = true
      · by_cases hg : b.groups.length = 0
        · left
          have e : b.GroupedLabels L = (b.currentResult, b) := by
            unfold LabelsBuilder.GroupedLabels
            rw [if_neg herr, if_neg hno, if_pos hun, if_pos hg]
          rw [e]
          exact (hi.cacheOK _ _ (lookup_some_mem hi.current)).invariant
        · right
          have e : b.GroupedLabels L = b.toBaseGroup L := by
            unfold LabelsBuilder.GroupedLabels
            rw [if_neg herr, if_neg hno, if_pos hun, if_neg hg]
          rw [e, toBaseGroup_fst L b hi.grouped]
          simp only [Bool.and_eq_true, Bool.not_eq_true'] at hun
          refine ⟨herr1, Or.inr ⟨hun.1, hun.2, fun h0 => hg (by simp [h0])⟩, ?_⟩
          refine resultInvariantFor_of_seq L L.labelsHash _
            (if b.without = true then L.builderDel b.base b.groups
              else L.builderKeep b.base b.groups) ?_ ?_ rfl rfl
          · simp [labelsResult.all, LabelsBuilder.baseGroupResult, NewLabelsResult]
          · split
            · exact hdel _ _ hi.baseSorted
            · exact hkeep _ _ hi.baseSorted
      · left
        by_cases hg : b.groups.length = 0
        · have e : b.GroupedLabels L = b.LabelsResult L := by
            unfold LabelsBuilder.GroupedLabels
            rw [if_neg herr, if_neg hno, if_neg hun, if_pos hg]
          rw [e]
          exact hLR
        · by_cases hw : b.without = true
          · have e : b.GroupedLabels L = b.withoutResult L := by
              unfold LabelsBuilder.GroupedLabels
              rw [if_neg herr, if_neg hno, if_neg hun, if_neg hg, if_pos hw]
            rw [e]
            unfold LabelsBuilder.withoutResult
            dsimp only
            refine (toUncategorizedResult_entryOK L _ _ (L.sortSort_sorted _) ?_).invariant
            split <;> exact hi.cacheOK
          · have e : b.GroupedLabels L = b.withResult L := by
              unfold LabelsBuilder.GroupedLabels
              rw [if_neg herr, if_neg hno, if_neg hun, if_neg hg, if_neg hw]
            rw [e]
            unfold LabelsBuilder.withResult
            dsimp only
            refine (toUncategorizedResult_entryOK L _ _
              (withLoop_sorted b b.groups hi.groupsSorted) ?_).invariant
            split <;> exact hi.cacheOK

theorem exampleNextLineDel_coherent : Coherent stdLib exampleNextLineDel :=
  (exampleNextLineDel_later.coherent
    (Coherent.step _ _ exampleBuilder_coherent (Step.labelsResult _))).1

/-- Instance of C16 (amended): the builder over `app="x"`, `env="prod"`, `zone="a"`
after `Del("zone")`, on the second line of a query. -/
theorem results_invariant_witness :
    (Coherent stdLib exampleNextLineDel ∧
      (∀ ls gs, List.Sorted nameLE ls → List.Sorted nameLE (stdLib.builderKeep ls gs)) ∧
      (∀ ls gs, List.Sorted nameLE ls → List.Sorted nameLE (stdLib.builderDel ls gs))) ∧
    resultInvariantFor stdLib stdLib.hasherHash (exampleNextLineDel.LabelsResult stdLib).1 ∧
    (resultInvariantFor stdLib stdLib.hasherHash (exampleNextLineDel.GroupedLabels stdLib).1 ∨
      (exampleNextLineDel.err = "" ∧
        (exampleNextLineDel.noLabels = true ∨
          (exampleNextLineDel.hasDel = false ∧ exampleNextLineDel.hasAdd = false ∧
            exampleNextLineDel.groups ≠ [])) ∧
        resultInvariantFor stdLib stdLib.labelsHash
          (exampleNextLineDel.GroupedLabels stdLib).1)) ∧
    (exampleNextLineDel.LabelsResult stdLib).1.Labels stdLib
      = [{ Name := "app", Value := "x" }, { Name := "env", Value := "prod" }] ∧
    (exampleNextLineDel.LabelsResult stdLib).1.Hash
      = stdLib.hasherHash [{ Name := "app", Value := "x" }, { Name := "env", Value := "prod" }] :=
  have h := results_invariant stdLib exampleNextLineDel exampleNextLineDel_coherent
    stdLib_builderKeep_sorted stdLib_builderDel_sorted
  ⟨⟨exampleNextLineDel_coherent, stdLib_builderKeep_sorted, stdLib_builderDel_sorted⟩,
    h.1, h.2, by decide, by decide⟩

/-- C16 as stated fails for a list of groups that is not sorted.  On the builder over
`a="1"`, `b="2"` (sorted, no name twice, created with the hash of its base) with the
groups `b`, `a` and `without=false`, after `Del("c")`, `GroupedLabels()` returns a
result whose `Labels()` is `a="1"`, `b="2"` while its `Hash()` and `String()` are
those of the sequence `b="2"`, `a="1"`, in the order of the groups. -/
theorem results_invariant_counterexample :
    List.Sorted nameLE exampleUnsortedGroups.base ∧ (names exampleUnsortedGroups.base).Nodup ∧
    ((NewBaseLabelsBuilderWithGrouping ["b", "a"] false false).ForLabels stdLib
        [{ Name := "a", Value := "1" }, { Name := "b", Value := "2" }]
        (stdLib.hasherHash [{ Name := "a", Value := "1" }, { Name := "b", Value := "2" }])).Del
      ["c"] = some exampleUnsortedGroups ∧
    (exampleUnsortedGroups.GroupedLabels stdLib).1.Labels stdLib
      = [{ Name := "a", Value := "1" }, { Name := "b", Value := "2" }] ∧
    (exampleUnsortedGroups.GroupedLabels stdLib).1.Hash
      = stdLib.hasherHash [{ Name := "b", Value := "2" }, { Name := "a", Value := "1" }] ∧
    (exampleUnsortedGroups.GroupedLabels stdLib).1.Hash
      ≠ stdLib.hasherHash ((exampleUnsortedGroups.GroupedLabels stdLib).1.Labels stdLib) ∧
    (exampleUnsortedGroups.GroupedLabels stdLib).1.String
      = stdLib.labelsString [{ Name := "b", Value := "2" }, { Name := "a", Value := "1" }] ∧
    (exampleUnsortedGroups.GroupedLabels stdLib).1.String
      ≠ stdLib.labelsString ((exampleUnsortedGroups.GroupedLabels stdLib).1.Labels stdLib) ∧
    ¬ resultInvariant stdLib (exampleUnsortedGroups.GroupedLabels stdLib).1 :=
  have hh : (exampleUnsortedGroups.GroupedLabels stdLib).1.Hash
      ≠ stdLib.hasherHash ((exampleUnsortedGroups.GroupedLabels stdLib).1.Labels stdLib) := by
    decide
  ⟨sorted_of_nameListLE (by decide), by decide, by decide, by decide, by decide, hh,
    by decide, by decide, fun h => hh h.2.1⟩

/-! ## Grouping as a projection of the finalized labels -/

/-- Two label sequences with the same entries under every name are permutations of
each other. -/
theorem perm_of_filter_name_eq {l1 l2 : Labels}
    (h : ∀ n, l1.filter (fun l => decide (l.Name = n))
      = l2.filter (fun l => decide (l.Name = n))) : l1.Perm l2 := by
  rw [List.perm_iff_count]
  intro a
  have e1 : List.count a (l1.filter (fun l => decide (l.Name = a.Name))) = List.count a l1 :=
    List.count_filter (by simp)
  have e2 : List.count a (l2.filter (fun l => decide (l.Name = a.Name))) = List.count a l2 :=
    List.count_filter (by simp)
  rw [← e1, ← e2, h]

theorem names_nodup_of_filter_le_one (l : Labels)
    (h : ∀ n, (l.filter (fun x => decide (x.Name = n))).length ≤ 1) : (names l).Nodup := by
  induction l with
  | nil => simp [names]
  | cons a l ih =>
    simp only [names, List.map_cons, List.nodup_cons]
    constructor
    · intro hmem
      obtain ⟨x, hx, hxn⟩ := List.mem_map.mp hmem
      have h1 := h a.Name
      simp only [List.filter_cons, decide_True, if_true, List.length_cons] at h1
      have hpos : 0 < (l.filter (fun x => decide (x.Name = a.Name))).length :=
        List.length_pos_of_mem (List.mem_filter.mpr ⟨hx, by simpa using hxn⟩)
      omega
    · apply ih
      intro n
      refine le_trans ?_ (h n)
      simp only [List.filter_cons]
      split <;> simp

/-- The entries named `n` of `UnsortedLabels()` when no error value is set and the base
has no name twice: what the base label contributes, then the structured metadata entry
unless the name is parsed, then the parsed entry. -/
theorem UnsortedLabels_filter_name_noErr (L : Lib) (b : LabelsBuilder) (hb : b.Inv)
    (hbase : (names b.base).Nodup) (he : b.err = "") (hed : b.errDetails = "") (n : String) :
    (b.UnsortedLabels L none).filter (fun l => decide (l.Name = n)) =
      (lookupLabel b.base n).toList.filterMap b.streamEntry
      ++ (if n ∈ names b.addParsed then [] else (lookupLabel b.addStructuredMetadata n).toList)
      ++ (lookupLabel b.addParsed n).toList := by
  obtain ⟨-, hM, hP, -, -, -⟩ := (inv_iff _).mp hb
  have hnil : b.appendErrors L [] = [] := by simp [LabelsBuilder.appendErrors, he, hed]
  rw [UnsortedLabels_none, appendErrors_eq, hnil]
  simp only [List.filter_append, List.append_nil, List.filter_nil,
    filterMap_streamEntry_filter, filter_name_eq_lookup n _ hP, filter_name_eq_lookup n _ hbase]
  congr 2
  rw [List.filter_filter]
  have : (b.addStructuredMetadata.filter
      fun a => decide (a.Name = n) && !labelsContain b.addParsed a.Name)
      = (b.addStructuredMetadata.filter (fun l => decide (l.Name = n))).filter
          (fun a => !labelsContain b.addParsed a.Name) := by
    rw [List.filter_filter]
    congr 1
    funext a
    exact Bool.and_comm _ _
  rw [this, filter_name_eq_lookup n _ hM]
  by_cases hn : n ∈ names b.addParsed
  · simp only [hn, if_true]
    apply List.filter_eq_nil_iff.mpr
    intro l hl
    cases hl2 : lookupLabel b.addStructuredMetadata n with
    | none => simp [hl2] at hl
    | some r =>
      simp only [hl2, Option.toList_some, List.mem_singleton] at hl
      subst hl
      have := (lookupLabel_some _ _ _ hl2).2
      simp [this, (labelsContain_iff _ _).mpr hn]
  · simp only [hn, if_false]
    apply List.filter_eq_self.mpr
    intro l hl
    cases hl2 : lookupLabel b.addStructuredMetadata n with
    | none => simp [hl2] at hl
    | some r =>
      simp only [hl2, Option.toList_some, List.mem_singleton] at hl
      subst hl
      have := (lookupLabel_some _ _ _ hl2).2
      simp [this, (labelsContain_false_iff _ _).mpr hn]

theorem streamEntry_shadowed (b : LabelsBuilder) (l0 : Label)
    (h : l0.Name ∈ b.del ∨ l0.Name ∈ names b.addStructuredMetadata ∨
      l0.Name ∈ names b.addParsed) : b.streamEntry l0 = none := by
  unfold LabelsBuilder.streamEntry
  by_cases hd : l0.Name ∈ b.del
  · simp [hd]
  · by_cases hM : l0.Name ∈ names b.addStructuredMetadata
    · simp [hd, (labelsContain_iff _ _).mpr hM]
    · have hP : l0.Name ∈ names b.addParsed := by tauto
      simp [hd, (labelsContain_false_iff _ _).mpr hM, (labelsContain_iff _ _).mpr hP]

theorem streamEntry_visible (b : LabelsBuilder) (l0 : Label) (hd : l0.Name ∉ b.del)
    (hM : l0.Name ∉ names b.addStructuredMetadata) (hP : l0.Name ∉ names b.addParsed) :
    b.streamEntry l0 =
      if l0.Name ∈ names b.addStream then
        some { Name := l0.Name, Value := Labels.Get b.addStream l0.Name }
      else some l0 := by
  unfold LabelsBuilder.streamEntry
  by_cases hS : l0.Name ∈ names b.addStream
  · simp [hd, (labelsContain_false_iff _ _).mpr hM, (labelsContain_false_iff _ _).mpr hP,
      (labelsContain_iff _ _).mpr hS, hS]
  · simp [hd, (labelsContain_false_iff _ _).mpr hM, (labelsContain_false_iff _ _).mpr hP,
      (labelsContain_false_iff _ _).mpr hS, hS]

/-- What `withResult` appends for a group name is what `UnsortedLabels()` holds under
that name, when a deleted group name is not staged again as structured metadata or
parsed, and a group name staged as a stream label and not deleted is a base name. -/
theorem withEntry_toList (L : Lib) (b : LabelsBuilder) (hb : b.Inv)
    (hbase : (names b.base).Nodup) (he : b.err = "") (hed : b.errDetails = "") (g : String)
    (h1 : g ∈ b.del → g ∉ names b.addStructuredMetadata ∧ g ∉ names b.addParsed)
    (h2 : g ∈ names b.addStream → g ∉ b.del → g ∈ names b.base) :
    (b.UnsortedLabels L none).filter (fun l => decide (l.Name = g))
      = (b.withEntry g).toList := by
  obtain ⟨hS, hM, hP, hSM, hSP, hMP⟩ := (inv_iff _).mp hb
  rw [UnsortedLabels_filter_name_noErr L b hb hbase he hed g]
  by_cases hd : g ∈ b.del
  · obtain ⟨hgM, hgP⟩ := h1 hd
    have e : b.withEntry g = none := by simp [LabelsBuilder.withEntry, hd]
    rw [e, (lookupLabel_none_iff _ _).mpr hgM, (lookupLabel_none_iff _ _).mpr hgP]
    simp only [hgP, if_false, Option.toList_none, List.append_nil]
    cases hl : lookupLabel b.base g with
    | none => rfl
    | some l0 =>
      have hn := (lookupLabel_some _ _ _ hl).2
      simp [streamEntry_shadowed b l0 (Or.inl (hn ▸ hd))]
  · cases hlS : lookupLabel b.addStream g with
    | some l =>
      have hgS : g ∈ names b.addStream := (lookupLabel_isSome_iff _ _).mp ⟨l, hlS⟩
      have hgM := hSM g hgS
      have hgP := hSP g hgS
      have e : b.withEntry g = some l := by
        simp [LabelsBuilder.withEntry, hd, BaseLabelsBuilder.lookupAdd, hlS]
      obtain ⟨l0, hl0⟩ := (lookupLabel_isSome_iff _ _).mpr (h2 hgS hd)
      have hn := (lookupLabel_some _ _ _ hl0).2
      have hln := (lookupLabel_some _ _ _ hlS).2
      have hget := Labels.Get_of_lookup _ _ _ hlS
      have hse : b.streamEntry l0 = some l := by
        rw [streamEntry_visible b l0 (hn ▸ hd) (hn ▸ hgM) (hn ▸ hgP), if_pos (hn ▸ hgS), hn,
          hget]
        cases l
        simp only at hln
        simp [hln]
      rw [e, hl0, (lookupLabel_none_iff _ _).mpr hgM, (lookupLabel_none_iff _ _).mpr hgP]
      simp [hse, hgP]
    | none =>
      have hgS : g ∉ names b.addStream := (lookupLabel_none_iff _ _).mp hlS
      cases hlM : lookupLabel b.addStructuredMetadata g with
      | some l =>
        have hgM : g ∈ names b.addStructuredMetadata := (lookupLabel_isSome_iff _ _).mp ⟨l, hlM⟩
        have hgP := hMP g hgM
        have e : b.withEntry g = some l := by
          simp [LabelsBuilder.withEntry, hd, BaseLabelsBuilder.lookupAdd, hlS, hlM]
        rw [e, (lookupLabel_none_iff _ _).mpr hgP]
        simp only [hgP, if_false, Option.toList_none, List.append_nil, Option.toList_some]
        cases hl : lookupLabel b.base g with
        | none => rfl
        | some l0 =>
          have hn := (lookupLabel_some _ _ _ hl).2
          simp [streamEntry_shadowed b l0 (Or.inr (Or.inl (hn ▸ hgM)))]
      | none =>
        have hgM : g ∉ names b.addStructuredMetadata := (lookupLabel_none_iff _ _).mp hlM
        cases hlP : lookupLabel b.addParsed g with
        | some l =>
          have hgP : g ∈ names b.addParsed := (lookupLabel_isSome_iff _ _).mp ⟨l, hlP⟩
          have e : b.withEntry g = some l := by
            simp [LabelsBuilder.withEntry, hd, BaseLabelsBuilder.lookupAdd, hlS, hlM, hlP]
          rw [e]
          simp only [hgP, if_true, List.append_nil, Option.toList_some]
          cases hl : lookupLabel b.base g with
          | none => rfl
          | some l0 =>
            have hn := (lookupLabel_some _ _ _ hl).2
            simp [streamEntry_shadowed b l0 (Or.inr (Or.inr (hn ▸ hgP)))]
        | none =>
          have hgP : g ∉ names b.addParsed := (lookupLabel_none_iff _ _).mp hlP
          have e : b.withEntry g = lookupLabel b.base g := by
            simp [LabelsBuilder.withEntry, hd, BaseLabelsBuilder.lookupAdd, hlS, hlM, hlP]
          rw [e]
          simp only [hgP, if_false, Option.toList_none, List.append_nil]
          cases hl : lookupLabel b.base g with
          | none => rfl
          | some l0 =>
            have hn := (lookupLabel_some _ _ _ hl).2
            simp [streamEntry_visible b l0 (hn ▸ hd) (hn ▸ hgM) (hn ▸ hgP), hn, hgS]

theorem filterMap_withEntry_filter_name (b : LabelsBuilder) (n : String) :
    ∀ gs : List String, gs.Nodup →
      (gs.filterMap b.withEntry).filter (fun l => decide (l.Name = n))
        = if n ∈ gs then (b.withEntry n).toList else [] := by
  intro gs
  induction gs with
  | nil => intro _; rfl
  | cons g gs ih =>
    intro hnd
    obtain ⟨hg, hnd1⟩ := List.nodup_cons.mp hnd
    have ih1 := ih hnd1
    by_cases hgn : g = n
    · subst hgn
      have htail : (List.filterMap b.withEntry gs).filter (fun l => decide (l.Name = g)) = [] := by
        rw [ih1, if_neg hg]
      cases hw : b.withEntry g with
      | none => simp [List.filterMap_cons, hw, htail]
      | some l =>
        have hl := withEntry_name b g l hw
        simp [List.filterMap_cons, hw, htail, hl]
    · have hng : ¬ n = g := fun e => hgn e.symm
      cases hw : b.withEntry g with
      | none => simp [List.filterMap_cons, hw, ih1, hng]
      | some l =>
        have hl := withEntry_name b g l hw
        have hln : ¬ l.Name = n := hl ▸ hgn
        simp [List.filterMap_cons, hw, ih1, hln, hng]

theorem filter_filter_name (ls : Labels) (p : String → Bool) (n : String) :
    (ls.filter (fun l => p l.Name)).filter (fun l => decide (l.Name = n))
      = if p n = true then ls.filter (fun l => decide (l.Name = n)) else [] := by
  rw [List.filter_filter]
  by_cases hp : p n = true
  · rw [if_pos hp]
    apply List.filter_congr
    intro x _
    by_cases hx : x.Name = n <;> simp [hx, hp]
  · rw [if_neg hp]
    apply List.filter_eq_nil_iff.mpr
    intro x _
    by_cases hx : x.Name = n <;> simp [hx, hp]

/-- The buffer of `withResult` is the finalized sequence restricted to the group names,
up to order, under the conditions of `withEntry_toList` for every group name. -/
theorem withLoop_perm (L : Lib) (b : LabelsBuilder) (hb : b.Inv)
    (hbase : (names b.base).Nodup) (he : b.err = "") (hed : b.errDetails = "")
    (hgn : b.groups.Nodup)
    (h1 : ∀ g ∈ b.groups, g ∈ b.del →
      g ∉ names b.addStructuredMetadata ∧ g ∉ names b.addParsed)
    (h2 : ∀ g ∈ b.groups, g ∈ names b.addStream → g ∉ b.del → g ∈ names b.base) :
    (b.withLoop b.groups).1.Perm
      ((b.UnsortedLabels L none).filter (fun l => b.groups.contains l.Name)) := by
  rw [withLoop_eq]
  apply perm_of_filter_name_eq
  intro n
  rw [filterMap_withEntry_filter_name b n _ hgn,
    filter_filter_name _ (fun s => b.groups.contains s) n]
  by_cases hn : n ∈ b.groups
  · rw [if_pos hn, if_pos (by simpa using hn),
      withEntry_toList L b hb hbase he hed n (h1 n hn) (h2 n hn)]
  · rw [if_neg hn, if_neg (by simpa using hn)]

theorem toList_length_le_one {α : Type} (o : Option α) : o.toList.length ≤ 1 := by
  cases o <;> simp

/-- No name occurs twice in `UnsortedLabels()` when no error value is set and the base
has no name twice. -/
theorem UnsortedLabels_names_nodup (L : Lib) (b : LabelsBuilder) (hb : b.Inv)
    (hbase : (names b.base).Nodup) (he : b.err = "") (hed : b.errDetails = "") :
    (names (b.UnsortedLabels L none)).Nodup := by
  obtain ⟨hS, hM, hP, hSM, hSP, hMP⟩ := (inv_iff _).mp hb
  apply names_nodup_of_filter_le_one
  intro n
  rw [UnsortedLabels_filter_name_noErr L b hb hbase he hed n]
  have hbaseNil : (n ∈ names b.addStructuredMetadata ∨ n ∈ names b.addParsed) →
      (lookupLabel b.base n).toList.filterMap b.streamEntry = [] := by
    intro h
    cases hl : lookupLabel b.base n with
    | none => rfl
    | some l0 =>
      have hn := (lookupLabel_some _ _ _ hl).2
      simp [streamEntry_shadowed b l0 (Or.inr (hn ▸ h))]
  by_cases hnP : n ∈ names b.addParsed
  · rw [hbaseNil (Or.inr hnP), if_pos hnP]
    simpa using toList_length_le_one (lookupLabel b.addParsed n)
  · rw [if_neg hnP, (lookupLabel_none_iff _ _).mpr hnP]
    by_cases hnM : n ∈ names b.addStructuredMetadata
    · rw [hbaseNil (Or.inl hnM)]
      simpa using toList_length_le_one (lookupLabel b.addStructuredMetadata n)
    · rw [(lookupLabel_none_iff _ _).mpr hnM]
      simp only [Option.toList_none, List.append_nil]
      exact le_trans (List.length_filterMap_le _ _) (toList_length_le_one _)

theorem UnsortedLabels_unmodified (L : Lib) (b : LabelsBuilder) (hd : b.hasDel = false)
    (ha : b.hasAdd = false) (he : b.err = "") (hed : b.errDetails = "") :
    b.UnsortedLabels L none = b.base := by
  unfold LabelsBuilder.UnsortedLabels
  simp [hd, ha, categoriesContain_all StreamLabel (by decide),
    categoriesContain_all ParsedLabel (by decide), LabelsBuilder.appendErrors, he, hed]

theorem baseGroupResult_Labels_perm (L : Lib) (b : LabelsBuilder) :
    ((b.baseGroupResult L).Labels L).Perm
      (if b.without = true then L.builderDel b.base b.groups
        else L.builderKeep b.base b.groups) := by
  refine (labelsResult.Labels_perm_all L _).trans ?_
  simp [labelsResult.all, LabelsBuilder.baseGroupResult, NewLabelsResult]

/-- What `withoutResult` collects under a name, before the group names are removed, is
what `UnsortedLabels()` holds under that name, when a name staged as a stream label is
an undeleted base name. -/
theorem withoutEntry_eq (L : Lib) (b : LabelsBuilder) (hb : b.Inv)
    (hbase : (names b.base).Nodup) (he : b.err = "") (hed : b.errDetails = "") (n : String)
    (h2 : n ∈ names b.addStream → n ∈ names b.base ∧ n ∉ b.del) :
    (b.base.filter (fun l => !b.del.contains l.Name &&
        !(labelsContain b.addStream l.Name || labelsContain b.addStructuredMetadata l.Name
          || labelsContain b.addParsed l.Name))
      ++ b.addStream ++ b.addStructuredMetadata ++ b.addParsed).filter
        (fun l => decide (l.Name = n))
      = (b.UnsortedLabels L none).filter (fun l => decide (l.Name = n)) := by
  obtain ⟨hS, hM, hP, hSM, hSP, hMP⟩ := (inv_iff _).mp hb
  rw [UnsortedLabels_filter_name_noErr L b hb hbase he hed n]
  have hcomm : (b.base.filter (fun l => !b.del.contains l.Name &&
        !(labelsContain b.addStream l.Name || labelsContain b.addStructuredMetadata l.Name
          || labelsContain b.addParsed l.Name))).filter (fun l => decide (l.Name = n))
      = (lookupLabel b.base n).toList.filter (fun l => !b.del.contains l.Name &&
        !(labelsContain b.addStream l.Name || labelsContain b.addStructuredMetadata l.Name
          || labelsContain b.addParsed l.Name)) := by
    rw [← filter_name_eq_lookup n _ hbase, List.filter_filter, List.filter_filter]
    apply List.filter_congr
    intro x _
    exact Bool.and_comm _ _
  simp only [List.filter_append, hcomm, filter_name_eq_lookup n _ hS,
    filter_name_eq_lookup n _ hM, filter_name_eq_lookup n _ hP]
  by_cases hgS : n ∈ names b.addStream
  · obtain ⟨hbn, hd⟩ := h2 hgS
    have hgM := hSM n hgS
    have hgP := hSP n hgS
    obtain ⟨l, hlS⟩ := (lookupLabel_isSome_iff _ _).mpr hgS
    obtain ⟨l0, hl0⟩ := (lookupLabel_isSome_iff _ _).mpr hbn
    have hn := (lookupLabel_some _ _ _ hl0).2
    have hln := (lookupLabel_some _ _ _ hlS).2
    have hget := Labels.Get_of_lookup _ _ _ hlS
    have hse : b.streamEntry l0 = some l := by
      rw [streamEntry_visible b l0 (hn ▸ hd) (hn ▸ hgM) (hn ▸ hgP), if_pos (hn ▸ hgS), hn,
        hget]
      cases l
      simp only at hln
      simp [hln]
    rw [hl0, hlS, (lookupLabel_none_iff _ _).mpr hgM, (lookupLabel_none_iff _ _).mpr hgP]
    simp [hse, hgP, hn, (labelsContain_iff _ _).mpr hgS]
  · rw [(lookupLabel_none_iff _ _).mpr hgS]
    by_cases hgM : n ∈ names b.addStructuredMetadata
    · have hgP := hMP n hgM
      rw [(lookupLabel_none_iff _ _).mpr hgP]
      cases hl : lookupLabel b.base n with
      | none => simp [hgP]
      | some l0 =>
        have hn := (lookupLabel_some _ _ _ hl).2
        simp [streamEntry_shadowed b l0 (Or.inr (Or.inl (hn ▸ hgM))), hgP, hn,
          (labelsContain_iff _ _).mpr hgM]
    · rw [(lookupLabel_none_iff _ _).mpr hgM]
      by_cases hgP : n ∈ names b.addParsed
      · cases hl : lookupLabel b.base n with
        | none => simp [hgP]
        | some l0 =>
          have hn := (lookupLabel_some _ _ _ hl).2
          simp [streamEntry_shadowed b l0 (Or.inr (Or.inr (hn ▸ hgP))), hgP, hn,
            (labelsContain_iff _ _).mpr hgP]
      · rw [(lookupLabel_none_iff _ _).mpr hgP]
        cases hl : lookupLabel b.base n with
        | none => simp [hgP]
        | some l0 =>
          have hn := (lookupLabel_some _ _ _ hl).2
          by_cases hd : n ∈ b.del
          · simp [streamEntry_shadowed b l0 (Or.inl (hn ▸ hd)), hgP, hn, hd]
          · simp [streamEntry_visible b l0 (hn ▸ hd) (hn ▸ hgM) (hn ▸ hgP), hgP, hn, hd, hgS,
              (labelsContain_false_iff _ _).mpr hgS, (labelsContain_false_iff _ _).mpr hgM,
              (labelsContain_false_iff _ _).mpr hgP]

/-- The buffer of `withoutResult` (before it is sorted) is the finalized sequence
without the group names, up to order, when every name staged as a stream label and not
a group name is an undeleted base name. -/
theorem withoutBuf_perm (L : Lib) (b : LabelsBuilder) (hb : b.Inv)
    (hbase : (names b.base).Nodup) (he : b.err = "") (hed : b.errDetails = "")
    (h2 : ∀ n ∈ names b.addStream, n ∉ b.groups → n ∈ names b.base ∧ n ∉ b.del) :
    (b.base.filter (fun l => !b.del.contains l.Name &&
        !(labelsContain b.addStream l.Name || labelsContain b.addStructuredMetadata l.Name
          || labelsContain b.addParsed l.Name) && !b.groups.contains l.Name)
      ++ b.addStream.filter (fun la => !b.groups.contains la.Name)
      ++ b.addStructuredMetadata.filter (fun la => !b.groups.contains la.Name)
      ++ b.addParsed.filter (fun la => !b.groups.contains la.Name)).Perm
      ((b.UnsortedLabels L none).filter (fun l => !b.groups.contains l.Name)) := by
  have hk : b.base.filter (fun l => !b.del.contains l.Name &&
        !(labelsContain b.addStream l.Name || labelsContain b.addStructuredMetadata l.Name
          || labelsContain b.addParsed l.Name) && !b.groups.contains l.Name)
      = (b.base.filter (fun l => !b.del.contains l.Name &&
        !(labelsContain b.addStream l.Name || labelsContain b.addStructuredMetadata l.Name
          || labelsContain b.addParsed l.Name))).filter (fun l => !b.groups.contains l.Name) := by
    rw [List.filter_filter]
    apply List.filter_congr
    intro x _
    exact Bool.and_comm _ _
  rw [hk, ← List.filter_append, ← List.filter_append, ← List.filter_append]
  apply perm_of_filter_name_eq
  intro n
  rw [filter_filter_name _ (fun s => !b.groups.contains s) n,
    filter_filter_name _ (fun s => !b.groups.contains s) n]
  by_cases hn : (!b.groups.contains n) = true
  · rw [if_pos hn, if_pos hn]
    refine withoutEntry_eq L b hb hbase he hed n (fun hS => h2 n hS ?_)
    simpa using hn
  · rw [if_neg hn, if_neg hn]

theorem stdLib_builderKeep_spec (ls : Labels) (gs : List String)
    (h : ∀ l ∈ ls, l.Value ≠ "") :
    (stdLib.builderKeep ls gs).Perm (ls.filter fun l => gs.contains l.Name) := by
  have e : stdLib.builderKeep ls gs = ls.filter fun l => gs.contains l.Name := by
    apply List.filter_congr
    intro x hx
    simp [h x hx]
  rw [e]

theorem stdLib_builderDel_spec (ls : Labels) (gs : List String)
    (h : ∀ l ∈ ls, l.Value ≠ "") :
    (stdLib.builderDel ls gs).Perm (ls.filter fun l => !gs.contains l.Name) := by
  have e : stdLib.builderDel ls gs = ls.filter fun l => !gs.contains l.Name := by
    apply List.filter_congr
    intro x hx
    simp [h x hx]
  rw [e]

/-! ## Point lookups and finalization -/

theorem Get_fst (b : LabelsBuilder) (n : String) :
    (b.Get n).1 = ((b.getWithCategory n).1, (b.getWithCategory n).2.2) := by
  unfold LabelsBuilder.Get
  simp only [GetWithCategory_fst]

theorem label_eta (l : Label) (n : String) (h : l.Name = n) :
    l = { Name := n, Value := l.Value } := by
  cases l
  simp only at h
  simp [h]

/-- The entries named `n` of `UnsortedLabels()` are the one label the point lookup
finds, when a name staged as a stream label is an undeleted base name. -/
theorem UnsortedLabels_filter_get (L : Lib) (b : LabelsBuilder) (hb : b.Inv)
    (hbase : (names b.base).Nodup) (n : String)
    (h1 : n ≠ L.ErrorLabel) (h2 : n ≠ L.ErrorDetailsLabel)
    (hS : n ∈ names b.addStream → n ∈ names b.base ∧ n ∉ b.del) :
    (b.UnsortedLabels L none).filter (fun l => decide (l.Name = n))
      = if (b.getWithCategory n).2.2 = true then
          [{ Name := n, Value := (b.getWithCategory n).1 }]
        else [] := by
  obtain ⟨hSn, hMn, hPn, hSM, hSP, hMP⟩ := (inv_iff _).mp hb
  rw [UnsortedLabels_filter_name L b hb n h1 h2, filter_name_eq_lookup n _ hbase]
  unfold LabelsBuilder.getWithCategory BaseLabelsBuilder.lookupAdd
  cases hlS : lookupLabel b.addStream n with
  | some l =>
    have hgS : n ∈ names b.addStream := (lookupLabel_isSome_iff _ _).mp ⟨l, hlS⟩
    obtain ⟨hbn, hd⟩ := hS hgS
    have hgM := hSM n hgS
    have hgP := hSP n hgS
    obtain ⟨l0, hl0⟩ := (lookupLabel_isSome_iff _ _).mpr hbn
    have hn := (lookupLabel_some _ _ _ hl0).2
    have hget := Labels.Get_of_lookup _ _ _ hlS
    have hse : b.streamEntry l0 = some { Name := n, Value := l.Value } := by
      rw [streamEntry_visible b l0 (hn ▸ hd) (hn ▸ hgM) (hn ▸ hgP), if_pos (hn ▸ hgS), hn,
        hget]
    rw [hl0, (lookupLabel_none_iff _ _).mpr hgM, (lookupLabel_none_iff _ _).mpr hgP]
    simp [hse, hgP]
  | none =>
    have hgS : n ∉ names b.addStream := (lookupLabel_none_iff _ _).mp hlS
    cases hlM : lookupLabel b.addStructuredMetadata n with
    | some l =>
      have hgM : n ∈ names b.addStructuredMetadata := (lookupLabel_isSome_iff _ _).mp ⟨l, hlM⟩
      have hgP := hMP n hgM
      have hln := label_eta l n (lookupLabel_some _ _ _ hlM).2
      rw [(lookupLabel_none_iff _ _).mpr hgP]
      simp only [hgP, if_false, Option.toList_none, List.append_nil, Option.toList_some, if_true]
      cases hl : lookupLabel b.base n with
      | none => simpa using hln
      | some l0 =>
        have hn := (lookupLabel_some _ _ _ hl).2
        simpa [streamEntry_shadowed b l0 (Or.inr (Or.inl (hn ▸ hgM)))] using hln
    | none =>
      have hgM : n ∉ names b.addStructuredMetadata := (lookupLabel_none_iff _ _).mp hlM
      cases hlP : lookupLabel b.addParsed n with
      | some l =>
        have hgP : n ∈ names b.addParsed := (lookupLabel_isSome_iff _ _).mp ⟨l, hlP⟩
        have hln := label_eta l n (lookupLabel_some _ _ _ hlP).2
        simp only [hgP, if_true, List.append_nil, Option.toList_some]
        cases hl : lookupLabel b.base n with
        | none => simpa using hln
        | some l0 =>
          have hn := (lookupLabel_some _ _ _ hl).2
          simpa [streamEntry_shadowed b l0 (Or.inr (Or.inr (hn ▸ hgP)))] using hln
      | none =>
        have hgP : n ∉ names b.addParsed := (lookupLabel_none_iff _ _).mp hlP
        simp only [hgP, if_false, Option.toList_none, List.append_nil]
        by_cases hd : n ∈ b.del
        · have hdc : b.del.contains n = true := by simpa using hd
          simp only [hdc, if_true]
          cases hl : lookupLabel b.base n with
          | none => simp
          | some l0 =>
            have hn := (lookupLabel_some _ _ _ hl).2
            simp [streamEntry_shadowed b l0 (Or.inl (hn ▸ hd))]
        · have hdc : ¬ b.del.contains n = true := by simpa using hd
          simp only [hdc, if_false]
          cases hl : lookupLabel b.base n with
          | none => simp
          | some l0 =>
            have hn := (lookupLabel_some _ _ _ hl).2
            have hln := label_eta l0 n hn
            simpa [streamEntry_visible b l0 (hn ▸ hd) (hn ▸ hgM) (hn ▸ hgP), hn, hgS] using hln

theorem exampleStreamPending_reachable : Reachable stdLib exampleStreamPending :=
  Reachable.set exampleBuilder exampleStreamPending StreamLabel "zone" "a"
    exampleBuilder_reachable (by decide)

/-- C21, evaluated where it fails.  On the fresh builder over `app="x"`, `env="prod"`
(no name twice), `Set(StreamLabel, "zone", "a")` returns a reachable builder on which
`Get("zone")` is `("a", true)`, while the finalized labels (`labels()` over all
categories) are `app="x"`, `env="prod"`: they hold no label named `zone`, which is not
a reserved error label. -/
theorem Get_stream_pending_lost :
    Reachable stdLib exampleStreamPending ∧ (names exampleStreamPending.base).Nodup ∧
    "zone" ≠ stdLib.ErrorLabel ∧ "zone" ≠ stdLib.ErrorDetailsLabel ∧
    exampleBuilder.Set StreamLabel "zone" "a" = some exampleStreamPending ∧
    (exampleStreamPending.Get "zone").1 = ("a", true) ∧
    exampleStreamPending.labels stdLib none
      = [{ Name := "app", Value := "x" }, { Name := "env", Value := "prod" }] ∧
    ({ Name := "zone", Value := "a" } : Label) ∉ exampleStreamPending.labels stdLib none ∧
    ∀ l ∈ exampleStreamPending.labels stdLib none, l.Name ≠ "zone" :=
  ⟨exampleStreamPending_reachable, by decide, by decide, by decide, by decide, by decide,
    by decide, by decide, by decide⟩

/-- The part of C21 that the code does honour.  In every reachable state over a base
without a repeated name, for a name `n` that is not a reserved error label and that is
not staged as a stream label unless it is an undeleted base name: `Get(n)` returns
`(v, true)` exactly when the finalized labels contain `n=v`, and returns not-found
exactly when they contain no label named `n`. -/
theorem Get_agrees_with_labels (L : Lib) (b : LabelsBuilder) (hb : Reachable L b)
    (hbase : (names b.base).Nodup) (n : String)
    (h1 : n ≠ L.ErrorLabel) (h2 : n ≠ L.ErrorDetailsLabel)
    (hS : n ∈ names b.addStream → n ∈ names b.base ∧ n ∉ b.del) :
    (∀ v, (b.Get n).1 = (v, true) ↔ ({ Name := n, Value := v } : Label) ∈ b.labels L none) ∧
    ((b.Get n).1.2 = false ↔ ∀ l ∈ b.labels L none, l.Name ≠ n) := by
  have hF := UnsortedLabels_filter_get L b hb.inv hbase n h1 h2 hS
  have hmem : ∀ l, l ∈ b.labels L none ↔ l ∈ b.UnsortedLabels L none :=
    fun l => (L.sortSort_perm _).mem_iff
  rw [Get_fst]
  constructor
  · intro v
    have hmemF : ({ Name := n, Value := v } : Label) ∈ b.UnsortedLabels L none ↔
        ({ Name := n, Value := v } : Label)
          ∈ (b.UnsortedLabels L none).filter (fun l => decide (l.Name = n)) := by
      simp [List.mem_filter]
    rw [hmem, hmemF, hF]
    cases hfound : (b.getWithCategory n).2.2 with
    | false => simp
    | true =>
      simp only [if_true, List.mem_singleton, Label.mk.injEq, true_and, Prod.mk.injEq, and_true]
      exact eq_comm
  · have hnil : (∀ l ∈ b.labels L none, l.Name ≠ n) ↔
        (b.UnsortedLabels L none).filter (fun l => decide (l.Name = n)) = [] := by
      rw [List.filter_eq_nil_iff]
      constructor
      · intro h l hl
        simpa using h l ((hmem l).mpr hl)
      · intro h l hl
        simpa using h l ((hmem l).mp hl)
    rw [hnil, hF]
    cases hfound : (b.getWithCategory n).2.2 <;> simp

/-- Instance of the honoured part of C21 on the example of the specification: `app` is
staged as structured metadata with value `y`. -/
theorem Get_agrees_with_labels_witness :
    (Reachable stdLib exampleFinal ∧ (names exampleFinal.base).Nodup ∧
      "app" ≠ stdLib.ErrorLabel ∧ "app" ≠ stdLib.ErrorDetailsLabel ∧
      ("app" ∈ names exampleFinal.addStream →
        "app" ∈ names exampleFinal.base ∧ "app" ∉ exampleFinal.del)) ∧
    (∀ v, (exampleFinal.Get "app").1 = (v, true) ↔
      ({ Name := "app", Value := v } : Label) ∈ exampleFinal.labels stdLib none) ∧
    ((exampleFinal.Get "app").1.2 = false ↔
      ∀ l ∈ exampleFinal.labels stdLib none, l.Name ≠ "app") ∧
    (exampleFinal.Get "app").1 = ("y", true) :=
  have h := Get_agrees_with_labels stdLib exampleFinal exampleFinal_reachable (by decide)
    "app" (by decide) (by decide) (by decide)
  ⟨⟨exampleFinal_reachable, by decide, by decide, by decide, by decide⟩, h.1, h.2, by decide⟩

/-! ## The invariant of the pending lists and `deleteWithCategory` -/

theorem length_dropName (n : String) (xs : Labels) (h : (names xs).Nodup) :
    (dropName n xs).length + (if n ∈ names xs then 1 else 0) = xs.length := by
  induction xs with
  | nil => simp [dropName, names]
  | cons a as ih =>
    simp only [names, List.map_cons, List.nodup_cons] at h
    have ih1 := ih h.2
    by_cases ha : a.Name = n
    · have hn : n ∉ names as := ha ▸ h.1
      have e : dropName n (a :: as) = as := by
        have e1 : dropName n (a :: as) = dropName n as := by simp [dropName, ha]
        rw [e1, dropName_eq_self hn]
      rw [e]
      simp [names, ha]
    · have e : dropName n (a :: as) = a :: dropName n as := by simp [dropName, ha]
      have hne : ¬ n = a.Name := fun e1 => ha e1.symm
      rw [e]
      simp only [names, List.map_cons, List.mem_cons, hne, false_or, List.length_cons]
      simp only [names] at ih1
      omega

/-- With a name twice in the list the loop of `deleteWithCategory` indexes out of
range: the invariant is what keeps it safe. -/
theorem deleteLoop_duplicate :
    deleteLoop "n" 2 0 [{ Name := "n", Value := "1" }, { Name := "n", Value := "2" }] 2 = none := by
  decide

/-- C22. In every reachable state (fresh builders, new lines, and any sequence of `Set`,
`Del`, `Add`, `Reset` and the other modelled calls), each name occurs at most once in
the concatenation of the stream, structured metadata and parsed pending lists: names
are unique within a category and staged in at most one category.  In such a state, for
each of the three categories and every name `n`, `deleteWithCategory` returns (it never
indexes out of range), the pending list of the category becomes the old one without
its entry named `n`, the other entries in their order (at most one entry leaves, and
one does when `n` was staged there), and the other two pending lists, the deletion
list and the base are unchanged. -/
theorem pending_lists_invariant (L : Lib) (b : LabelsBuilder) (hb : Reachable L b) :
    (names (b.addStream ++ b.addStructuredMetadata ++ b.addParsed)).Nodup ∧
    ((names b.addStream).Nodup ∧ (names b.addStructuredMetadata).Nodup ∧
      (names b.addParsed).Nodup ∧
      (∀ x, x ∈ names b.addStream → x ∉ names b.addStructuredMetadata) ∧
      (∀ x, x ∈ names b.addStream → x ∉ names b.addParsed) ∧
      (∀ x, x ∈ names b.addStructuredMetadata → x ∉ names b.addParsed)) ∧
    ∀ (c : LabelCategory) (n : String), c ≠ InvalidCategory →
      ∃ xs b1, b.add c = some xs ∧ b.deleteWithCategory c n = some b1 ∧
        b1.add c = some (xs.filter fun l => decide (l.Name ≠ n)) ∧
        n ∉ names (xs.filter fun l => decide (l.Name ≠ n)) ∧
        (xs.filter fun l => decide (l.Name ≠ n)).length + (if n ∈ names xs then 1 else 0)
          = xs.length ∧
        (∀ c1, c1 ≠ c → b1.add c1 = b.add c1) ∧ b1.del = b.del ∧ b1.base = b.base := by
  have hinv := hb.inv
  obtain ⟨hS, hM, hP, -, -, -⟩ := (inv_iff _).mp hinv
  refine ⟨hinv, (inv_iff _).mp hinv, ?_⟩
  intro c n hc
  cases c with
  | InvalidCategory => exact absurd rfl hc
  | StreamLabel =>
    refine ⟨b.addStream, _, rfl, deleteWithCategory_stream b n hS, rfl,
      not_mem_names_dropName n _, length_dropName n _ hS, ?_, rfl, rfl⟩
    intro c1 hc1
    cases c1 <;> first | rfl | exact absurd rfl hc1
  | StructuredMetadataLabel =>
    refine ⟨b.addStructuredMetadata, _, rfl, deleteWithCategory_meta b n hM, rfl,
      not_mem_names_dropName n _, length_dropName n _ hM, ?_, rfl, rfl⟩
    intro c1 hc1
    cases c1 <;> first | rfl | exact absurd rfl hc1
  | ParsedLabel =>
    refine ⟨b.addParsed, _, rfl, deleteWithCategory_parsed b n hP, rfl,
      not_mem_names_dropName n _, length_dropName n _ hP, ?_, rfl, rfl⟩
    intro c1 hc1
    cases c1 <;> first | rfl | exact absurd rfl hc1

/-- Instance of C22 on the example of the specification (`level` parsed, `app`
structured metadata): deleting `app` from the structured metadata list empties it. -/
theorem pending_lists_invariant_witness :
    Reachable stdLib exampleFinal ∧
    ((names (exampleFinal.addStream ++ exampleFinal.addStructuredMetadata
        ++ exampleFinal.addParsed)).Nodup ∧
      ((names exampleFinal.addStream).Nodup ∧ (names exampleFinal.addStructuredMetadata).Nodup ∧
        (names exampleFinal.addParsed).Nodup ∧
        (∀ x, x ∈ names exampleFinal.addStream → x ∉ names exampleFinal.addStructuredMetadata) ∧
        (∀ x, x ∈ names exampleFinal.addStream → x ∉ names exampleFinal.addParsed) ∧
        (∀ x, x ∈ names exampleFinal.addStructuredMetadata → x ∉ names exampleFinal.addParsed)) ∧
      ∀ (c : LabelCategory) (n : String), c ≠ InvalidCategory →
        ∃ xs b1, exampleFinal.add c = some xs ∧ exampleFinal.deleteWithCategory c n = some b1 ∧
          b1.add c = some (xs.filter fun l => decide (l.Name ≠ n)) ∧
          n ∉ names (xs.filter fun l => decide (l.Name ≠ n)) ∧
          (xs.filter fun l => decide (l.Name ≠ n)).length + (if n ∈ names xs then 1 else 0)
            = xs.length ∧
          (∀ c1, c1 ≠ c → b1.add c1 = exampleFinal.add c1) ∧ b1.del = exampleFinal.del ∧
          b1.base = exampleFinal.base) ∧
    exampleFinal.deleteWithCategory StructuredMetadataLabel "app"
      = some { exampleFinal with addStructuredMetadata := [] } :=
  ⟨exampleFinal_reachable, pending_lists_invariant stdLib exampleFinal exampleFinal_reachable,
    by decide⟩

/-! ## Builders keyed by the hasher of the source -/

theorem promLib_collisionFree : HasherCollisionFree promLib :=
  fun _ _ h => encodeLabels_injective h

theorem hashedLabels_eq_self {ls : Labels} (h : MetricName ∉ names ls) :
    hashedLabels ls = ls :=
  dropName_eq_self h

theorem hashedLabels_perm {l1 l2 : Labels} (h : l1.Perm l2) :
    (hashedLabels l1).Perm (hashedLabels l2) :=
  h.filter _

theorem EntryOK.keyed {L : Lib} {k : Nat} {r : labelsResult} (h : EntryOK L k r) :
    KeyedEntry L k r := by
  obtain ⟨seq, hp, -, hk, -, -⟩ := h
  exact ⟨seq, hp, hk.symm⟩

theorem CacheKeyed.consEntry {L : Lib} {c : List (Nat × labelsResult)} (h : CacheKeyed L c)
    {k : Nat} {r : labelsResult} (hr : KeyedEntry L k r) : CacheKeyed L ((k, r) :: c) := by
  intro k1 r1 hmem
  rcases List.mem_cons.mp hmem with e | e
  · cases e
    exact hr
  · exact h k1 r1 e

theorem KeyedEntry_uncategorized (L : Lib) (buf : Labels) :
    KeyedEntry L (L.hasherHash buf)
      (NewLabelsResult (L.labelsString buf) (L.hasherHash buf) buf [] []) :=
  ⟨buf, by simp [labelsResult.all, NewLabelsResult], rfl⟩

theorem KeyedInv.ofScratch {L : Lib} {b b1 : LabelsBuilder} (h : KeyedInv L b)
    (hs : ScratchOnly b b1) : KeyedInv L b1 := by
  obtain ⟨h1, h2, h3, h4, h5, h6, h7⟩ := hs
  refine ⟨?_, ?_, ?_⟩
  · rw [h4]; exact h.entries
  · rw [h4, h1, h2]; exact h.current
  · intro r hr
    rw [baseGroupResult_congr L b b1 h1 h5 h6]
    exact h.grouped r (h3 ▸ hr)

/-- The method `LabelsResult` changes the result cache only, which grows by at most one
keyed entry. -/
theorem LabelsResult_keyedEffect (L : Lib) (b : LabelsBuilder) :
    ∃ cache, (b.LabelsResult L).2 = { b with resultCache := cache } ∧
      CacheGrows b.resultCache cache ∧ (CacheKeyed L b.resultCache → CacheKeyed L cache) := by
  unfold LabelsBuilder.LabelsResult
  split
  · exact ⟨b.resultCache, rfl, CacheGrows.refl _, id⟩
  · dsimp only
    split
    · exact ⟨b.resultCache, rfl, CacheGrows.refl _, id⟩
    · rename_i hnone
      exact ⟨_, rfl, Or.inr ⟨_, _, rfl, hnone⟩, fun h => h.consEntry (EntryOK_new L b).keyed⟩

/-- The method `toUncategorizedResult` changes the result cache only, which grows by at
most one keyed entry, whatever the order of the buffer. -/
theorem toUncategorizedResult_keyedEffect (L : Lib) (b : LabelsBuilder) (buf : Labels) :
    ∃ cache, (b.toUncategorizedResult L buf).2 = { b with resultCache := cache } ∧
      CacheGrows b.resultCache cache ∧ (CacheKeyed L b.resultCache → CacheKeyed L cache) := by
  unfold LabelsBuilder.toUncategorizedResult
  dsimp only
  split
  · exact ⟨b.resultCache, rfl, CacheGrows.refl _, id⟩
  · rename_i hnone
    exact ⟨_, rfl, Or.inr ⟨_, _, rfl, hnone⟩, fun h => h.consEntry (KeyedEntry_uncategorized L buf)⟩

/-- The method `GroupedLabels` changes the result cache, which grows by at most one
keyed entry, and the memoised base group, which stays or becomes the base group of this
builder. -/
theorem GroupedLabels_keyedEffect (L : Lib) (b : LabelsBuilder) :
    (b.GroupedLabels L).2.base = b.base ∧
    (b.GroupedLabels L).2.currentResult = b.currentResult ∧
    (b.GroupedLabels L).2.groups = b.groups ∧ (b.GroupedLabels L).2.without = b.without ∧
    CacheGrows b.resultCache (b.GroupedLabels L).2.resultCache ∧
    (CacheKeyed L b.resultCache → CacheKeyed L (b.GroupedLabels L).2.resultCache) ∧
    ((b.GroupedLabels L).2.groupedResult = b.groupedResult ∨
      (b.GroupedLabels L).2.groupedResult = some (b.baseGroupResult L)) := by
  have hsame : ∀ b1 : LabelsBuilder, b1 = b →
      b1.base = b.base ∧ b1.currentResult = b.currentResult ∧ b1.groups = b.groups ∧
      b1.without = b.without ∧ CacheGrows b.resultCache b1.resultCache ∧
      (CacheKeyed L b.resultCache → CacheKeyed L b1.resultCache) ∧
      (b1.groupedResult = b.groupedResult ∨
        b1.groupedResult = some (b.baseGroupResult L)) := by
    intro b1 e
    subst e
    exact ⟨rfl, rfl, rfl, rfl, CacheGrows.refl _, id, Or.inl rfl⟩
  have hcache : ∀ (b0 b1 : LabelsBuilder) (cache : List (Nat × labelsResult)),
      ScratchOnly b b0 → b1 = { b0 with resultCache := cache } →
      CacheGrows b0.resultCache cache → (CacheKeyed L b0.resultCache → CacheKeyed L cache) →
      b1.base = b.base ∧ b1.currentResult = b.currentResult ∧ b1.groups = b.groups ∧
      b1.without = b.without ∧ CacheGrows b.resultCache b1.resultCache ∧
      (CacheKeyed L b.resultCache → CacheKeyed L b1.resultCache) ∧
      (b1.groupedResult = b.groupedResult ∨
        b1.groupedResult = some (b.baseGroupResult L)) := by
    intro b0 b1 cache hs e hgrow hok
    subst e
    obtain ⟨h1, h2, h3, h4, h5, h6, -⟩ := hs
    exact ⟨h1, h2, h5, h6, h4 ▸ hgrow, fun h => hok (h4 ▸ h), Or.inl h3⟩
  unfold LabelsBuilder.GroupedLabels
  split
  · obtain ⟨cache, e, hgrow, hok⟩ := LabelsResult_keyedEffect L b
    exact hcache b _ cache (ScratchOnly.same b) e hgrow hok
  · split
    · exact hsame b rfl
    · split
      · split
        · exact hsame b rfl
        · unfold LabelsBuilder.toBaseGroup
          split
          · exact hsame b rfl
          · exact ⟨rfl, rfl, rfl, rfl, CacheGrows.refl _, id, Or.inr rfl⟩
      · split
        · obtain ⟨cache, e, hgrow, hok⟩ := LabelsResult_keyedEffect L b
          exact hcache b _ cache (ScratchOnly.same b) e hgrow hok
        · split
          · unfold LabelsBuilder.withoutResult
            dsimp only
            obtain ⟨cache, e, hgrow, hok⟩ := toUncategorizedResult_keyedEffect L
              (if b.addStructuredMetadata.any (fun la => b.groups.contains la.Name) = true then
                { b with referencedStructuredMetadata := true } else b) (L.sortSort _)
            refine hcache _ _ cache ?_ e hgrow hok
            split <;> exact ⟨rfl, rfl, rfl, rfl, rfl, rfl, rfl⟩
          · unfold LabelsBuilder.withResult
            dsimp only
            obtain ⟨cache, e, hgrow, hok⟩ := toUncategorizedResult_keyedEffect L
              (if (b.withLoop b.groups).2 = true then
                { b with referencedStructuredMetadata := true } else b) (b.withLoop b.groups).1
            refine hcache _ _ cache ?_ e hgrow hok
            split <;> exact ⟨rfl, rfl, rfl, rfl, rfl, rfl, rfl⟩

/-- The method `ForLabels` with the hasher's hash of the base, on a shared builder whose
cache is keyed. -/
theorem ForLabels_keyedInv (L : Lib) (s : BaseLabelsBuilder) (lbs : Labels)
    (hc : CacheKeyed L s.resultCache) : KeyedInv L (s.ForLabels L lbs (L.hasherHash lbs)) := by
  unfold BaseLabelsBuilder.ForLabels
  cases hl : s.resultCache.lookup (L.hasherHash lbs) with
  | some r => exact ⟨hc, hl, (fun r hr => by cases hr)⟩
  | none =>
    exact ⟨hc.consEntry (KeyedEntry_uncategorized L lbs), lookup_cons_self _ _ _,
      (fun r hr => by cases hr)⟩

/-- A keyed builder is a reachable one. -/
theorem Keyed.toReachable {L : Lib} {b : LabelsBuilder} (h : Keyed L b) : Reachable L b := by
  induction h with
  | fresh groups without noLabels lbs => exact Reachable.fresh groups without noLabels lbs _
  | forLabels b lbs _ ih => exact Reachable.forLabels b lbs _ ih
  | reset b _ ih => exact Reachable.reset b ih
  | set b b1 c n v _ h ih => exact Reachable.set b b1 c n v ih h
  | del b b1 ns _ h ih => exact Reachable.del b b1 ns ih h
  | add b b1 c lbs _ h ih => exact Reachable.add b b1 c lbs ih h
  | setErr b e _ ih => exact Reachable.setErr b e ih
  | setErrorDetails b e _ ih => exact Reachable.setErrorDetails b e ih
  | resetError b _ ih => exact Reachable.resetError b ih
  | resetErrorDetails b _ ih => exact Reachable.resetErrorDetails b ih
  | getWithCategory b key _ ih => exact Reachable.getWithCategory b key ih
  | labelsResult b _ ih => exact Reachable.labelsResult b ih
  | groupedLabels b _ ih => exact Reachable.groupedLabels b ih

/-- A keyed builder satisfies the invariant of keyed caches. -/
theorem Keyed.keyedInv {L : Lib} {b : LabelsBuilder} (h : Keyed L b) : KeyedInv L b := by
  induction h with
  | fresh groups without noLabels lbs =>
    exact ForLabels_keyedInv L (NewBaseLabelsBuilderWithGrouping groups without noLabels) lbs
      (fun k r hm => by simp [NewBaseLabelsBuilderWithGrouping] at hm)
  | forLabels b lbs _ ih => exact ForLabels_keyedInv L b.toBaseLabelsBuilder lbs ih.entries
  | reset b _ ih => exact ih.ofScratch ⟨rfl, rfl, rfl, rfl, rfl, rfl, rfl⟩
  | set b b1 c n v hk h ih =>
    exact ih.ofScratch (Set_scratchOnly b b1 c n v hk.toReachable.inv h)
  | del b b1 ns hk h ih => exact ih.ofScratch (Del_scratchOnly ns b b1 hk.toReachable.inv h)
  | add b b1 c lbs hk h ih =>
    exact ih.ofScratch (Add_scratchOnly L c lbs b b1 hk.toReachable.inv h)
  | setErr b e _ ih => exact ih.ofScratch ⟨rfl, rfl, rfl, rfl, rfl, rfl, rfl⟩
  | setErrorDetails b e _ ih => exact ih.ofScratch ⟨rfl, rfl, rfl, rfl, rfl, rfl, rfl⟩
  | resetError b _ ih => exact ih.ofScratch ⟨rfl, rfl, rfl, rfl, rfl, rfl, rfl⟩
  | resetErrorDetails b _ ih => exact ih.ofScratch ⟨rfl, rfl, rfl, rfl, rfl, rfl, rfl⟩
  | getWithCategory b key _ ih => exact ih.ofScratch (GetWithCategory_scratchOnly b key)
  | labelsResult b _ ih =>
    obtain ⟨cache, e, hgrow, hok⟩ := LabelsResult_keyedEffect L b
    rw [e]
    exact ⟨hok ih.entries, hgrow.lookup ih.current, ih.grouped⟩
  | groupedLabels b _ ih =>
    obtain ⟨h1, h2, h3, h4, hgrow, hok, hgr⟩ := GroupedLabels_keyedEffect L b
    refine ⟨hok ih.entries, ?_, ?_⟩
    · rw [h1, h2]
      exact hgrow.lookup ih.current
    · intro r hr
      rw [baseGroupResult_congr L b _ h1 h3 h4]
      rcases hgr with e | e
      · exact ih.grouped r (e ▸ hr)
      · rw [e] at hr
        cases hr
        rfl

/-- With a hasher that is collision-free on what it reads, the labels of a keyed entry
are, apart from those named `MetricName`, the labels of any sequence that hashes to its
key. -/
theorem KeyedEntry.hashed_perm {L : Lib} (hcf : HasherCollisionFree L) {buf : Labels}
    {r : labelsResult} (h : KeyedEntry L (L.hasherHash buf) r) :
    (hashedLabels (r.Labels L)).Perm (hashedLabels buf) := by
  obtain ⟨seq, hp, hk⟩ := h
  rw [← hcf seq buf hk]
  exact hashedLabels_perm ((labelsResult.Labels_perm_all L r).trans hp.symm)

theorem toUncategorizedResult_keyedEntry (L : Lib) (b : LabelsBuilder) (buf : Labels)
    (hc : CacheKeyed L b.resultCache) :
    KeyedEntry L (L.hasherHash buf) (b.toUncategorizedResult L buf).1 := by
  unfold LabelsBuilder.toUncategorizedResult
  dsimp only
  cases hl : b.resultCache.lookup (L.hasherHash buf) with
  | some cached => exact hc _ _ (lookup_some_mem hl)
  | none => exact KeyedEntry_uncategorized L buf

/-- The result of `toUncategorizedResult` is an entry of the cache or holds the labels
of the buffer. -/
theorem toUncategorizedResult_source (L : Lib) (b : LabelsBuilder) (buf : Labels) :
    (∃ k, (k, (b.toUncategorizedResult L buf).1) ∈ b.resultCache) ∨
      (b.toUncategorizedResult L buf).1.all = buf := by
  unfold LabelsBuilder.toUncategorizedResult
  dsimp only
  cases hl : b.resultCache.lookup (L.hasherHash buf) with
  | some cached => exact Or.inl ⟨_, lookup_some_mem hl⟩
  | none => exact Or.inr (by simp [labelsResult.all, NewLabelsResult])

theorem LabelsResult_keyedEntry (L : Lib) (b : LabelsBuilder)
    (hc : CacheKeyed L b.resultCache)
    (hmod : b.hasDel = true ∨ b.hasAdd = true ∨ b.HasErr = true) :
    KeyedEntry L (L.hasherHash (b.finalized L)) (b.LabelsResult L).1 := by
  rw [LabelsResult_modified L b hmod]
  cases hl : b.resultCache.lookup (L.hasherHash (b.finalized L)) with
  | some cached => exact hc _ _ (lookup_some_mem hl)
  | none => exact (EntryOK_new L b).keyed

theorem LabelsResult_unmodified (L : Lib) (b : LabelsBuilder)
    (hmod : ¬ (b.hasDel = true ∨ b.hasAdd = true ∨ b.HasErr = true)) :
    b.LabelsResult L = (b.currentResult, b) ∧ b.hasDel = false ∧ b.hasAdd = false := by
  simp only [not_or, Bool.not_eq_true] at hmod
  refine ⟨?_, hmod.1, hmod.2.1⟩
  unfold LabelsBuilder.LabelsResult
  rw [if_pos (by simp [hmod.1, hmod.2.1, hmod.2.2])]

/-- The labels of `LabelsResult()` of a modified builder are those of `UnsortedLabels()`,
apart from the labels named `MetricName`. -/
theorem LabelsResult_hashed_perm_modified (L : Lib) (b : LabelsBuilder)
    (hcf : HasherCollisionFree L) (hc : CacheKeyed L b.resultCache)
    (hmod : b.hasDel = true ∨ b.hasAdd = true ∨ b.HasErr = true) :
    (hashedLabels ((b.LabelsResult L).1.Labels L)).Perm
      (hashedLabels (b.UnsortedLabels L none)) :=
  ((LabelsResult_keyedEntry L b hc hmod).hashed_perm hcf).trans
    (hashedLabels_perm (L.slicesSortFunc_perm _))

/-- The labels of `LabelsResult()` are those of `UnsortedLabels()`, apart from the labels
named `MetricName`, for a keyed builder without error values. -/
theorem LabelsResult_hashed_perm (L : Lib) (b : LabelsBuilder)
    (hcf : HasherCollisionFree L) (hi : KeyedInv L b)
    (he : b.err = "") (hed : b.errDetails = "") :
    (hashedLabels ((b.LabelsResult L).1.Labels L)).Perm
      (hashedLabels (b.UnsortedLabels L none)) := by
  by_cases hmod : b.hasDel = true ∨ b.hasAdd = true ∨ b.HasErr = true
  · exact LabelsResult_hashed_perm_modified L b hcf hi.entries hmod
  · obtain ⟨e, hd, ha⟩ := LabelsResult_unmodified L b hmod
    rw [e, UnsortedLabels_unmodified L b hd ha he hed]
    exact (hi.entries _ _ (lookup_some_mem hi.current)).hashed_perm hcf

/-- The result of `LabelsResult()` is an entry of the cache or holds the labels of
`UnsortedLabels()`. -/
theorem LabelsResult_source (L : Lib) (b : LabelsBuilder) (hi : KeyedInv L b) :
    (∃ k, (k, (b.LabelsResult L).1) ∈ b.resultCache) ∨
      ((b.LabelsResult L).1.all).Perm (b.UnsortedLabels L none) := by
  by_cases hmod : b.hasDel = true ∨ b.hasAdd = true ∨ b.HasErr = true
  · rw [LabelsResult_modified L b hmod]
    cases hl : b.resultCache.lookup (L.hasherHash (b.finalized L)) with
    | some cached => exact Or.inl ⟨_, lookup_some_mem hl⟩
    | none =>
      obtain ⟨seq, hp, -, hk, -, -⟩ := EntryOK_new L b
      right
      refine (List.Perm.trans ?_ (perm_filter_three L b (b.finalized L))).trans
        (L.slicesSortFunc_perm _)
      simp only [labelsResult.all, NewLabelsResult, labelsNew]
      exact List.Perm.append
        (List.Perm.append (L.slicesSortFunc_perm _) (L.slicesSortFunc_perm _))
        (L.slicesSortFunc_perm _)
  · obtain ⟨e, -, -⟩ := LabelsResult_unmodified L b hmod
    rw [e]
    exact Or.inl ⟨_, lookup_some_mem hi.current⟩

theorem names_Labels_iff (L : Lib) (r : labelsResult) (n : String) :
    n ∈ names (r.Labels L) ↔ n ∈ names r.all :=
  ((labelsResult.Labels_perm_all L r).map Label.Name).mem_iff

/-- No label of `UnsortedLabels()` has a name that is neither a base name nor a staged
name, when no error value is set. -/
theorem UnsortedLabels_no_name (L : Lib) (b : LabelsBuilder) (n : String)
    (hb : n ∉ names b.base) (hs : n ∉ b.stagedNames) (he : b.err = "")
    (hed : b.errDetails = "") : n ∉ names (b.UnsortedLabels L none) := by
  intro hmem
  obtain ⟨l, hl, hn⟩ := List.mem_map.mp hmem
  have hst : ∀ l1 : Label, l1.Name = n →
      l1 ∉ b.addStream ∧ l1 ∉ b.addStructuredMetadata ∧ l1 ∉ b.addParsed := by
    intro l1 h1
    simp only [BaseLabelsBuilder.stagedNames, names, List.map_append, List.mem_append,
      List.mem_map, not_or, not_exists, not_and] at hs
    exact ⟨fun h => hs.1.1 l1 h h1, fun h => hs.1.2 l1 h h1, fun h => hs.2 l1 h h1⟩
  rcases mem_UnsortedLabels_cases L b none l hl with ⟨l0, hl0, hse⟩ | h | h | h
  · have := streamEntry_name b l0 l hse
    exact hb (List.mem_map.mpr ⟨l0, hl0, this ▸ hn⟩)
  · exact (hst l hn).2.1 h
  · exact (hst l hn).2.2 h
  · simp [LabelsBuilder.appendErrors, he, hed] at h

/-- The result of `LabelsResult()` holds no label named `n` when no cached result, base
label or staged label has that name and no error value is set. -/
theorem LabelsResult_no_name (L : Lib) (b : LabelsBuilder) (hi : KeyedInv L b) (n : String)
    (hcache : ∀ e ∈ b.resultCache, n ∉ names e.2.all)
    (hU : n ∉ names (b.UnsortedLabels L none)) :
    n ∉ names ((b.LabelsResult L).1.Labels L) := by
  rw [names_Labels_iff]
  rcases LabelsResult_source L b hi with ⟨k, hk⟩ | hp
  · exact hcache _ hk
  · exact fun h => hU ((hp.map Label.Name).mem_iff.mp h)

theorem toUncategorizedResult_no_name (L : Lib) (b : LabelsBuilder) (buf : Labels)
    (n : String) (hcache : ∀ e ∈ b.resultCache, n ∉ names e.2.all) (hU : n ∉ names buf) :
    n ∉ names ((b.toUncategorizedResult L buf).1.Labels L) := by
  rw [names_Labels_iff]
  rcases toUncategorizedResult_source L b buf with ⟨k, hk⟩ | hp
  · exact hcache _ hk
  · rw [hp]
    exact hU

/-- Two results whose labels are, up to order and apart from the labels named
`MetricName`, a sequence and its restriction by a test on the names are related by that
restriction, apart from the labels named `MetricName`, when no name occurs twice. -/
theorem hashed_Labels_eq_filter (L : Lib) (r1 r2 : labelsResult) (seq : Labels)
    (p : String → Bool)
    (h1 : (hashedLabels (r1.Labels L)).Perm (hashedLabels (seq.filter fun l => p l.Name)))
    (h2 : (hashedLabels (r2.Labels L)).Perm (hashedLabels seq)) (hn : (names seq).Nodup) :
    hashedLabels (r1.Labels L) = hashedLabels ((r2.Labels L).filter (fun l => p l.Name)) := by
  have hperm : (hashedLabels ((r2.Labels L).filter (fun l => p l.Name))).Perm
      (hashedLabels (seq.filter fun l => p l.Name)) := by
    unfold hashedLabels at h2 ⊢
    rw [List.filter_comm, List.filter_comm (l := seq)]
    exact h2.filter _
  refine sorted_perm_unique (h1.trans hperm.symm)
    (List.Pairwise.filter _ (labelsResult.Labels_sorted L r1))
    (List.Pairwise.filter _ (List.Pairwise.filter _ (labelsResult.Labels_sorted L r2))) ?_
  refine (hperm.map Label.Name).nodup_iff.mpr ?_
  exact hn.sublist (((List.filter_sublist _).trans (List.filter_sublist _)).map _)

theorem filter_eq_of_hashed (ls : Labels) (p : Label → Bool) (h : MetricName ∉ names ls) :
    hashedLabels (ls.filter p) = ls.filter p :=
  hashedLabels_eq_self (fun hm => h ((List.filter_sublist ls).map Label.Name |>.subset hm))

/-! ## Grouping against the plain result, with the hasher of the source -/

/-- What a result of `toUncategorizedResult` holds, for a buffer that is a permutation
of a target sequence: the labels of the target apart from those named `MetricName`, and
no label named `MetricName` when the cached results and the target hold none. -/
theorem uncategorized_facts (L : Lib) (b b1 : LabelsBuilder) (hcf : HasherCollisionFree L)
    (hi : KeyedInv L b) (hb1 : b1.resultCache = b.resultCache) (buf target : Labels)
    (hp : buf.Perm target) :
    (hashedLabels ((b1.toUncategorizedResult L buf).1.Labels L)).Perm (hashedLabels target) ∧
    ((∀ e ∈ b.resultCache, MetricName ∉ names e.2.all) → MetricName ∉ names target →
      MetricName ∉ names ((b1.toUncategorizedResult L buf).1.Labels L)) := by
  constructor
  · exact ((toUncategorizedResult_keyedEntry L b1 buf (hb1 ▸ hi.entries)).hashed_perm hcf).trans
      (hashedLabels_perm hp)
  · intro hc ht
    exact toUncategorizedResult_no_name L b1 buf MetricName (hb1 ▸ hc)
      (fun h => ht ((hp.map Label.Name).mem_iff.mp h))

/-- From what a grouped result holds to the comparison with `LabelsResult()`: equal to
its restriction by the test `p` on the names apart from the labels named `MetricName`,
and equal to it exactly when no cached result, base label or staged label is named
`MetricName`. -/
theorem grouped_of_facts (L : Lib) (b : LabelsBuilder) (hcf : HasherCollisionFree L)
    (hk : Keyed L b) (hbase : (names b.base).Nodup) (he : b.err = "")
    (hed : b.errDetails = "") (p : String → Bool) (r : labelsResult)
    (hG : (hashedLabels (r.Labels L)).Perm
      (hashedLabels ((b.UnsortedLabels L none).filter fun l => p l.Name)) ∧
      ((∀ e ∈ b.resultCache, MetricName ∉ names e.2.all) →
        MetricName ∉ names ((b.UnsortedLabels L none).filter fun l => p l.Name) →
        MetricName ∉ names (r.Labels L))) :
    hashedLabels (r.Labels L)
      = hashedLabels (((b.LabelsResult L).1.Labels L).filter (fun l => p l.Name)) ∧
    ((∀ e ∈ b.resultCache, MetricName ∉ names e.2.all) → MetricName ∉ names b.base →
      MetricName ∉ b.stagedNames →
      r.Labels L = ((b.LabelsResult L).1.Labels L).filter (fun l => p l.Name)) := by
  have hi := hk.keyedInv
  have hb := hk.toReachable.inv
  have part1 := hashed_Labels_eq_filter L r (b.LabelsResult L).1 (b.UnsortedLabels L none) p
    hG.1 (LabelsResult_hashed_perm L b hcf hi he hed)
    (UnsortedLabels_names_nodup L b hb hbase he hed)
  refine ⟨part1, ?_⟩
  intro hc hbm hsm
  have hU := UnsortedLabels_no_name L b MetricName hbm hsm he hed
  have f1 := hG.2 hc
    (fun h => hU ((List.filter_sublist (b.UnsortedLabels L none)).map Label.Name |>.subset h))
  have f2 := LabelsResult_no_name L b hi MetricName hc hU
  rw [← hashedLabels_eq_self f1, part1, filter_eq_of_hashed _ _ f2]

/-- What the memoised base group holds, for a library builder whose result is a
permutation of a target sequence. -/
theorem baseGroup_facts (L : Lib) (b : LabelsBuilder) (hi : KeyedInv L b) (target : Labels)
    (hp : (if b.without = true then L.builderDel b.base b.groups
      else L.builderKeep b.base b.groups).Perm target) :
    (hashedLabels ((b.toBaseGroup L).1.Labels L)).Perm (hashedLabels target) ∧
    ((∀ e ∈ b.resultCache, MetricName ∉ names e.2.all) → MetricName ∉ names target →
      MetricName ∉ names ((b.toBaseGroup L).1.Labels L)) := by
  rw [toBaseGroup_fst L b hi.grouped]
  have hperm := (baseGroupResult_Labels_perm L b).trans hp
  exact ⟨hashedLabels_perm hperm, fun _ ht h => ht ((hperm.map Label.Name).mem_iff.mp h)⟩

/-- C11, amended.  Take a builder of a query whose lines are all started by `ForLabels`
with the hasher's hash of the base, a hasher without collision on the labels it reads
(all but those named `__name__`), and a library `Keep` that returns the labels named in
its arguments when no label has an empty value.  Let `without=false`, `noLabels=false`,
the groups be non-empty and pairwise distinct, no error and no error details be set,
and the base have no name twice (and, when the builder is unmodified, no empty value).
If no deleted group name is staged again as structured metadata or parsed, and every
group name staged as a stream label and not deleted is a base name, then
`GroupedLabels().Labels()` and `LabelsResult().Labels()` restricted to the labels whose
names are in the groups hold the same labels apart from those named `__name__`; and
they are equal when no cached result, base label or staged label is named
`__name__`. -/
theorem GroupedLabels_keep (L : Lib) (b : LabelsBuilder) (hk : Keyed L b)
    (hcf : HasherCollisionFree L)
    (hkeep : ∀ ls gs, (∀ l ∈ ls, l.Value ≠ "") →
      (L.builderKeep ls gs).Perm (ls.filter fun l => gs.contains l.Name))
    (he : b.err = "") (hed : b.errDetails = "") (hno : b.noLabels = false)
    (hw : b.without = false) (hg : b.groups ≠ []) (hgn : b.groups.Nodup)
    (hbase : (names b.base).Nodup)
    (hval : b.hasDel = false → b.hasAdd = false → ∀ l ∈ b.base, l.Value ≠ "")
    (h1 : ∀ g ∈ b.groups, g ∈ b.del →
      g ∉ names b.addStructuredMetadata ∧ g ∉ names b.addParsed)
    (h2 : ∀ g ∈ b.groups, g ∈ names b.addStream → g ∉ b.del → g ∈ names b.base) :
    hashedLabels ((b.GroupedLabels L).1.Labels L)
      = hashedLabels (((b.LabelsResult L).1.Labels L).filter
          (fun l => b.groups.contains l.Name)) ∧
    ((∀ e ∈ b.resultCache, MetricName ∉ names e.2.all) → MetricName ∉ names b.base →
      MetricName ∉ b.stagedNames →
      (b.GroupedLabels L).1.Labels L
        = ((b.LabelsResult L).1.Labels L).filter (fun l => b.groups.contains l.Name)) := by
  have hi := hk.keyedInv
  have hb := hk.toReachable.inv
  refine grouped_of_facts L b hcf hk hbase he hed (fun s => b.groups.contains s) _ ?_
  have herr : ¬ b.HasErr = true := by simp [LabelsBuilder.HasErr, he]
  have hno1 : ¬ b.noLabels = true := by simp [hno]
  have hw1 : ¬ b.without = true := by simp [hw]
  have hgl : ¬ b.groups.length = 0 := fun h0 => hg (List.length_eq_zero.mp h0)
  by_cases hun : (!b.hasDel && !b.hasAdd) = true
  · have e : b.GroupedLabels L = b.toBaseGroup L := by
      unfold LabelsBuilder.GroupedLabels
      rw [if_neg herr, if_neg hno1, if_pos hun, if_neg hgl]
    simp only [Bool.and_eq_true, Bool.not_eq_true'] at hun
    rw [e, UnsortedLabels_unmodified L b hun.1 hun.2 he hed]
    refine baseGroup_facts L b hi _ ?_
    rw [if_neg hw1]
    exact hkeep _ _ (hval hun.1 hun.2)
  · have e : b.GroupedLabels L = b.withResult L := by
      unfold LabelsBuilder.GroupedLabels
      rw [if_neg herr, if_neg hno1, if_neg hun, if_neg hgl, if_neg hw1]
    rw [e]
    unfold LabelsBuilder.withResult
    dsimp only
    refine uncategorized_facts L b _ hcf hi ?_ _ _
      (withLoop_perm L b hb hbase he hed hgn h1 h2)
    split <;> rfl

/-- C12, amended.  Take a builder of a query whose lines are all started by `ForLabels`
with the hasher's hash of the base, a hasher without collision on the labels it reads
(all but those named `__name__`), and a library `Del` that returns the labels not named
in its arguments when no label has an empty value.  Let `without=true`,
`noLabels=false`, the groups be non-empty, no error and no error details be set, and
the base have no name twice (and, when the builder is unmodified, no empty value).  If
every name staged as a stream label and not in the groups is an undeleted base name,
then `GroupedLabels().Labels()` is sorted by name; it and `LabelsResult().Labels()`
without the labels whose names are in the groups hold the same labels apart from those
named `__name__`; and they are equal when no cached result, base label or staged label
is named `__name__`. -/
theorem GroupedLabels_without (L : Lib) (b : LabelsBuilder) (hk : Keyed L b)
    (hcf : HasherCollisionFree L)
    (hdel : ∀ ls gs, (∀ l ∈ ls, l.Value ≠ "") →
      (L.builderDel ls gs).Perm (ls.filter fun l => !gs.contains l.Name))
    (he : b.err = "") (hed : b.errDetails = "") (hno : b.noLabels = false)
    (hw : b.without = true) (hg : b.groups ≠ []) (hbase : (names b.base).Nodup)
    (hval : b.hasDel = false → b.hasAdd = false → ∀ l ∈ b.base, l.Value ≠ "")
    (h2 : ∀ n ∈ names b.addStream, n ∉ b.groups → n ∈ names b.base ∧ n ∉ b.del) :
    List.Sorted nameLE ((b.GroupedLabels L).1.Labels L) ∧
    hashedLabels ((b.GroupedLabels L).1.Labels L)
      = hashedLabels (((b.LabelsResult L).1.Labels L).filter
          (fun l => !b.groups.contains l.Name)) ∧
    ((∀ e ∈ b.resultCache, MetricName ∉ names e.2.all) → MetricName ∉ names b.base →
      MetricName ∉ b.stagedNames →
      (b.GroupedLabels L).1.Labels L
        = ((b.LabelsResult L).1.Labels L).filter (fun l => !b.groups.contains l.Name)) := by
  have hi := hk.keyedInv
  have hb := hk.toReachable.inv
  refine ⟨labelsResult.Labels_sorted L _, ?_⟩
  refine grouped_of_facts L b hcf hk hbase he hed (fun s => !b.groups.contains s) _ ?_
  have herr : ¬ b.HasErr = true := by simp [LabelsBuilder.HasErr, he]
  have hno1 : ¬ b.noLabels = true := by simp [hno]
  have hgl : ¬ b.groups.length = 0 := fun h0 => hg (List.length_eq_zero.mp h0)
  by_cases hun : (!b.hasDel && !b.hasAdd) = true
  · have e : b.GroupedLabels L = b.toBaseGroup L := by
      unfold LabelsBuilder.GroupedLabels
      rw [if_neg herr, if_neg hno1, if_pos hun, if_neg hgl]
    simp only [Bool.and_eq_true, Bool.not_eq_true'] at hun
    rw [e, UnsortedLabels_unmodified L b hun.1 hun.2 he hed]
    refine baseGroup_facts L b hi _ ?_
    rw [if_pos hw]
    exact hdel _ _ (hval hun.1 hun.2)
  · have e : b.GroupedLabels L = b.withoutResult L := by
      unfold LabelsBuilder.GroupedLabels
      rw [if_neg herr, if_neg hno1, if_neg hun, if_neg hgl, if_pos hw]
    rw [e]
    unfold LabelsBuilder.withoutResult
    dsimp only
    refine uncategorized_facts L b _ hcf hi ?_ _ _
      ((L.sortSort_perm _).trans (withoutBuf_perm L b hb hbase he hed h2))
    split <;> rfl

theorem promLib_builderKeep_spec (ls : Labels) (gs : List String)
    (h : ∀ l ∈ ls, l.Value ≠ "") :
    (promLib.builderKeep ls gs).Perm (ls.filter fun l => gs.contains l.Name) :=
  stdLib_builderKeep_spec ls gs h

theorem promLib_builderDel_spec (ls : Labels) (gs : List String)
    (h : ∀ l ∈ ls, l.Value ≠ "") :
    (promLib.builderDel ls gs).Perm (ls.filter fun l => !gs.contains l.Name) :=
  stdLib_builderDel_spec ls gs h

theorem exampleKeepParsed_keyed : Keyed promLib exampleKeepParsed :=
  Keyed.set exampleKeep exampleKeepParsed ParsedLabel "b" "5"
    (Keyed.fresh ["a", "b"] false false
      [{ Name := "a", Value := "1" }, { Name := "c", Value := "3" }])
    (by decide)

/-- Instance of C11 (amended), with the hasher of the source: the example of the
specification after `Set(ParsedLabel, "b", "5")`; and the example itself, which yields
exactly `a="1"`. -/
theorem GroupedLabels_keep_witness :
    (Keyed promLib exampleKeepParsed ∧ HasherCollisionFree promLib ∧
      (∀ ls gs, (∀ l ∈ ls, l.Value ≠ "") →
        (promLib.builderKeep ls gs).Perm (ls.filter fun l => gs.contains l.Name)) ∧
      exampleKeepParsed.err = "" ∧ exampleKeepParsed.errDetails = "" ∧
      exampleKeepParsed.noLabels = false ∧ exampleKeepParsed.without = false ∧
      exampleKeepParsed.groups ≠ [] ∧ exampleKeepParsed.groups.Nodup ∧
      (names exampleKeepParsed.base).Nodup ∧
      (exampleKeepParsed.hasDel = false → exampleKeepParsed.hasAdd = false →
        ∀ l ∈ exampleKeepParsed.base, l.Value ≠ "") ∧
      (∀ g ∈ exampleKeepParsed.groups, g ∈ exampleKeepParsed.del →
        g ∉ names exampleKeepParsed.addStructuredMetadata ∧
        g ∉ names exampleKeepParsed.addParsed) ∧
      (∀ g ∈ exampleKeepParsed.groups, g ∈ names exampleKeepParsed.addStream →
        g ∉ exampleKeepParsed.del → g ∈ names exampleKeepParsed.base)) ∧
    (hashedLabels ((exampleKeepParsed.GroupedLabels promLib).1.Labels promLib)
        = hashedLabels (((exampleKeepParsed.LabelsResult promLib).1.Labels promLib).filter
            (fun l => exampleKeepParsed.groups.contains l.Name)) ∧
      ((∀ e ∈ exampleKeepParsed.resultCache, MetricName ∉ names e.2.all) →
        MetricName ∉ names exampleKeepParsed.base →
        MetricName ∉ exampleKeepParsed.stagedNames →
        (exampleKeepParsed.GroupedLabels promLib).1.Labels promLib
          = ((exampleKeepParsed.LabelsResult promLib).1.Labels promLib).filter
              (fun l => exampleKeepParsed.groups.contains l.Name))) ∧
    ((∀ e ∈ exampleKeepParsed.resultCache, MetricName ∉ names e.2.all) ∧
      MetricName ∉ names exampleKeepParsed.base ∧
      MetricName ∉ exampleKeepParsed.stagedNames) ∧
    (exampleKeepParsed.GroupedLabels promLib).1.Labels promLib
      = [{ Name := "a", Value := "1" }, { Name := "b", Value := "5" }] ∧
    (exampleKeep.GroupedLabels promLib).1.Labels promLib = [{ Name := "a", Value := "1" }] ∧
    ((exampleKeep.LabelsResult promLib).1.Labels promLib).filter
        (fun l => exampleKeep.groups.contains l.Name) = [{ Name := "a", Value := "1" }] :=
  have hval : exampleKeepParsed.hasDel = false → exampleKeepParsed.hasAdd = false →
      ∀ l ∈ exampleKeepParsed.base, l.Value ≠ "" := by decide
  have h1 : ∀ g ∈ exampleKeepParsed.groups, g ∈ exampleKeepParsed.del →
      g ∉ names exampleKeepParsed.addStructuredMetadata ∧
      g ∉ names exampleKeepParsed.addParsed := by decide
  have h2 : ∀ g ∈ exampleKeepParsed.groups, g ∈ names exampleKeepParsed.addStream →
      g ∉ exampleKeepParsed.del → g ∈ names exampleKeepParsed.base := by decide
  ⟨⟨exampleKeepParsed_keyed, promLib_collisionFree, promLib_builderKeep_spec, by decide,
      by decide, by decide, by decide, by decide, by decide, by decide, hval, h1, h2⟩,
    GroupedLabels_keep promLib exampleKeepParsed exampleKeepParsed_keyed
      promLib_collisionFree promLib_builderKeep_spec (by decide) (by decide) (by decide)
      (by decide) (by decide) (by decide) (by decide) hval h1 h2,
    ⟨by decide, by decide, by decide⟩, by decide, by decide, by decide⟩

theorem exampleNameSecond_keyed : Keyed promLib exampleNameSecond :=
  Keyed.del _ exampleNameSecond ["zz"]
    (Keyed.forLabels exampleNameFirst.Reset
      [{ Name := "__name__", Value := "m" }, { Name := "a", Value := "1" },
       { Name := "c", Value := "3" }]
      (Keyed.reset exampleNameFirst
        (Keyed.fresh ["__name__", "a"] false false [{ Name := "a", Value := "1" }])))
    (by decide)

/-- C11 as stated fails.  (1) With only error details set (no error), on the builder
over `a="1"`, `c="3"` with the groups `__error_details__`, `a` after `Del("c")` and
`SetErrorDetails("d")`, `LabelsResult().Labels()` holds `__error_details__="d"` and
`a="1"`, both named in the groups, while `GroupedLabels().Labels()` is `a="1"` only.
(2) On the example of the specification after `Del("a")` and
`Set(ParsedLabel, "a", "2")`, `LabelsResult().Labels()` restricted to the groups is
`a="2"` while `GroupedLabels().Labels()` is empty.  (3) With the groups `a`, `a`,
`GroupedLabels().Labels()` holds `a="1"` twice.  (4) On the example after
`Set(StreamLabel, "b", "5")`, `GroupedLabels().Labels()` holds `b="5"`, which
`LabelsResult().Labels()` does not.  (5) With the hasher of the source, which does not
read the labels named `__name__`: in a query with the groups `__name__`, `a` whose first
line has the base `a="1"`, on the second line over `__name__="m"`, `a="1"`, `c="3"`
after `Del("zz")`, `LabelsResult().Labels()` restricted to the groups is `__name__="m"`,
`a="1"` while `GroupedLabels().Labels()` is the result cached for the first line,
`a="1"`. -/
theorem GroupedLabels_keep_counterexample :
    (exampleKeepDetails.without = false ∧ exampleKeepDetails.noLabels = false ∧
      exampleKeepDetails.groups ≠ [] ∧ exampleKeepDetails.err = "" ∧
      (((NewBaseLabelsBuilderWithGrouping ["__error_details__", "a"] false false).ForLabels
          promLib [{ Name := "a", Value := "1" }, { Name := "c", Value := "3" }]
          (promLib.hasherHash [{ Name := "a", Value := "1" }, { Name := "c", Value := "3" }])).Del
        ["c"]).map (fun b => b.SetErrorDetails "d") = some exampleKeepDetails ∧
      ((exampleKeepDetails.LabelsResult promLib).1.Labels promLib).filter
          (fun l => exampleKeepDetails.groups.contains l.Name)
        = [{ Name := "__error_details__", Value := "d" }, { Name := "a", Value := "1" }] ∧
      (exampleKeepDetails.GroupedLabels promLib).1.Labels promLib
        = [{ Name := "a", Value := "1" }]) ∧
    (exampleKeepReadded.without = false ∧ exampleKeepReadded.noLabels = false ∧
      exampleKeepReadded.groups ≠ [] ∧ exampleKeepReadded.err = "" ∧
      exampleKeepReadded.errDetails = "" ∧
      (exampleKeep.Del ["a"]).bind (fun b => b.Set ParsedLabel "a" "2")
        = some exampleKeepReadded ∧
      ((exampleKeepReadded.LabelsResult promLib).1.Labels promLib).filter
          (fun l => exampleKeepReadded.groups.contains l.Name)
        = [{ Name := "a", Value := "2" }] ∧
      (exampleKeepReadded.GroupedLabels promLib).1.Labels promLib = []) ∧
    (exampleKeepTwice.without = false ∧ exampleKeepTwice.noLabels = false ∧
      exampleKeepTwice.groups = ["a", "a"] ∧ exampleKeepTwice.err = "" ∧
      exampleKeepTwice.errDetails = "" ∧
      ((exampleKeepTwice.LabelsResult promLib).1.Labels promLib).filter
          (fun l => exampleKeepTwice.groups.contains l.Name)
        = [{ Name := "a", Value := "1" }] ∧
      (exampleKeepTwice.GroupedLabels promLib).1.Labels promLib
        = [{ Name := "a", Value := "1" }, { Name := "a", Value := "1" }]) ∧
    (exampleKeepStream.without = false ∧ exampleKeepStream.noLabels = false ∧
      exampleKeepStream.groups ≠ [] ∧ exampleKeepStream.err = "" ∧
      exampleKeepStream.errDetails = "" ∧
      exampleKeep.Set StreamLabel "b" "5" = some exampleKeepStream ∧
      ((exampleKeepStream.LabelsResult promLib).1.Labels promLib).filter
          (fun l => exampleKeepStream.groups.contains l.Name)
        = [{ Name := "a", Value := "1" }] ∧
      (exampleKeepStream.GroupedLabels promLib).1.Labels promLib
        = [{ Name := "a", Value := "1" }, { Name := "b", Value := "5" }]) ∧
    (Keyed promLib exampleNameSecond ∧ HasherCollisionFree promLib ∧
      exampleNameSecond.without = false ∧ exampleNameSecond.noLabels = false ∧
      exampleNameSecond.groups = ["__name__", "a"] ∧ exampleNameSecond.err = "" ∧
      exampleNameSecond.errDetails = "" ∧ (names exampleNameSecond.base).Nodup ∧
      exampleNameSecond.hasAdd = false ∧
      ((exampleNameSecond.LabelsResult promLib).1.Labels promLib).filter
          (fun l => exampleNameSecond.groups.contains l.Name)
        = [{ Name := "__name__", Value := "m" }, { Name := "a", Value := "1" }] ∧
      (exampleNameSecond.GroupedLabels promLib).1.Labels promLib
        = [{ Name := "a", Value := "1" }]) :=
  ⟨⟨by decide, by decide, by decide, by decide, by decide, by decide, by decide⟩,
    ⟨by decide, by decide, by decide, by decide, by decide, by decide, by decide, by decide⟩,
    ⟨by decide, by decide, by decide, by decide, by decide, by decide, by decide⟩,
    ⟨by decide, by decide, by decide, by decide, by decide, by decide, by decide, by decide⟩,
    ⟨exampleNameSecond_keyed, promLib_collisionFree, by decide, by decide, by decide,
      by decide, by decide, by decide, by decide, by decide, by decide⟩⟩

theorem exampleWithoutParsed_keyed : Keyed promLib exampleWithoutParsed :=
  Keyed.set exampleWithout exampleWithoutParsed ParsedLabel "level" "error"
    (Keyed.fresh ["a"] true false
      [{ Name := "a", Value := "1" }, { Name := "b", Value := "2" }])
    (by decide)

/-- Instance of C12 (amended), with the hasher of the source: the example of the
specification after `Set(ParsedLabel, "level", "error")`; and the example itself, which
yields `b="2"`. -/
theorem GroupedLabels_without_witness :
    (Keyed promLib exampleWithoutParsed ∧ HasherCollisionFree promLib ∧
      (∀ ls gs, (∀ l ∈ ls, l.Value ≠ "") →
        (promLib.builderDel ls gs).Perm (ls.filter fun l => !gs.contains l.Name)) ∧
      exampleWithoutParsed.err = "" ∧ exampleWithoutParsed.errDetails = "" ∧
      exampleWithoutParsed.noLabels = false ∧ exampleWithoutParsed.without = true ∧
      exampleWithoutParsed.groups ≠ [] ∧ (names exampleWithoutParsed.base).Nodup ∧
      (exampleWithoutParsed.hasDel = false → exampleWithoutParsed.hasAdd = false →
        ∀ l ∈ exampleWithoutParsed.base, l.Value ≠ "") ∧
      (∀ n ∈ names exampleWithoutParsed.addStream, n ∉ exampleWithoutParsed.groups →
        n ∈ names exampleWithoutParsed.base ∧ n ∉ exampleWithoutParsed.del)) ∧
    (List.Sorted nameLE ((exampleWithoutParsed.GroupedLabels promLib).1.Labels promLib) ∧
      hashedLabels ((exampleWithoutParsed.GroupedLabels promLib).1.Labels promLib)
        = hashedLabels (((exampleWithoutParsed.LabelsResult promLib).1.Labels promLib).filter
            (fun l => !exampleWithoutParsed.groups.contains l.Name)) ∧
      ((∀ e ∈ exampleWithoutParsed.resultCache, MetricName ∉ names e.2.all) →
        MetricName ∉ names exampleWithoutParsed.base →
        MetricName ∉ exampleWithoutParsed.stagedNames →
        (exampleWithoutParsed.GroupedLabels promLib).1.Labels promLib
          = ((exampleWithoutParsed.LabelsResult promLib).1.Labels promLib).filter
              (fun l => !exampleWithoutParsed.groups.contains l.Name))) ∧
    ((∀ e ∈ exampleWithoutParsed.resultCache, MetricName ∉ names e.2.all) ∧
      MetricName ∉ names exampleWithoutParsed.base ∧
      MetricName ∉ exampleWithoutParsed.stagedNames) ∧
    (exampleWithoutParsed.GroupedLabels promLib).1.Labels promLib
      = [{ Name := "b", Value := "2" }, { Name := "level", Value := "error" }] ∧
    (exampleWithout.GroupedLabels promLib).1.Labels promLib
      = [{ Name := "b", Value := "2" }] ∧
    ((exampleWithout.LabelsResult promLib).1.Labels promLib).filter
        (fun l => !exampleWithout.groups.contains l.Name) = [{ Name := "b", Value := "2" }] :=
  have hval : exampleWithoutParsed.hasDel = false → exampleWithoutParsed.hasAdd = false →
      ∀ l ∈ exampleWithoutParsed.base, l.Value ≠ "" := by decide
  have h2 : ∀ n ∈ names exampleWithoutParsed.addStream, n ∉ exampleWithoutParsed.groups →
      n ∈ names exampleWithoutParsed.base ∧ n ∉ exampleWithoutParsed.del := by decide
  ⟨⟨exampleWithoutParsed_keyed, promLib_collisionFree, promLib_builderDel_spec, by decide,
      by decide, by decide, by decide, by decide, by decide, hval, h2⟩,
    GroupedLabels_without promLib exampleWithoutParsed exampleWithoutParsed_keyed
      promLib_collisionFree promLib_builderDel_spec (by decide) (by decide) (by decide)
      (by decide) (by decide) (by decide) hval h2,
    ⟨by decide, by decide, by decide⟩, by decide, by decide, by decide⟩

theorem exampleNameWithoutSecond_keyed : Keyed promLib exampleNameWithoutSecond :=
  Keyed.del _ exampleNameWithoutSecond ["zz"]
    (Keyed.forLabels exampleNameWithoutFirst.Reset
      [{ Name := "__name__", Value := "m" }, { Name := "a", Value := "1" },
       { Name := "c", Value := "3" }]
      (Keyed.reset exampleNameWithoutFirst
        (Keyed.fresh ["c"] true false [{ Name := "a", Value := "1" }])))
    (by decide)

/-- C12 as stated fails.  (1) With only error details set (no error), on the example of
the specification after `Del("zz")` and `SetErrorDetails("d")`,
`LabelsResult().Labels()` without the group `a` is `__error_details__="d"`, `b="2"`
while `GroupedLabels().Labels()` is `b="2"` only.  (2) On the example after
`Set(StreamLabel, "c", "3")`, `LabelsResult().Labels()` without the group `a` is
`b="2"` while `GroupedLabels().Labels()` is `b="2"`, `c="3"`.  (3) With the hasher of the
source, which does not read the labels named `__name__`: in a query with the group `c`
whose first line has the base `a="1"`, on the second line over `__name__="m"`,
`a="1"`, `c="3"` after `Del("zz")`, `LabelsResult().Labels()` without the group is
`__name__="m"`, `a="1"` while `GroupedLabels().Labels()` is the result cached for the
first line, `a="1"`. -/
theorem GroupedLabels_without_counterexample :
    (exampleWithoutDetails.without = true ∧ exampleWithoutDetails.noLabels = false ∧
      exampleWithoutDetails.groups ≠ [] ∧ exampleWithoutDetails.err = "" ∧
      (exampleWithout.Del ["zz"]).map (fun b => b.SetErrorDetails "d")
        = some exampleWithoutDetails ∧
      ((exampleWithoutDetails.LabelsResult promLib).1.Labels promLib).filter
          (fun l => !exampleWithoutDetails.groups.contains l.Name)
        = [{ Name := "__error_details__", Value := "d" }, { Name := "b", Value := "2" }] ∧
      (exampleWithoutDetails.GroupedLabels promLib).1.Labels promLib
        = [{ Name := "b", Value := "2" }]) ∧
    (exampleWithoutStream.without = true ∧ exampleWithoutStream.noLabels = false ∧
      exampleWithoutStream.groups ≠ [] ∧ exampleWithoutStream.err = "" ∧
      exampleWithoutStream.errDetails = "" ∧
      exampleWithout.Set StreamLabel "c" "3" = some exampleWithoutStream ∧
      ((exampleWithoutStream.LabelsResult promLib).1.Labels promLib).filter
          (fun l => !exampleWithoutStream.groups.contains l.Name)
        = [{ Name := "b", Value := "2" }] ∧
      (exampleWithoutStream.GroupedLabels promLib).1.Labels promLib
        = [{ Name := "b", Value := "2" }, { Name := "c", Value := "3" }]) ∧
    (Keyed promLib exampleNameWithoutSecond ∧ HasherCollisionFree promLib ∧
      exampleNameWithoutSecond.without = true ∧ exampleNameWithoutSecond.noLabels = false ∧
      exampleNameWithoutSecond.groups = ["c"] ∧ exampleNameWithoutSecond.err = "" ∧
      exampleNameWithoutSecond.errDetails = "" ∧
      (names exampleNameWithoutSecond.base).Nodup ∧
      exampleNameWithoutSecond.hasAdd = false ∧
      ((exampleNameWithoutSecond.LabelsResult promLib).1.Labels promLib).filter
          (fun l => !exampleNameWithoutSecond.groups.contains l.Name)
        = [{ Name := "__name__", Value := "m" }, { Name := "a", Value := "1" }] ∧
      (exampleNameWithoutSecond.GroupedLabels promLib).1.Labels promLib
        = [{ Name := "a", Value := "1" }]) :=
  ⟨⟨by decide, by decide, by decide, by decide, by decide, by decide, by decide⟩,
    ⟨by decide, by decide, by decide, by decide, by decide, by decide, by decide, by decide⟩,
    ⟨exampleNameWithoutSecond_keyed, promLib_collisionFree, by decide, by decide, by decide,
      by decide, by decide, by decide, by decide, by decide, by decide⟩⟩

/-! ## The error labels in the plain result -/

theorem exampleErrorBase_keyed : Keyed promLib exampleErrorBase :=
  Keyed.setErr { exampleErrorBase with err := "" } "boom"
    (Keyed.del _ { exampleErrorBase with err := "" } ["__error__"]
      (Keyed.fresh [] false false [{ Name := "__error__", Value := "boom" }])
      (by decide))

/-- C9, amended.  In every builder state with a deletion, a pending addition or a
non-empty error value: when the result cache has no entry under the hash of the sorted
finalized sequence, the result of `LabelsResult()` contains the error label with value
`err` among its `Labels()` and in its `Parsed()` subset when `err` is non-empty, and the
error-details label with value `errDetails` likewise when `errDetails` is non-empty;
and for a builder of a query whose lines are all started by `ForLabels` with the
hasher's hash of the base, with a hasher without collision on the labels it reads (all
but those named `__name__`, which the two reserved error names are not), both labels
are among its `Labels()` on a cache hit as well. -/
theorem LabelsResult_error_labels (L : Lib) (b : LabelsBuilder)
    (hmod : b.hasDel = true ∨ b.hasAdd = true ∨ b.HasErr = true) :
    (b.resultCache.lookup (L.hasherHash (b.finalized L)) = none →
      (b.err ≠ "" →
        ({ Name := L.ErrorLabel, Value := b.err } : Label) ∈ (b.LabelsResult L).1.Labels L ∧
        ({ Name := L.ErrorLabel, Value := b.err } : Label) ∈ (b.LabelsResult L).1.Parsed) ∧
      (b.errDetails ≠ "" →
        ({ Name := L.ErrorDetailsLabel, Value := b.errDetails } : Label)
          ∈ (b.LabelsResult L).1.Labels L ∧
        ({ Name := L.ErrorDetailsLabel, Value := b.errDetails } : Label)
          ∈ (b.LabelsResult L).1.Parsed)) ∧
    (Keyed L b → HasherCollisionFree L → L.ErrorLabel ≠ MetricName →
      L.ErrorDetailsLabel ≠ MetricName →
      (b.err ≠ "" →
        ({ Name := L.ErrorLabel, Value := b.err } : Label) ∈ (b.LabelsResult L).1.Labels L) ∧
      (b.errDetails ≠ "" →
        ({ Name := L.ErrorDetailsLabel, Value := b.errDetails } : Label)
          ∈ (b.LabelsResult L).1.Labels L)) := by
  have hUe : b.err ≠ "" →
      ({ Name := L.ErrorLabel, Value := b.err } : Label) ∈ b.UnsortedLabels L none := by
    intro h
    rw [UnsortedLabels_none]
    exact mem_appendErrors_err L b _ h
  have hUd : b.errDetails ≠ "" →
      ({ Name := L.ErrorDetailsLabel, Value := b.errDetails } : Label)
        ∈ b.UnsortedLabels L none := by
    intro h
    rw [UnsortedLabels_none]
    exact mem_appendErrors_errDetails L b _ h
  constructor
  · intro hmiss
    exact ⟨fun h => LabelsResult_reserved_mem L b hmod hmiss _ (hUe h) (Or.inl rfl),
      fun h => LabelsResult_reserved_mem L b hmod hmiss _ (hUd h) (Or.inr rfl)⟩
  · intro hk hcf hE hD
    have hperm := LabelsResult_hashed_perm_modified L b hcf hk.keyedInv.entries hmod
    have hin : ∀ l : Label, l ∈ b.UnsortedLabels L none → l.Name ≠ MetricName →
        l ∈ (b.LabelsResult L).1.Labels L := by
      intro l hl hn
      have h1 : l ∈ hashedLabels (b.UnsortedLabels L none) :=
        List.mem_filter.mpr ⟨hl, by simpa using hn⟩
      exact (List.mem_filter.mp (hperm.mem_iff.mpr h1)).1
    exact ⟨fun h => hin _ (hUe h) hE, fun h => hin _ (hUd h) hD⟩

/-- Instance of C9 (amended), with the hasher of the source.  On a cache miss: the
example of the specification with an error and error details set.  On a cache hit: the
builder over `__error__="boom"` after `Del("__error__")` and `SetErr("boom")`, whose
result holds the error label among its `Labels()` though not in `Parsed()`. -/
theorem LabelsResult_error_labels_witness :
    ((exampleError.hasDel = true ∨ exampleError.hasAdd = true ∨ exampleError.HasErr = true) ∧
      exampleError.resultCache.lookup (promLib.hasherHash (exampleError.finalized promLib))
        = none ∧ exampleError.err ≠ "" ∧ exampleError.errDetails ≠ "") ∧
    ((({ Name := promLib.ErrorLabel, Value := exampleError.err } : Label)
          ∈ (exampleError.LabelsResult promLib).1.Labels promLib ∧
        ({ Name := promLib.ErrorLabel, Value := exampleError.err } : Label)
          ∈ (exampleError.LabelsResult promLib).1.Parsed) ∧
      (({ Name := promLib.ErrorDetailsLabel, Value := exampleError.errDetails } : Label)
          ∈ (exampleError.LabelsResult promLib).1.Labels promLib ∧
        ({ Name := promLib.ErrorDetailsLabel, Value := exampleError.errDetails } : Label)
          ∈ (exampleError.LabelsResult promLib).1.Parsed)) ∧
    (exampleError.LabelsResult promLib).1.Parsed =
      [{ Name := "__error__", Value := "boom" }, { Name := "__error_details__", Value := "at 3" },
       { Name := "level", Value := "error" }] ∧
    ((exampleErrorBase.hasDel = true ∨ exampleErrorBase.hasAdd = true ∨
        exampleErrorBase.HasErr = true) ∧
      Keyed promLib exampleErrorBase ∧ HasherCollisionFree promLib ∧
      promLib.ErrorLabel ≠ MetricName ∧ promLib.ErrorDetailsLabel ≠ MetricName ∧
      exampleErrorBase.err ≠ "" ∧
      exampleErrorBase.resultCache.lookup
          (promLib.hasherHash (exampleErrorBase.finalized promLib))
        = some (exampleErrorBase.LabelsResult promLib).1) ∧
    (({ Name := promLib.ErrorLabel, Value := exampleErrorBase.err } : Label)
        ∈ (exampleErrorBase.LabelsResult promLib).1.Labels promLib ∧
      (exampleErrorBase.LabelsResult promLib).1.Labels promLib
        = [{ Name := "__error__", Value := "boom" }] ∧
      (exampleErrorBase.LabelsResult promLib).1.Parsed = []) :=
  have hmod : exampleError.hasDel = true ∨ exampleError.hasAdd = true ∨
      exampleError.HasErr = true := Or.inr (Or.inr (by decide))
  have hmiss : exampleError.resultCache.lookup
      (promLib.hasherHash (exampleError.finalized promLib)) = none := by decide
  have h := (LabelsResult_error_labels promLib exampleError hmod).1 hmiss
  have hmodB : exampleErrorBase.hasDel = true ∨ exampleErrorBase.hasAdd = true ∨
      exampleErrorBase.HasErr = true := Or.inl (by decide)
  have hB := (LabelsResult_error_labels promLib exampleErrorBase hmodB).2
    exampleErrorBase_keyed promLib_collisionFree (by decide) (by decide)
  ⟨⟨hmod, hmiss, by decide, by decide⟩, ⟨h.1 (by decide), h.2 (by decide)⟩, by decide,
    ⟨hmodB, exampleErrorBase_keyed, promLib_collisionFree, by decide, by decide, by decide,
      by decide⟩,
    ⟨hB.1 (by decide), by decide, by decide⟩⟩

end Loki
